import Mathlib

/-!
# Advent of Code 2022: rope, register machine and monkey simulations

A shallow embedding of `9/solution.cpp`, `10/solution.cpp` and `11/solution.cpp`,
and of the overlap test of `4/solution.cpp`, the crate moves of `5/solution.cpp`
and the scenic scores of `8/solution.cpp`, together with the properties proved
about them.

Conventions of the embedding:

* `int`/`int32_t` and `int64_t` values are integers of `Int`; wherever the C++
  program narrows a wider value to such a type the narrowing is written with
  `wrap32`/`wrap64`.
* `std::size_t` counters that only count loop iterations are natural numbers.
* `std::unordered_set<Point>` is a `Finset Point`.
* `std::function` members are function-valued structure fields.
* `std::stack<char>` is the list of its elements, top first.
-/

/-- Two's-complement value of an integer narrowed to 32 bits. -/
def wrap32 (z : Int) : Int := (z + 2147483648) % 4294967296 - 2147483648

/-- Two's-complement value of an integer narrowed to 64 bits. -/
def wrap64 (z : Int) : Int :=
  (z + 9223372036854775808) % 18446744073709551616 - 9223372036854775808

/-! ## Day 9: the rope -/

namespace Day9

/-- The struct `Point` with its two `int32_t` coordinates. -/
structure Point where
  x : Int
  y : Int
deriving DecidableEq, Repr

/-- The enum `Motion::Direction`. -/
inductive Direction where
  | up
  | down
  | left
  | right
deriving DecidableEq, Repr

/-- The struct `Motion`. -/
structure Motion where
  direction : Direction
  magnitude : Nat
deriving DecidableEq, Repr

namespace Motion

def num_directions : Nat := 4

def num_diagonal_directions : Nat := 2

def unit_magnitude : Nat := 1

/-- The only constructor, `explicit Motion(direction_)`: a unit motion. -/
def ofDirection (direction_ : Direction) : Motion :=
  { direction := direction_, magnitude := unit_magnitude }

end Motion

/-- The function `in_touch`. The sums `point_2.x - 1` etc. are `int` arithmetic:
two's-complement results are taken where C++ leaves signed overflow undefined. -/
def in_touch (point_1 point_2 : Point) : Bool :=
  decide (point_1.x ≥ wrap32 (point_2.x - 1)) && decide (point_1.x ≤ wrap32 (point_2.x + 1)) &&
    decide (point_1.y ≥ wrap32 (point_2.y - 1)) && decide (point_1.y ≤ wrap32 (point_2.y + 1))

/-- The function `within_l1_distance_impl`; `static_cast<int>(limit)` is
`wrap32 limit` and the differences are `int` arithmetic. -/
def within_l1_distance_impl (lagging leading : Point) (limit : Nat)
    (direction : Direction) : Bool :=
  match direction with
  | Direction.up =>
      decide (wrap32 (leading.y - lagging.y) = wrap32 limit) && decide (leading.x = lagging.x)
  | Direction.down =>
      decide (wrap32 (lagging.y - leading.y) = wrap32 limit) && decide (leading.x = lagging.x)
  | Direction.right =>
      decide (wrap32 (leading.x - lagging.x) = wrap32 limit) && decide (leading.y = lagging.y)
  | Direction.left =>
      decide (wrap32 (lagging.x - leading.x) = wrap32 limit) && decide (leading.y = lagging.y)

/-- The array `directions` local to `direction_within_l1_distance`. -/
def directions : List Direction :=
  [Direction.up, Direction.down, Direction.left, Direction.right]

/-- The function `direction_within_l1_distance`: the one direction whose flag is
set, when exactly one flag is set. -/
def direction_within_l1_distance (lagging leading : Point) (limit : Nat) :
    Option Direction :=
  let directions_in_distance : List Bool :=
    directions.map (within_l1_distance_impl lagging leading limit)
  if directions_in_distance.count true ≠ 1 then none
  else directions[directions_in_distance.indexOf true]?

/-- The function `find_diagonal_directions`. -/
def find_diagonal_directions (lagging leading : Point) : List Direction :=
  [ if leading.y > lagging.y then Direction.up else Direction.down,
    if leading.x > lagging.x then Direction.right else Direction.left ]

def l1_distance_limit : Nat := 2

/-- The function `suggest_motion`. -/
def suggest_motion (lagging leading : Point) : List Motion :=
  if in_touch lagging leading then []
  else
    match direction_within_l1_distance lagging leading l1_distance_limit with
    | some direction => [Motion.ofDirection direction]
    | none => (find_diagonal_directions lagging leading).map Motion.ofDirection

/-- The tag types `Rope::Knot::Head`, `Middle` and `Tail`. -/
inductive Knot where
  | Head
  | Middle
  | Tail
deriving DecidableEq, Repr

/-- The class template `Rope::End<EndType>`. -/
structure End (EndType : Knot) where
  current_ : Point
  points_visited_ : Finset Point

namespace End

/-- Default member initialisers: `current_{}` and `points_visited_{current_}`. -/
def init {EndType : Knot} : End EndType :=
  { current_ := { x := 0, y := 0 }, points_visited_ := {{ x := 0, y := 0 }} }

def current_point {EndType : Knot} (e : End EndType) : Point := e.current_

def points_visited {EndType : Knot} (e : End EndType) : Finset Point :=
  e.points_visited_

/-- The private member `visit`. -/
def visit {EndType : Knot} (e : End EndType) (point : Point) : End EndType :=
  { e with points_visited_ := insert point e.points_visited_ }

/-- Default argument of `move`: `std::is_same_v<EndType, Knot::Head>`. -/
def should_track_visit_default (EndType : Knot) : Bool :=
  decide (EndType = Knot.Head)

/-- The member `move`. The compound assignment adds the `std::size_t` magnitude
in 64-bit unsigned arithmetic and narrows the sum back to `int32_t`. -/
def move {EndType : Knot} (e : End EndType) (motion : Motion)
    (should_track_visit : Bool) : End EndType :=
  let current_ : Point :=
    match motion.direction with
    | Direction.up => { e.current_ with y := wrap32 (e.current_.y + motion.magnitude) }
    | Direction.down => { e.current_ with y := wrap32 (e.current_.y - motion.magnitude) }
    | Direction.right => { e.current_ with x := wrap32 (e.current_.x + motion.magnitude) }
    | Direction.left => { e.current_ with x := wrap32 (e.current_.x - motion.magnitude) }
  let moved : End EndType := { e with current_ := current_ }
  if should_track_visit then moved.visit moved.current_ else moved

/-- The member `follow` (the template only enables it for a non-head knot): every
suggested motion is applied with the default tracking flag, then the final
position is visited. -/
def follow {EndType U : Knot} (e : End EndType) (end_ : End U) : End EndType :=
  let moved : End EndType :=
    (suggest_motion e.current_ end_.current_point).foldl
      (fun acc motion => acc.move motion (should_track_visit_default EndType)) e
  moved.visit moved.current_

end End

def num_knots : Nat := 10

/-- The tuple returned by `make_rope`. -/
structure Rope where
  head : End Knot.Head
  middle : List (End Knot.Middle)
  tail : End Knot.Tail

def make_rope : Rope :=
  { head := End.init, middle := List.replicate (num_knots - 2) End.init, tail := End.init }

/-- The two loops over `middle` in `main`: the first middle knot follows the
head, every later one follows its predecessor's new state. -/
def follow_middle : {U : Knot} → End U → List (End Knot.Middle) → List (End Knot.Middle)
  | _, _, [] => []
  | _, leader, m :: ms =>
      let m1 := m.follow leader
      m1 :: follow_middle m1 ms

/-- One iteration of the loop over `motions` in `main`. The array `middle` holds
`num_knots - 2 = 8` knots, so `*std::prev(middle.end())` always exists; the
fall-back branch is never taken for a rope built by `make_rope`. -/
def step (rope : Rope) (motion : Motion) : Rope :=
  let head := rope.head.move motion (End.should_track_visit_default Knot.Head)
  let middle := follow_middle head rope.middle
  let tail :=
    match middle.getLast? with
    | some last => rope.tail.follow last
    | none => rope.tail.follow head
  { head := head, middle := middle, tail := tail }

/-- The input loop of `main`: each line `<direction> <magnitude>` becomes
`magnitude` unit motions. -/
def parse_motions (lines : List (Direction × Nat)) : List Motion :=
  lines.flatMap (fun line => List.replicate line.2 (Motion.ofDirection line.1))

/-- State of the rope after the motion loop of `main`. -/
def simulate (motions : List Motion) : Rope :=
  motions.foldl step make_rope

/-- The value printed by `main`: `tail.points_visited().size()`. -/
def main (lines : List (Direction × Nat)) : Nat :=
  (simulate (parse_motions lines)).tail.points_visited.card

/-- Positions of all knots in chain order (head first, tail last). -/
def Rope.knots (rope : Rope) : List Point :=
  rope.head.current_point ::
    (rope.middle.map (fun m => m.current_point) ++ [rope.tail.current_point])

/-- A head followed by a single knot, as in the worked example of the chain-follow
rule: the leader moves, then the follower follows it. -/
def pair_step {EndType : Knot} (s : End Knot.Head × End EndType) (motion : Motion) :
    End Knot.Head × End EndType :=
  let leader := s.1.move motion (End.should_track_visit_default Knot.Head)
  (leader, s.2.follow leader)

/-- The two-knot rope after a sequence of motions, both knots starting at the
origin. -/
def pair_run {EndType : Knot} (motions : List Motion) : End Knot.Head × End EndType :=
  motions.foldl pair_step (End.init, End.init)

/-- The position `n` units from `p` in direction `direction`, in exact integer
arithmetic. -/
def shift (p : Point) (direction : Direction) (n : Int) : Point :=
  match direction with
  | Direction.up => { p with y := p.y + n }
  | Direction.down => { p with y := p.y - n }
  | Direction.right => { p with x := p.x + n }
  | Direction.left => { p with x := p.x - n }

/-- The coordinates are values of `int32_t`. -/
def Point.is_int32 (p : Point) : Prop :=
  (-2147483648 ≤ p.x ∧ p.x ≤ 2147483647) ∧ (-2147483648 ≤ p.y ∧ p.y ≤ 2147483647)

/-- The coordinates lie strictly between the least and the greatest `int32_t`. -/
def Point.inside_int32 (p : Point) : Prop :=
  (-2147483648 < p.x ∧ p.x < 2147483647) ∧ (-2147483648 < p.y ∧ p.y < 2147483647)

instance (p : Point) : Decidable p.is_int32 := by
  unfold Point.is_int32; exact inferInstance

instance (p : Point) : Decidable p.inside_int32 := by
  unfold Point.inside_int32; exact inferInstance

/-- Glossary, "touching": Chebyshev distance at most one. -/
def touching (p q : Point) : Prop :=
  |p.x - q.x| ≤ 1 ∧ |p.y - q.y| ≤ 1

instance (p q : Point) : Decidable (touching p q) := by
  unfold touching; exact inferInstance

end Day9

/-! ## Day 10: the register machine -/

namespace Day10

/-- The enum `Instruction::Type`. -/
inductive InstructionType where
  | ADDX
  | NOOP
deriving DecidableEq, Repr

/-- The struct `Instruction`. -/
structure Instruction where
  type : InstructionType
  maybe_argument : Option Int
deriving DecidableEq, Repr

namespace Instruction

/-- The static member `type_to_cycle_cost`. -/
def type_to_cycle_cost (type : InstructionType) : Nat :=
  match type with
  | InstructionType.ADDX => 2
  | InstructionType.NOOP => 1

end Instruction

/-- The struct `CPU`, whose register starts at 1. -/
structure CPU where
  cpu_register : Int
deriving DecidableEq, Repr

namespace CPU

def init : CPU := { cpu_register := 1 }

/-- The member `execute_instruction`. The sum is `int` arithmetic (two's-complement
result where C++ leaves signed overflow undefined); `value()` on an empty optional
throws, which is the result `none`. -/
def execute_instruction (cpu : CPU) (instruction : Instruction) : Option CPU :=
  match instruction.type with
  | InstructionType.ADDX =>
      match instruction.maybe_argument with
      | some argument => some { cpu_register := wrap32 (cpu.cpu_register + argument) }
      | none => none
  | InstructionType.NOOP => some cpu

end CPU

/-- The function `is_drawable`; `static_cast<int>(pixel)` is `wrap32 pixel`. -/
def is_drawable (sprite_position : Int) (pixel : Nat) : Bool :=
  decide (wrap32 pixel ≤ wrap32 (sprite_position + 1)) &&
    decide (wrap32 pixel ≥ wrap32 (sprite_position - 1))

/-- The two `std::generate` calls of `main`: `count` values of the generator
`20 * (start += 2)` in `uint32_t` arithmetic. -/
def generate (start : Nat) : Nat → List Nat
  | 0 => []
  | count + 1 =>
      let start1 := (start + 2) % 4294967296
      (20 * start1) % 4294967296 :: generate start1 count

/-- Conversion of an `int` value to `uint32_t`. -/
def to_uint32 (z : Int) : Nat := (z % 4294967296).toNat

/-- The array `cycles_of_interest`, generated after `uint32_t start = -1`. -/
def cycles_of_interest : List Nat := generate (to_uint32 (-1)) 6

/-- The array `crt_row_cycles`. -/
def crt_row_cycles : List Nat := generate 0 6

/-- A line of the input file: `noop` or `addx <argument>`. -/
inductive Line where
  | noop
  | addx (argument : Int)
deriving DecidableEq, Repr

/-- The input loop of `main`: the instruction built for each line. -/
def parse_line (line : Line) : Instruction :=
  match line with
  | Line.noop => { type := InstructionType.NOOP, maybe_argument := none }
  | Line.addx argument => { type := InstructionType.ADDX, maybe_argument := some argument }

def parse_instructions (lines : List Line) : List Instruction :=
  lines.map parse_line

/-- Local variables of the cycle loop of `main`. The iterator
`current_instruction` is the range of instructions from it up to `cend()`; `crt` is
the text written to standard output by the loop. The fields `observed` and
`past_end_fetches` are not program variables: `observed` records the register value
that the drawing and sampling code of each cycle reads, `past_end_fetches` the
cycles in which a cycle cost was fetched through the iterator `cend()` (cycle 0 is
the initialisation of the loop). -/
structure State where
  cycle : Nat
  target_cycle : Nat
  current_instruction : List Instruction
  cpu : CPU
  combined_signal_strength : Int
  crt : List Char
  observed : List Int
  past_end_fetches : List Nat

/-- The cycle cost fetched through the iterator `current_instruction`. When the
iterator is `cend()` of the (non-empty) vector the program reads the storage behind
the last element; `past_end_cost` is whatever cost that read yields. -/
def fetch_cost (past_end_cost : Nat) (current_instruction : List Instruction) : Nat :=
  match current_instruction with
  | instruction :: _ => Instruction.type_to_cycle_cost instruction.type
  | [] => past_end_cost

/-- Bookkeeping for `past_end_fetches`: a cost fetch in `cycle` through the
iterator `current_instruction` is recorded when the iterator is `cend()`. -/
def record_fetch (cycle : Nat) (current_instruction : List Instruction)
    (fetches : List Nat) : List Nat :=
  match current_instruction with
  | _ :: _ => fetches
  | [] => fetches ++ [cycle]

/-- The `if (cycle == target_cycle)` block of the loop body; `none` when
`execute_instruction` throws or the block executes through the `cend()` iterator. In
the latter case the program executes whatever lies behind the last element and moves
the iterator beyond `cend()`; from then on `current_instruction != cend()` holds, so
the loop cannot end through its condition any more and no signal strength is
printed. The run is not followed further. -/
def complete_instruction (past_end_cost : Nat) (s : State) : Option State :=
  if s.cycle = s.target_cycle then
    match s.current_instruction with
    | [] => none
    | instruction :: next =>
        match s.cpu.execute_instruction instruction with
        | none => none
        | some cpu =>
            some { s with
              cpu := cpu
              current_instruction := next
              target_cycle := s.target_cycle + fetch_cost past_end_cost next
              past_end_fetches := record_fetch s.cycle next s.past_end_fetches }
  else some s

/-- The rest of the loop body: one pixel is drawn, a newline ends a row, and the
signal strength is sampled. The product `cycle * cpu_register` and the sum are
computed in `std::size_t` and narrowed to `int`. -/
def draw_and_sample (s : State) : State :=
  let pixel : Char :=
    if is_drawable s.cpu.cpu_register ((s.cycle - 1) % crt_row_cycles.getD 0 0) then '#'
    else '.'
  let row_end : List Char := if s.cycle ∈ crt_row_cycles then ['\n'] else []
  { s with
    crt := s.crt ++ [pixel] ++ row_end
    combined_signal_strength :=
      if s.cycle ∈ cycles_of_interest then
        wrap32 (s.combined_signal_strength + (s.cycle : Int) * s.cpu.cpu_register)
      else s.combined_signal_strength
    observed := s.observed ++ [s.cpu.cpu_register] }

/-- How the cycle loop ended. -/
inductive Status where
  | finished
  | fault
  | out_of_fuel
deriving DecidableEq, Repr

/-- Result of the cycle loop: how it ended and the last state it reached. -/
structure Outcome where
  status : Status
  state : State

/-- The `for` loop of `main`, with its condition
`cycle <= cycles_of_interest.back() || current_instruction != cend()`. -/
def run_loop (past_end_cost : Nat) : Nat → State → Outcome
  | 0, s => { status := Status.out_of_fuel, state := s }
  | fuel + 1, s =>
      if s.cycle ≤ cycles_of_interest.getLastD 0 ∨ s.current_instruction ≠ [] then
        match complete_instruction past_end_cost s with
        | none => { status := Status.fault, state := s }
        | some s1 =>
            let s2 := draw_and_sample s1
            run_loop past_end_cost fuel { s2 with cycle := s2.cycle + 1 }
      else { status := Status.finished, state := s }

/-- Total cycle cost of an instruction stream. -/
def total_cost (instructions : List Instruction) : Nat :=
  (instructions.map (fun instruction => Instruction.type_to_cycle_cost instruction.type)).sum

/-- State at loop entry for a stream that starts with `instruction`: the loop
initialiser reads the cost of the first instruction through `cbegin()`. -/
def initial_state (instruction : Instruction) (rest : List Instruction) : State :=
  { cycle := 1
    target_cycle := 1 + Instruction.type_to_cycle_cost instruction.type
    current_instruction := instruction :: rest
    cpu := CPU.init
    combined_signal_strength := 0
    crt := []
    observed := []
    past_end_fetches := [] }

/-- The variables when the loop initialiser is reached with an empty vector, whose
`cbegin()` points to no storage: the read through it ends the program before the
first cycle. -/
def empty_stream_state : State :=
  { cycle := 1
    target_cycle := 1
    current_instruction := []
    cpu := CPU.init
    combined_signal_strength := 0
    crt := []
    observed := []
    past_end_fetches := [0] }

/-- The simulation part of `main` on the parsed input. With an empty stream the
loop initialiser fails; otherwise the loop is given `total_cost + 221` iterations of
fuel. -/
def main (past_end_cost : Nat) (lines : List Line) : Outcome :=
  match parse_instructions lines with
  | [] => { status := Status.fault, state := empty_stream_state }
  | instruction :: rest =>
      run_loop past_end_cost (total_cost (instruction :: rest) + 221)
        (initial_state instruction rest)

/-- What an instruction adds to the register: the argument of an `addx`, nothing
for a `noop`. -/
def effect (instruction : Instruction) : Int :=
  match instruction.type with
  | InstructionType.ADDX => instruction.maybe_argument.getD 0
  | InstructionType.NOOP => 0

/-- Sum of the arguments of the `addx` instructions whose cumulative cost, counted
from `elapsed`, is below `cycle`. -/
def visible_effects (cycle : Nat) : Nat → List Instruction → Int
  | _, [] => 0
  | elapsed, instruction :: rest =>
      (if elapsed + Instruction.type_to_cycle_cost instruction.type < cycle then
        effect instruction
      else 0) +
        visible_effects cycle (elapsed + Instruction.type_to_cycle_cost instruction.type) rest

/-- Timing rule of the register machine, in exact integer arithmetic. -/
def register_during (instructions : List Instruction) (cycle : Nat) : Int :=
  1 + visible_effects cycle 0 instructions

/-- The timing rule in `int` arithmetic. -/
def observed_during (instructions : List Instruction) (cycle : Nat) : Int :=
  wrap32 (register_during instructions cycle)

/-- Contribution of a cycle to the signal strength. -/
def sample (instructions : List Instruction) (cycle : Nat) : Int :=
  if cycle ∈ cycles_of_interest then (cycle : Int) * observed_during instructions cycle else 0

/-- Streams built by the input loop give every `addx` an argument. -/
def WellFormed (instructions : List Instruction) : Prop :=
  ∀ instruction ∈ instructions,
    instruction.type = InstructionType.ADDX → instruction.maybe_argument ≠ none

/-- State of the loop at the start of an iteration while instructions remain:
`done` have been executed and `instruction` is in flight. -/
def LoopInvariant (instructions : List Instruction) (s : State) : Prop :=
  ∃ (done : List Instruction) (instruction : Instruction) (rest : List Instruction),
    instructions = done ++ instruction :: rest ∧
    s.current_instruction = instruction :: rest ∧
    s.target_cycle =
      total_cost done + Instruction.type_to_cycle_cost instruction.type + 1 ∧
    total_cost done + 1 ≤ s.cycle ∧ s.cycle ≤ s.target_cycle ∧
    s.cpu.cpu_register = wrap32 (1 + (done.map effect).sum) ∧
    s.observed = (List.range (s.cycle - 1)).map
      (fun k => observed_during instructions (k + 1)) ∧
    s.combined_signal_strength =
      wrap32 (∑ k in Finset.range (s.cycle - 1), sample instructions (k + 1)) ∧
    s.past_end_fetches = []

/-- State of the loop right after the iteration that executed the last
instruction. -/
def LoopDone (past_end_cost : Nat) (instructions : List Instruction) (s : State) : Prop :=
  s.current_instruction = [] ∧ s.cycle = total_cost instructions + 2 ∧
    s.observed = (List.range (s.cycle - 1)).map
      (fun k => observed_during instructions (k + 1)) ∧
    s.combined_signal_strength =
      wrap32 (∑ k in Finset.range (s.cycle - 1), sample instructions (k + 1)) ∧
    s.target_cycle = total_cost instructions + 1 + past_end_cost ∧
    s.past_end_fetches = [total_cost instructions + 1] ∧
    s.cpu.cpu_register = wrap32 (1 + (instructions.map effect).sum)

/-- The pixel rule of the screen: in cycle `cycle` the pixel is lit exactly when
the register value is within 1 of the column `(cycle - 1) mod 40`. -/
def expected_pixel (cycle : Nat) (register : Int) : Char :=
  if |register - (((cycle - 1) % 40 : Nat) : Int)| ≤ 1 then '#' else '.'

/-- The pixels written so far (the output without its newlines) follow the pixel
rule for the register values read so far, one per cycle, and the register holds a
value of `int`. -/
def PixelInvariant (s : State) : Prop :=
  s.cycle = s.observed.length + 1 ∧
    s.crt.filter (fun ch => decide (ch ≠ '\n')) =
      List.zipWith (fun k register => expected_pixel (k + 1) register)
        (List.range s.observed.length) s.observed ∧
    (-2147483648 ≤ s.cpu.cpu_register ∧ s.cpu.cpu_register < 2147483648)

end Day10

/-! ## Day 11: the monkeys -/

namespace Day11

/-- The operator character of the operation line: `'+'` or `'*'`. -/
inductive OpToken where
  | plus
  | times
deriving DecidableEq, Repr

/-- The values that `create_from_description` reads from the six lines of a
monkey description: the id, the starting items, the operator and its operand (absent
for the self-reference `old`), the test factor and the two destinations. -/
structure Description where
  id : Nat
  items : List Int
  op_token : OpToken
  argument : Option Int
  test_factor : Nat
  true_test_effect : Nat
  false_test_effect : Nat

/-- The class `Monkey`; `ItemType` is `int64_t`. -/
structure Monkey where
  id_ : Nat
  items_ : List Int
  operation_ : Int → Int
  test_factor_ : Nat
  test_ : Int → Bool
  cooldown_ : Int → Int
  test_effect_ : Nat × Nat
  items_inspected_ : Nat

namespace Monkey

/-- Default member initialiser of `test_`: `std::modulus<ItemType>` of the item
and the factor converted to `int64_t`, compared with 0. The C++ remainder is
undefined for the divisor 0 (the program is killed), where this function has the
value of `Int.tmod`: it agrees with the program for a non-zero divisor only, see
`Monkey.divisors_positive`. -/
def default_test (test_factor : Nat) : Int → Bool :=
  fun item => decide (Int.tmod item (wrap64 test_factor) = 0)

/-- Default member initialiser of `cooldown_`: the lambda takes an `int`, so the
item is narrowed to 32 bits before `std::divides<int>` by 3. -/
def default_cooldown : Int → Int :=
  fun item => Int.tdiv (wrap32 item) 3

/-- The constructor `Monkey(id, items, operation, test_factor, test_effect)`. -/
def new (id : Nat) (items : List Int) (operation : Int → Int) (test_factor : Nat)
    (test_effect : Nat × Nat) : Monkey :=
  { id_ := id
    items_ := items
    operation_ := operation
    test_factor_ := test_factor
    test_ := default_test test_factor
    cooldown_ := default_cooldown
    test_effect_ := test_effect
    items_inspected_ := 0 }

/-- The operation lambdas of `create_from_description`, in `int64_t` arithmetic
(two's-complement result where C++ leaves signed overflow undefined). -/
def make_operation (op_token : OpToken) (argument : Option Int) : Int → Int :=
  match op_token with
  | OpToken.plus => fun item =>
      match argument with
      | some value => wrap64 (item + value)
      | none => wrap64 (item + item)
  | OpToken.times => fun item =>
      match argument with
      | some value => wrap64 (item * value)
      | none => wrap64 (item * item)

/-- The static member `create_from_description`, after the text of the six lines
has been converted to numbers. -/
def create_from_description (monkey_description : Description) : Monkey :=
  new monkey_description.id monkey_description.items
    (make_operation monkey_description.op_token monkey_description.argument)
    monkey_description.test_factor
    (monkey_description.true_test_effect, monkey_description.false_test_effect)

/-- One call of the lambda that `inspect` passes to `std::transform`: the new item
is written back to the queue and pushed to `pass_items` or to `fail_items`. -/
def inspect_item (m : Monkey) (acc : List Int × List Int × List Int) (item : Int) :
    List Int × List Int × List Int :=
  let new_item := m.cooldown_ (m.operation_ item)
  if m.test_ new_item then (acc.1 ++ [new_item], acc.2.1 ++ [new_item], acc.2.2)
  else (acc.1 ++ [new_item], acc.2.1, acc.2.2 ++ [new_item])

/-- The member `inspect`: the monkey after the call and the pair
`(pass_items, fail_items)` it returns. -/
def inspect (m : Monkey) : Monkey × (List Int × List Int) :=
  let result := m.items_.foldl m.inspect_item ([], [], [])
  ({ m with
      items_ := result.1
      items_inspected_ := m.items_inspected_ + m.items_.length },
    (result.2.1, result.2.2))

/-- The member `receive`. -/
def receive (m : Monkey) (rx_items : List Int) : Monkey :=
  { m with items_ := m.items_ ++ rx_items }

def items (m : Monkey) : List Int := m.items_

def test_effect (m : Monkey) : Nat × Nat := m.test_effect_

def items_inspected (m : Monkey) : Nat := m.items_inspected_

def test_factor (m : Monkey) : Nat := m.test_factor_

/-- The statement `monkey.items().clear()`. -/
def clear_items (m : Monkey) : Monkey :=
  { m with items_ := [] }

end Monkey

/-- The `std::accumulate` call of `main`. Its initial value `1` is an `int`, so the
accumulator is an `int`: each product is computed in `std::size_t` and narrowed back
to `int`; the result is converted to `std::size_t`. -/
def supermod (monkeys : List Monkey) : Nat :=
  ((monkeys.foldl
      (fun (init : Int) monkey =>
        wrap32 (((init % 18446744073709551616) * monkey.test_factor) % 18446744073709551616))
      1) % 18446744073709551616).toNat

/-- The relief lambda installed by `main`: `std::modulus<ItemType>` of the item
and `static_cast<ItemType>(supermod)`. The C++ remainder is undefined for the
divisor 0 (the program is killed), where this function has the value of `Int.tmod`:
it agrees with the program for a non-zero divisor only, see
`Monkey.divisors_positive`. -/
def supermod_cooldown (supermod : Nat) : Int → Int :=
  fun item => Int.tmod item (wrap64 supermod)

/-- The loop of `main` that replaces every monkey's `cooldown`. -/
def install_cooldown (monkeys : List Monkey) : List Monkey :=
  monkeys.map (fun monkey => { monkey with cooldown_ := supermod_cooldown (supermod monkeys) })

/-- Body of the inner loop of `main` for the monkey at index `index`; `none` when
a destination is not an index of the vector (undefined behaviour in C++). -/
def turn (monkeys : List Monkey) (index : Nat) : Option (List Monkey) :=
  match monkeys[index]? with
  | none => none
  | some monkey =>
      let inspected := monkey.inspect
      let pass_items := inspected.2.1
      let fail_items := inspected.2.2
      let pass_dest := monkey.test_effect.1
      let fail_dest := monkey.test_effect.2
      if pass_dest < monkeys.length ∧ fail_dest < monkeys.length then
        let monkeys1 := monkeys.modify (fun _ => inspected.1) index
        let monkeys2 := monkeys1.modify (fun receiver => receiver.receive pass_items) pass_dest
        let monkeys3 := monkeys2.modify (fun receiver => receiver.receive fail_items) fail_dest
        some (monkeys3.modify Monkey.clear_items index)
      else none

/-- One round: every monkey takes its turn in vector order. -/
def round (monkeys : List Monkey) : Option (List Monkey) :=
  (List.range monkeys.length).foldlM turn monkeys

/-- The outer loop of `main`, for a given number of rounds. -/
def run_rounds : Nat → List Monkey → Option (List Monkey)
  | 0, monkeys => some monkeys
  | n + 1, monkeys => (round monkeys).bind (run_rounds n)

def num_rounds : Nat := 10000

/-- The monkeys at the end of `main`, before `show_monkey_business`. -/
def main (descriptions : List Description) : Option (List Monkey) :=
  run_rounds num_rounds (install_cooldown (descriptions.map Monkey.create_from_description))

/-- Total number of items held by all monkeys. -/
def total_items (monkeys : List Monkey) : Nat :=
  (monkeys.map (fun monkey => monkey.items.length)).sum

/-- The unbounded-integer reference for the common-modulus relief: the monkey of
`create_from_description` with exact integer arithmetic in its operation, the
identity as relief and the plain divisibility test. -/
def ideal_from_description (monkey_description : Description) : Monkey :=
  { id_ := monkey_description.id
    items_ := monkey_description.items
    operation_ := fun item =>
      match monkey_description.op_token, monkey_description.argument with
      | OpToken.plus, some value => item + value
      | OpToken.plus, none => item + item
      | OpToken.times, some value => item * value
      | OpToken.times, none => item * item
    test_factor_ := monkey_description.test_factor
    test_ := fun item => decide (item % (monkey_description.test_factor : Int) = 0)
    cooldown_ := fun item => item
    test_effect_ :=
      (monkey_description.true_test_effect, monkey_description.false_test_effect)
    items_inspected_ := 0 }

/-- One turn in the order of the specification: "clear the agent's own queue,
then append the pass-list to the pass-destination agent's queue and the fail-list
to the fail-destination agent's queue". -/
def turn_as_specified (monkeys : List Monkey) (index : Nat) : Option (List Monkey) :=
  match monkeys[index]? with
  | none => none
  | some monkey =>
      let inspected := monkey.inspect
      let pass_items := inspected.2.1
      let fail_items := inspected.2.2
      let pass_dest := monkey.test_effect.1
      let fail_dest := monkey.test_effect.2
      if pass_dest < monkeys.length ∧ fail_dest < monkeys.length then
        let monkeys1 := monkeys.modify (fun _ => inspected.1.clear_items) index
        let monkeys2 := monkeys1.modify (fun receiver => receiver.receive pass_items) pass_dest
        some (monkeys2.modify (fun receiver => receiver.receive fail_items) fail_dest)
      else none

/-- Every destination is an index of the vector. -/
def destinations_in_range (monkeys : List Monkey) : Prop :=
  ∀ monkey ∈ monkeys,
    monkey.test_effect.1 < monkeys.length ∧ monkey.test_effect.2 < monkeys.length

/-- No monkey names itself as a destination. -/
def no_self_destination (monkeys : List Monkey) : Prop :=
  ∀ (index : Nat) (monkey : Monkey), monkeys[index]? = some monkey →
    monkey.test_effect.1 ≠ index ∧ monkey.test_effect.2 ≠ index

/-- An item of the run with the common-modulus relief and the corresponding item
of the unbounded run: congruent modulo the common modulus, the former a
non-negative value below `2 ^ 31`. -/
def ItemRel (modulus : Nat) (a b : Int) : Prop :=
  0 ≤ a ∧ a < 2147483648 ∧ a ≡ b [ZMOD (modulus : Int)]

/-- A monkey of the run with the common-modulus relief and the corresponding monkey
of the unbounded run: both stem from one description, have the same counter and
destinations, and hold corresponding items. -/
def MonkeyRel (modulus size : Nat) (c i : Monkey) : Prop :=
  ∃ d : Description,
    0 < d.test_factor ∧ d.test_factor ∣ modulus ∧
    (∀ v, d.argument = some v → 0 ≤ v ∧ v < 2147483648) ∧
    c.operation_ = Monkey.make_operation d.op_token d.argument ∧
    c.test_ = Monkey.default_test d.test_factor ∧
    c.cooldown_ = supermod_cooldown modulus ∧
    i.operation_ = (ideal_from_description d).operation_ ∧
    i.test_ = (ideal_from_description d).test_ ∧
    i.cooldown_ = (ideal_from_description d).cooldown_ ∧
    c.test_effect_ = i.test_effect_ ∧
    c.test_effect_.1 < size ∧ c.test_effect_.2 < size ∧
    c.items_inspected_ = i.items_inspected_ ∧
    List.Forall₂ (ItemRel modulus) c.items_ i.items_

/-- Four monkey descriptions with test factors 23, 19, 13 and 17, used as a
concrete input. -/
def sample_descriptions : List Description :=
  [{ id := 0, items := [79, 98], op_token := OpToken.times, argument := some 19,
     test_factor := 23, true_test_effect := 2, false_test_effect := 3 },
   { id := 1, items := [54, 65, 75, 74], op_token := OpToken.plus, argument := some 6,
     test_factor := 19, true_test_effect := 2, false_test_effect := 0 },
   { id := 2, items := [79, 60, 97], op_token := OpToken.times, argument := none,
     test_factor := 13, true_test_effect := 1, false_test_effect := 3 },
   { id := 3, items := [74], op_token := OpToken.plus, argument := some 3,
     test_factor := 17, true_test_effect := 0, false_test_effect := 1 }]

/-- The call `std::partial_sort(first, first + middle, last, std::greater<>{})`
of the standard library: afterwards the first `middle` places hold the `middle`
greatest values in descending order. The order of the other values is unspecified;
here they keep their relative order. -/
def partial_sort_greater : Nat → List Nat → List Nat
  | 0, activities => activities
  | _ + 1, [] => []
  | middle + 1, activity :: rest =>
      let greatest := rest.foldl max activity
      greatest :: partial_sort_greater middle ((activity :: rest).erase greatest)

/-- The value that `show_monkey_business` prints for `show_all = false`: the
product, in `std::size_t` arithmetic, of the first two places after the partial
sort. With fewer than two monkeys `std::next(activities.begin(), 2)` is past the
end (undefined behaviour): `none`. -/
def show_monkey_business (monkeys : List Monkey) : Option Nat :=
  let activities := monkeys.map Monkey.items_inspected
  if 2 ≤ activities.length then
    let sorted := partial_sort_greater 2 activities
    some ((sorted.getD 0 0 * sorted.getD 1 0) % 18446744073709551616)
  else none

/-- The value is one of `int`. -/
def is_int32 (z : Int) : Prop := -2147483648 ≤ z ∧ z < 2147483648

/-- The value is one of `int64_t`. -/
def is_int64 (z : Int) : Prop := -9223372036854775808 ≤ z ∧ z < 9223372036854775808

instance (z : Int) : Decidable (is_int32 z) := by
  unfold is_int32; exact inferInstance

instance (z : Int) : Decidable (is_int64 z) := by
  unfold is_int64; exact inferInstance

/-- The test and the relief of the monkey are lambdas that the program installs,
and each remainder they compute has a positive `int64_t` divisor: for such a monkey
no call of `inspect` divides by zero. -/
def Monkey.divisors_positive (m : Monkey) : Prop :=
  m.test_ = Monkey.default_test m.test_factor_ ∧ 0 < wrap64 m.test_factor_ ∧
    (m.cooldown_ = Monkey.default_cooldown ∨
      ∃ modulus : Nat, 0 < wrap64 modulus ∧ m.cooldown_ = supermod_cooldown modulus)

/-- Two monkeys that throw every item to each other, used as a concrete input. -/
def pair_descriptions : List Description :=
  [{ id := 0, items := [79, 98], op_token := OpToken.times, argument := some 19,
     test_factor := 23, true_test_effect := 1, false_test_effect := 1 },
   { id := 1, items := [54], op_token := OpToken.plus, argument := some 6,
     test_factor := 19, true_test_effect := 0, false_test_effect := 0 }]

end Day11

/-! ## Day 4: the section assignments -/

namespace Day4

/-- The class `Assignment`: the two `uint64_t` members read from `start-end`. -/
structure Assignment where
  start_ : Nat
  end_ : Nat
deriving DecidableEq, Repr

namespace Assignment

def start (a : Assignment) : Nat := a.start_

/-- The member `contains`. -/
def contains (a other : Assignment) : Bool :=
  decide (other.start ≥ a.start_) && decide (other.end_ ≤ a.end_)

/-- The member `overlaps`. -/
def overlaps (a other : Assignment) : Bool :=
  decide (other.start ≤ a.end_) && decide (other.end_ ≥ a.start_)

end Assignment

/-- The tag types `full_overlap` and `any_overlap`. -/
inductive OverlapPolicy where
  | full_overlap
  | any_overlap
deriving DecidableEq, Repr

/-- The class template `OverlapCounter<OverlapPolicy>`. -/
structure OverlapCounter (policy : OverlapPolicy) where
  count_ : Nat
deriving Repr

namespace OverlapCounter

/-- The call operator `operator()(assignment_pair)`. -/
def call {policy : OverlapPolicy} (counter : OverlapCounter policy)
    (assignment_pair : Assignment × Assignment) : OverlapCounter policy :=
  match policy with
  | OverlapPolicy.full_overlap =>
      if assignment_pair.1.contains assignment_pair.2 ||
          assignment_pair.2.contains assignment_pair.1 then
        { count_ := counter.count_ + 1 }
      else counter
  | OverlapPolicy.any_overlap =>
      if assignment_pair.1.overlaps assignment_pair.2 ||
          assignment_pair.2.overlaps assignment_pair.1 then
        { count_ := counter.count_ + 1 }
      else counter

def count {policy : OverlapPolicy} (counter : OverlapCounter policy) : Nat := counter.count_

end OverlapCounter

/-- The two `std::for_each` calls of `main`: the pair
`(contains_count, overlap_count)`. -/
def main (assignment_pairs : List (Assignment × Assignment)) : Nat × Nat :=
  ((assignment_pairs.foldl OverlapCounter.call
      ({ count_ := 0 } : OverlapCounter OverlapPolicy.full_overlap)).count,
    (assignment_pairs.foldl OverlapCounter.call
      ({ count_ := 0 } : OverlapCounter OverlapPolicy.any_overlap)).count)

end Day4

/-! ## Day 5: the crate stacks -/

namespace Day5

/-- The class `Instruction`, with `src_` and `dst_` already zero-based. -/
structure Instruction where
  amount_ : Nat
  src_ : Nat
  dst_ : Nat
deriving DecidableEq, Repr

namespace Instruction

/-- The constructor `Instruction(amount, src, dst)`: `--src` and `--dst` in
`std::size_t` arithmetic. -/
def new (amount src dst : Nat) : Instruction :=
  { amount_ := amount
    src_ := (src + 18446744073709551615) % 18446744073709551616
    dst_ := (dst + 18446744073709551615) % 18446744073709551616 }

def amount (instruction : Instruction) : Nat := instruction.amount_

def src (instruction : Instruction) : Nat := instruction.src_

def dst (instruction : Instruction) : Nat := instruction.dst_

end Instruction

/-- One iteration of the loop of `impl::execute_single`, on the vector of stacks
(each `std::stack<char>` is the list of its crates, top first):
`stacks.at(dst).push(stacks.at(src).top()); stacks.at(src).pop();`. The result is
`none` when `at` throws or `top` is called on an empty stack. -/
def execute_single_step (instruction : Instruction) (all_stacks : List (List Char)) :
    Option (List (List Char)) :=
  if instruction.dst < all_stacks.length then
    match all_stacks[instruction.src]? with
    | some (top :: _) =>
        some ((all_stacks.modify (fun stack => top :: stack) instruction.dst).modify
          List.tail instruction.src)
    | _ => none
  else none

/-- The loop of `impl::execute_single` with `remaining` iterations to go. -/
def execute_single_loop (instruction : Instruction) :
    Nat → List (List Char) → Option (List (List Char))
  | 0, all_stacks => some all_stacks
  | remaining + 1, all_stacks =>
      (execute_single_step instruction all_stacks).bind (execute_single_loop instruction remaining)

/-- The function `impl::execute_single`. -/
def execute_single (instruction : Instruction) (all_stacks : List (List Char)) :
    Option (List (List Char)) :=
  execute_single_loop instruction instruction.amount all_stacks

/-- The first loop of `impl::execute_multi` with `remaining` iterations to go:
`tmp_stack.push(stacks.at(src).top()); stacks.at(src).pop();`. -/
def fill_tmp_stack (instruction : Instruction) :
    Nat → List (List Char) × List Char → Option (List (List Char) × List Char)
  | 0, state => some state
  | remaining + 1, (all_stacks, tmp_stack) =>
      match all_stacks[instruction.src]? with
      | some (top :: _) =>
          fill_tmp_stack instruction remaining
            (all_stacks.modify List.tail instruction.src, top :: tmp_stack)
      | _ => none

/-- The second loop of `impl::execute_multi`:
`while (!tmp_stack.empty()) { stacks.at(dst).push(tmp_stack.top()); tmp_stack.pop(); }`. -/
def empty_tmp_stack (instruction : Instruction) :
    List Char → List (List Char) → Option (List (List Char))
  | [], all_stacks => some all_stacks
  | top :: tmp_stack, all_stacks =>
      if instruction.dst < all_stacks.length then
        empty_tmp_stack instruction tmp_stack
          (all_stacks.modify (fun stack => top :: stack) instruction.dst)
      else none

/-- The function `impl::execute_multi`. -/
def execute_multi (instruction : Instruction) (all_stacks : List (List Char)) :
    Option (List (List Char)) :=
  (fill_tmp_stack instruction instruction.amount (all_stacks, [])).bind
    (fun state => empty_tmp_stack instruction state.2 state.1)

/-- The tag types `single_move` and `multi_move`. -/
inductive ExecutionPolicy where
  | single_move
  | multi_move
deriving DecidableEq, Repr

/-- The function template `execute<ExecutionPolicy>`. -/
def execute (policy : ExecutionPolicy) (instruction : Instruction)
    (all_stacks : List (List Char)) : Option (List (List Char)) :=
  match policy with
  | ExecutionPolicy.single_move => execute_single instruction all_stacks
  | ExecutionPolicy.multi_move => execute_multi instruction all_stacks

end Day5

/-! ## Day 8: the tree grid -/

namespace Day8

/-- The struct `Tree`. -/
structure Tree where
  height : Nat
  maybe_visible : Option Bool
deriving DecidableEq, Repr

/-- The tree that the input loop of `main` builds from a digit. -/
def Tree.ofHeight (height : Nat) : Tree :=
  { height := height, maybe_visible := none }

/-- The access `grid[row][col]`; `none` when an index is out of range (undefined
behaviour in C++). -/
def tree_at (grid : List (List Tree)) (row col : Nat) : Option Tree :=
  match grid[row]? with
  | some trees => trees[col]?
  | none => none

/-- The increment `++score` of a `std::size_t`. -/
def incr (score : Nat) : Nat := (score + 1) % 18446744073709551616

/-- The decrement `--score` of a `std::size_t`. -/
def decr (score : Nat) : Nat := (score + 18446744073709551615) % 18446744073709551616

/-- The loops "up" and "left" of `main`, which are the same code for a column and
for a row: `cell it` is the tree at index `it` of the line and the first numeric
argument is `it + 1` for the `int` loop variable `it`, so `0` stands for `it = -1`,
where the condition `it >= 0` ends the loop. The body decrements the score at
`it == 0`, then the score is incremented. -/
def backward_loop (cell : Nat → Option Tree) (height : Nat) : Nat → Nat → Option Nat
  | 0, score => some score
  | it + 1, score =>
      match cell it with
      | none => none
      | some tree =>
          if tree.height < height then
            backward_loop cell height it (incr (if it = 0 then decr score else score))
          else some score

/-- The loops "down" and "right" of `main`, which are the same code for a column
and for a row: `size` is the `int` value `static_cast<int>(... .size())`, `cell it`
is the tree at index `it` of the line. The body decrements the score at
`it == size - 1`, then `it` and the score are incremented. The first argument
bounds the number of iterations; the result is `none` when it is used up or a tree
is read out of range. -/
def forward_loop (cell : Nat → Option Tree) (height : Nat) (size : Int) :
    Nat → Nat → Nat → Option Nat
  | 0, _, _ => none
  | fuel + 1, it, score =>
      if (it : Int) < size then
        match cell it with
        | none => none
        | some tree =>
            if tree.height < height then
              forward_loop cell height size fuel (it + 1)
                (incr (if (it : Int) = wrap32 (size - 1) then decr score else score))
            else some score
      else some score

/-- The loop "up" for the tree at `(row, col)`: `it_row` starts at `row - 1` and
`up_score` at 1. -/
def up_score (grid : List (List Tree)) (row col height : Nat) : Option Nat :=
  backward_loop (fun it_row => tree_at grid it_row col) height row 1

/-- The loop "down": `it_row` starts at `row + 1` and runs below
`static_cast<int>(grid.size())`. -/
def down_score (grid : List (List Tree)) (row col height : Nat) : Option Nat :=
  forward_loop (fun it_row => tree_at grid it_row col) height (wrap32 grid.length)
    grid.length (row + 1) 1

/-- The loop "left": `it_col` starts at `col - 1`. -/
def left_score (grid : List (List Tree)) (row col height : Nat) : Option Nat :=
  backward_loop (fun it_col => tree_at grid row it_col) height col 1

/-- The loop "right": `it_col` starts at `col + 1` and runs below
`static_cast<int>(grid[row].size())`. -/
def right_score (grid : List (List Tree)) (row col height : Nat) : Option Nat :=
  match grid[row]? with
  | none => none
  | some trees =>
      forward_loop (fun it_col => tree_at grid row it_col) height (wrap32 trees.length)
        trees.length (col + 1) 1

/-- Body of the two nested loops of `main` for the tree at `(row, col)`: the
product of the four scores in `std::size_t` arithmetic. -/
def scenic_score (grid : List (List Tree)) (row col : Nat) : Option Nat :=
  match tree_at grid row col with
  | none => none
  | some tree =>
      (up_score grid row col tree.height).bind fun up =>
      (down_score grid row col tree.height).bind fun down =>
      (left_score grid row col tree.height).bind fun left =>
      (right_score grid row col tree.height).bind fun right =>
        some (((up * down) % 18446744073709551616 * left) % 18446744073709551616 * right %
          18446744073709551616)

/-- The values of an `int` loop variable that starts at 1 and runs below
`static_cast<int>(size) - 1`. -/
def interior_indices (size : Nat) : List Nat :=
  List.range' 1 ((wrap32 (wrap32 size - 1) - 1).toNat)

/-- The vector `scenic_scores` filled by the two nested loops of `main`. -/
def scenic_scores (grid : List (List Tree)) : Option (List Nat) :=
  ((interior_indices grid.length).flatMap
    (fun row => (interior_indices (grid.getD row []).length).map (fun col => (row, col)))).mapM
    (fun position => scenic_score grid position.1 position.2)

/-- The value printed for problem 2: `*std::max_element(...)`, which is undefined
when there is no score. -/
def max_scenic_score (grid : List (List Tree)) : Option Nat :=
  match scenic_scores grid with
  | some (score :: scores) => some (scores.foldl max score)
  | _ => none

/-- Viewing distance along a line of sight, given as the heights from the
neighbour outwards: the number of trees up to and including the first one that is
at least as high as `height`, or up to the edge when there is none. -/
def viewing_distance (height : Nat) : List Nat → Nat
  | [] => 0
  | tree :: rest => if height ≤ tree then 1 else 1 + viewing_distance height rest

/-- Heights in column `col`, from the top row down. -/
def column_heights (grid : List (List Tree)) (col : Nat) : List Nat :=
  grid.map (fun trees => ((trees[col]?).map Tree.height).getD 0)

/-- Heights in row `row`, from the left. -/
def row_heights (grid : List (List Tree)) (row : Nat) : List Nat :=
  (grid.getD row []).map Tree.height

/-- The four lines of sight of the tree at `(row, col)`, each from its neighbour to
the edge. -/
def line_up (grid : List (List Tree)) (row col : Nat) : List Nat :=
  ((column_heights grid col).take row).reverse

def line_down (grid : List (List Tree)) (row col : Nat) : List Nat :=
  (column_heights grid col).drop (row + 1)

def line_left (grid : List (List Tree)) (row col : Nat) : List Nat :=
  ((row_heights grid row).take col).reverse

def line_right (grid : List (List Tree)) (row col : Nat) : List Nat :=
  (row_heights grid row).drop (col + 1)

/-- Every row of the grid has `cols` trees. -/
def Rectangular (grid : List (List Tree)) (cols : Nat) : Prop :=
  ∀ trees ∈ grid, trees.length = cols

instance (grid : List (List Tree)) (cols : Nat) : Decidable (Rectangular grid cols) := by
  unfold Rectangular; exact inferInstance

/-- A square grid of side `2 * n + 1` whose trees have height 0, except the one in
the middle, which has height 1. -/
def peak_grid (n : Nat) : List (List Tree) :=
  List.replicate n (List.replicate (2 * n + 1) (Tree.ofHeight 0)) ++
    (List.replicate n (Tree.ofHeight 0) ++ Tree.ofHeight 1 :: List.replicate n (Tree.ofHeight 0))
      :: List.replicate n (List.replicate (2 * n + 1) (Tree.ofHeight 0))

/-- A grid of `m + 2` rows of three trees of height 0, except the tree at `(1, 1)`,
which has height 1. -/
def tall_grid (m : Nat) : List (List Tree) :=
  [Tree.ofHeight 0, Tree.ofHeight 0, Tree.ofHeight 0] ::
    [Tree.ofHeight 0, Tree.ofHeight 1, Tree.ofHeight 0] ::
    List.replicate m [Tree.ofHeight 0, Tree.ofHeight 0, Tree.ofHeight 0]

/-- The grid of the worked example of the puzzle. -/
def sample_grid : List (List Tree) :=
  [[3, 0, 3, 7, 3], [2, 5, 5, 1, 2], [6, 5, 3, 3, 2], [3, 3, 5, 4, 9], [3, 5, 3, 9, 0]].map
    (List.map Tree.ofHeight)

end Day8
namespace Day9

theorem wrap32_of_range (z : Int) (h1 : -2147483648 ≤ z) (h2 : z < 2147483648) :
    wrap32 z = z := by
  unfold wrap32; omega

theorem in_touch_iff (p q : Point)
    (hx1 : -2147483648 < q.x) (hx2 : q.x < 2147483647)
    (hy1 : -2147483648 < q.y) (hy2 : q.y < 2147483647) :
    in_touch p q = true ↔
      q.x - 1 ≤ p.x ∧ p.x ≤ q.x + 1 ∧ q.y - 1 ≤ p.y ∧ p.y ≤ q.y + 1 := by
  rw [in_touch, wrap32_of_range (q.x - 1) (by omega) (by omega),
    wrap32_of_range (q.x + 1) (by omega) (by omega),
    wrap32_of_range (q.y - 1) (by omega) (by omega),
    wrap32_of_range (q.y + 1) (by omega) (by omega)]
  simp [and_assoc]

theorem wrap32_eq_two (a : Int) (h1 : -4294967294 < a) (h2 : a < 4294967298) :
    decide (wrap32 a = 2) = decide (a = 2) := by
  rw [decide_eq_decide]
  unfold wrap32
  constructor <;> intro h <;> omega

theorem direction_within_l1_distance_two (l p : Point)
    (hx1 : -4294967294 < p.x - l.x) (hx2 : p.x - l.x < 4294967294)
    (hy1 : -4294967294 < p.y - l.y) (hy2 : p.y - l.y < 4294967294) :
    direction_within_l1_distance l p l1_distance_limit =
      if p.y - l.y = 2 ∧ p.x = l.x then some Direction.up
      else if l.y - p.y = 2 ∧ p.x = l.x then some Direction.down
      else if l.x - p.x = 2 ∧ p.y = l.y then some Direction.left
      else if p.x - l.x = 2 ∧ p.y = l.y then some Direction.right
      else none := by
  have hw : wrap32 ((2 : Nat) : Int) = 2 := by decide
  simp only [direction_within_l1_distance, directions, l1_distance_limit, List.map,
    within_l1_distance_impl, hw]
  rw [wrap32_eq_two (p.y - l.y) (by omega) (by omega),
    wrap32_eq_two (l.y - p.y) (by omega) (by omega),
    wrap32_eq_two (p.x - l.x) (by omega) (by omega),
    wrap32_eq_two (l.x - p.x) (by omega) (by omega)]
  by_cases h1 : p.y - l.y = 2 <;> by_cases h2 : l.y - p.y = 2 <;>
    by_cases h3 : l.x - p.x = 2 <;> by_cases h4 : p.x - l.x = 2 <;>
    by_cases h5 : p.x = l.x <;> by_cases h6 : p.y = l.y <;>
    first
    | omega
    | simp [h1, h2, h3, h4, h5, h6, List.count_cons, List.indexOf_cons]

/-- Position of a knot after the motions of `follow` have been applied. -/
theorem follow_current {k u : Knot} (e : End k) (l : End u) :
    (e.follow l).current_ =
      ((suggest_motion e.current_ l.current_).foldl
        (fun acc motion => acc.move motion (End.should_track_visit_default k)) e).current_ := by
  simp [End.follow, End.visit, End.current_point]

theorem move_current {k : Knot} (e : End k) (m : Motion) (b : Bool) :
    (e.move m b).current_ =
      match m.direction with
      | Direction.up => { e.current_ with y := wrap32 (e.current_.y + m.magnitude) }
      | Direction.down => { e.current_ with y := wrap32 (e.current_.y - m.magnitude) }
      | Direction.right => { e.current_ with x := wrap32 (e.current_.x + m.magnitude) }
      | Direction.left => { e.current_ with x := wrap32 (e.current_.x - m.magnitude) } := by
  unfold End.move
  cases b <;> simp [End.visit]

/-- One `follow` repairs a gap of at most two per axis and moves the follower by
at most one per axis, provided the follower is not at the rim of the `int32_t`
range. -/
theorem follow_repairs {k u : Knot} (e : End k) (l : End u)
    (hx1 : -2147483647 ≤ e.current_.x) (hx2 : e.current_.x ≤ 2147483646)
    (hy1 : -2147483647 ≤ e.current_.y) (hy2 : e.current_.y ≤ 2147483646)
    (lx1 : -2147483647 ≤ l.current_.x) (lx2 : l.current_.x ≤ 2147483646)
    (ly1 : -2147483647 ≤ l.current_.y) (ly2 : l.current_.y ≤ 2147483646)
    (dx1 : l.current_.x - e.current_.x ≤ 2) (dx2 : e.current_.x - l.current_.x ≤ 2)
    (dy1 : l.current_.y - e.current_.y ≤ 2) (dy2 : e.current_.y - l.current_.y ≤ 2) :
    (|(e.follow l).current_.x - l.current_.x| ≤ 1 ∧
      |(e.follow l).current_.y - l.current_.y| ≤ 1) ∧
    (|(e.follow l).current_.x - e.current_.x| ≤ 1 ∧
      |(e.follow l).current_.y - e.current_.y| ≤ 1) := by
  rw [follow_current]
  unfold suggest_motion
  rw [direction_within_l1_distance_two _ _ (by omega) (by omega) (by omega) (by omega)]
  have hit := in_touch_iff e.current_ l.current_ (by omega) (by omega) (by omega) (by omega)
  by_cases ht : in_touch e.current_ l.current_ = true
  · simp only [ht, if_true, List.foldl_nil, abs_le]
    rw [hit] at ht
    omega
  · have ht2 := ht
    rw [hit] at ht2
    simp only [ht, Bool.false_eq_true, if_false, abs_le]
    split_ifs with h1 h2 h3 h4 <;>
      simp only [List.foldl_cons, List.foldl_nil, move_current, Motion.ofDirection,
        Motion.unit_magnitude, find_diagonal_directions, List.map] <;>
      (try split_ifs) <;>
      simp only [wrap32, Nat.cast_one] <;>
      omega

theorem touching_iff (p q : Point) :
    touching p q ↔ (-1 ≤ p.x - q.x ∧ p.x - q.x ≤ 1) ∧ (-1 ≤ p.y - q.y ∧ p.y - q.y ≤ 1) := by
  simp [touching, abs_le]

theorem getLast?_cons_getD {α : Type} (a : α) (l : List α) :
    (a :: l).getLast? = some (l.getLast?.getD a) := by
  cases l with
  | nil => rfl
  | cons b l =>
      rw [List.getLast?_cons_cons]
      cases h : (b :: l).getLast? with
      | none => simp at h
      | some x => rfl

/-- One pass of follows down the chain restores adjacency and moves every knot by
at most one per axis. -/
theorem chain_follow (n : Int) (hn : n < 2147483646) :
    ∀ (ms : List (End Knot.Middle)) {u : Knot} (l : End u) (lo : Point) (t : End Knot.Tail),
      touching l.current_ lo → (|l.current_.x| ≤ n + 1 ∧ |l.current_.y| ≤ n + 1) →
      List.Chain (fun a b => touching b a) lo (ms.map (fun m => m.current_) ++ [t.current_]) →
      (∀ p ∈ ms.map (fun m => m.current_) ++ [t.current_], |p.x| ≤ n ∧ |p.y| ≤ n) →
      List.Chain (fun a b => touching b a) l.current_
        ((follow_middle l ms).map (fun m => m.current_) ++
          [(match (follow_middle l ms).getLast? with
            | some last => t.follow last
            | none => t.follow l).current_]) ∧
      (∀ p ∈ (follow_middle l ms).map (fun m => m.current_) ++
          [(match (follow_middle l ms).getLast? with
            | some last => t.follow last
            | none => t.follow l).current_], |p.x| ≤ n + 1 ∧ |p.y| ≤ n + 1) := by
  intro ms
  induction ms with
  | nil =>
      intro u l lo t hl hlb hc hb
      rw [abs_le, abs_le] at hlb
      simp only [List.map_nil, List.nil_append, List.chain_cons, List.Chain.nil, and_true,
        List.mem_singleton, forall_eq] at hc hb
      simp only [follow_middle, List.map_nil, List.nil_append, List.getLast?_nil,
        List.chain_cons, List.Chain.nil, and_true, List.mem_singleton, forall_eq]
      rw [touching_iff] at hl hc
      rw [abs_le, abs_le] at hb
      have h := follow_repairs t l (by omega) (by omega) (by omega) (by omega)
        (by omega) (by omega) (by omega) (by omega) (by omega) (by omega) (by omega) (by omega)
      rw [abs_le, abs_le, abs_le, abs_le] at h
      rw [touching_iff, abs_le, abs_le]
      omega
  | cons m ms ih =>
      intro u l lo t hl hlb hc hb
      rw [abs_le, abs_le] at hlb
      simp only [List.map_cons, List.cons_append, List.chain_cons] at hc
      obtain ⟨hm, hc⟩ := hc
      have hbm := hb m.current_ (by simp)
      have hb2 : ∀ p ∈ ms.map (fun m => m.current_) ++ [t.current_], |p.x| ≤ n ∧ |p.y| ≤ n := by
        intro p hp
        exact hb p (by simp only [List.map_cons, List.cons_append, List.mem_cons]; exact Or.inr hp)
      rw [touching_iff] at hl hm
      rw [abs_le, abs_le] at hbm
      have h := follow_repairs m l (by omega) (by omega) (by omega) (by omega)
        (by omega) (by omega) (by omega) (by omega) (by omega) (by omega) (by omega) (by omega)
      rw [abs_le, abs_le, abs_le, abs_le] at h
      have hstep : touching (m.follow l).current_ m.current_ := by
        rw [touching_iff]; omega
      have hnb : |(m.follow l).current_.x| ≤ n + 1 ∧ |(m.follow l).current_.y| ≤ n + 1 := by
        rw [abs_le, abs_le]; omega
      obtain ⟨ih1, ih2⟩ := ih (m.follow l) m.current_ t hstep hnb hc hb2
      simp only [follow_middle, List.map_cons, List.cons_append, List.chain_cons]
      rw [getLast?_cons_getD]
      cases hgl : (follow_middle (m.follow l) ms).getLast? with
      | none =>
        rw [hgl] at ih1 ih2
        simp only [Option.getD_none]
        refine ⟨⟨?_, ih1⟩, ?_⟩
        · rw [touching_iff]; omega
        · intro p hp
          rw [List.mem_cons] at hp
          rcases hp with rfl | hp
          · rw [abs_le, abs_le]; omega
          · exact ih2 p hp
      | some last =>
        rw [hgl] at ih1 ih2
        simp only [Option.getD_some]
        refine ⟨⟨?_, ih1⟩, ?_⟩
        · rw [touching_iff]; omega
        · intro p hp
          rw [List.mem_cons] at hp
          rcases hp with rfl | hp
          · rw [abs_le, abs_le]; omega
          · exact ih2 p hp

theorem in_touch_iff_touching (p q : Point)
    (hx1 : -2147483648 < q.x) (hx2 : q.x < 2147483647)
    (hy1 : -2147483648 < q.y) (hy2 : q.y < 2147483647) :
    in_touch p q = true ↔ touching p q := by
  rw [in_touch_iff p q hx1 hx2 hy1 hy2, touching_iff]
  constructor <;> intro h <;> omega

/-- One iteration of the motion loop keeps the chain adjacent and lets every
coordinate grow by at most one. -/
theorem step_invariant (n : Int) (hn0 : 0 ≤ n) (hn : n < 2147483646) (rope : Rope)
    (d : Direction)
    (hb : ∀ p ∈ rope.knots, |p.x| ≤ n ∧ |p.y| ≤ n)
    (hc : List.Chain' (fun a b => touching b a) rope.knots) :
    (∀ p ∈ (step rope (Motion.ofDirection d)).knots, |p.x| ≤ n + 1 ∧ |p.y| ≤ n + 1) ∧
      List.Chain' (fun a b => touching b a) (step rope (Motion.ofDirection d)).knots := by
  simp only [Rope.knots, End.current_point, List.Chain', List.mem_cons] at hb hc
  have hbh := hb rope.head.current_ (Or.inl rfl)
  rw [abs_le, abs_le] at hbh
  have hb2 : ∀ p ∈ rope.middle.map (fun m => m.current_) ++ [rope.tail.current_],
      |p.x| ≤ n ∧ |p.y| ≤ n := fun p hp => hb p (Or.inr hp)
  have hmove : touching
      (rope.head.move (Motion.ofDirection d) (End.should_track_visit_default Knot.Head)).current_
      rope.head.current_ ∧
      |(rope.head.move (Motion.ofDirection d)
        (End.should_track_visit_default Knot.Head)).current_.x| ≤ n + 1 ∧
      |(rope.head.move (Motion.ofDirection d)
        (End.should_track_visit_default Knot.Head)).current_.y| ≤ n + 1 := by
    rw [touching_iff, abs_le, abs_le, move_current]
    cases d <;> simp only [Motion.ofDirection, Motion.unit_magnitude, wrap32, Nat.cast_one] <;>
      omega
  obtain ⟨h1, h2⟩ := chain_follow n hn rope.middle
    (rope.head.move (Motion.ofDirection d) (End.should_track_visit_default Knot.Head))
    rope.head.current_ rope.tail hmove.1 hmove.2 hc hb2
  simp only [Rope.knots, End.current_point, step, List.Chain', List.mem_cons]
  refine ⟨?_, h1⟩
  intro p hp
  rcases hp with rfl | hp
  · exact hmove.2
  · exact h2 p hp

theorem simulate_invariant (motions : List Direction) :
    ∀ (n : Int) (rope : Rope), 0 ≤ n → n + motions.length < 2147483647 →
      (∀ p ∈ rope.knots, |p.x| ≤ n ∧ |p.y| ≤ n) →
      List.Chain' (fun a b => touching b a) rope.knots →
      (∀ p ∈ ((motions.map Motion.ofDirection).foldl step rope).knots,
        |p.x| ≤ n + motions.length ∧ |p.y| ≤ n + motions.length) ∧
      List.Chain' (fun a b => touching b a)
        ((motions.map Motion.ofDirection).foldl step rope).knots := by
  induction motions with
  | nil => intro n rope _ _ hb hc; simpa using ⟨hb, hc⟩
  | cons d ds ih =>
      intro n rope hn0 hn hb hc
      simp only [List.length_cons, Nat.cast_add, Nat.cast_one] at hn
      obtain ⟨hb1, hc1⟩ := step_invariant n hn0 (by omega) rope d hb hc
      simp only [List.map_cons, List.foldl_cons, List.length_cons, Nat.cast_add, Nat.cast_one]
      have h := ih (n + 1) _ (by omega) (by omega) hb1 hc1
      have e : n + 1 + (ds.length : Int) = n + (ds.length + 1) := by ring
      rw [e] at h
      exact h

theorem make_rope_invariant :
    (∀ p ∈ make_rope.knots, |p.x| ≤ 0 ∧ |p.y| ≤ 0) ∧
      List.Chain' (fun a b => touching b a) make_rope.knots := by
  simp [make_rope, Rope.knots, End.current_point, End.init, num_knots, List.replicate,
    touching]

/-- C1 (touching invariant): after every unit step of the motion loop, started
from `make_rope` (head, eight middle knots, tail at the origin), every knot is
`in_touch` with its predecessor, i.e. both coordinates differ by at most one.
The number of unit motions is below `2 ^ 31 - 1`, which keeps every `int32_t`
computation of the program inside the `int` range. -/
theorem touching_invariant (dirs : List Direction) (k : Nat)
    (hlen : dirs.length < 2147483647) :
    List.Chain'
      (fun leader follower => in_touch follower leader = true ∧ touching follower leader)
      (simulate ((dirs.take k).map Motion.ofDirection)).knots := by
  have hk : (dirs.take k).length ≤ dirs.length := by
    rw [List.length_take]; exact Nat.min_le_right _ _
  obtain ⟨hb, hc⟩ := simulate_invariant (dirs.take k) 0 make_rope le_rfl (by omega)
    make_rope_invariant.1 make_rope_invariant.2
  rw [List.Chain'.iff_mem] at hc
  refine List.Chain'.imp ?_ hc
  intro a b hab
  obtain ⟨ha, _, hab⟩ := hab
  have hba := hb a ha
  rw [abs_le, abs_le] at hba
  exact ⟨(in_touch_iff_touching b a (by omega) (by omega) (by omega) (by omega)).2 hab, hab⟩

theorem move_visited_subset {k : Knot} (e : End k) (m : Motion) (b : Bool) :
    e.points_visited_ ⊆ (e.move m b).points_visited_ := by
  unfold End.move
  cases b
  · simp
  · simp only [End.visit, if_true]
    exact Finset.subset_insert _ _

theorem foldl_move_visited_subset {k : Knot} (b : Bool) (ms : List Motion) :
    ∀ e : End k, e.points_visited_ ⊆
      (ms.foldl (fun acc motion => acc.move motion b) e).points_visited_ := by
  induction ms with
  | nil => intro e; simp
  | cons m ms ih =>
      intro e
      simp only [List.foldl_cons]
      exact (move_visited_subset e m b).trans (ih _)

theorem follow_visited_subset {k u : Knot} (e : End k) (l : End u) :
    e.points_visited_ ⊆ (e.follow l).points_visited_ := by
  unfold End.follow
  simp only [End.visit]
  exact (foldl_move_visited_subset _ _ e).trans (Finset.subset_insert _ _)

/-- C9 (visited-set monotonicity): for every knot kind, `move` (with either
tracking flag and any motion) and `follow` (behind any leader) return a knot whose
visited set contains the previous visited set, so its size does not decrease. -/
theorem visited_monotone {k u : Knot} (e : End k) (m : Motion) (b : Bool) (l : End u) :
    (e.points_visited ⊆ (e.move m b).points_visited ∧
      e.points_visited.card ≤ (e.move m b).points_visited.card) ∧
    (e.points_visited ⊆ (e.follow l).points_visited ∧
      e.points_visited.card ≤ (e.follow l).points_visited.card) :=
  ⟨⟨move_visited_subset e m b, Finset.card_le_card (move_visited_subset e m b)⟩,
    ⟨follow_visited_subset e l, Finset.card_le_card (follow_visited_subset e l)⟩⟩

theorem foldl_move_visited_false {k : Knot} (ms : List Motion) :
    ∀ e : End k, (ms.foldl (fun acc motion => acc.move motion false) e).points_visited_ =
      e.points_visited_ := by
  induction ms with
  | nil => intro e; simp
  | cons m ms ih =>
      intro e
      simp only [List.foldl_cons]
      rw [ih]
      simp [End.move]

/-- A non-head knot records exactly its final position in `follow`. -/
theorem follow_visited {k u : Knot} (hk : k ≠ Knot.Head) (e : End k) (l : End u) :
    (e.follow l).points_visited_ = insert (e.follow l).current_ e.points_visited_ := by
  have hd : End.should_track_visit_default k = false := by
    simp [End.should_track_visit_default, hk]
  simp only [End.follow, End.visit, hd]
  rw [foldl_move_visited_false]

theorem simulate_snoc (ms : List Motion) (m : Motion) :
    simulate (ms ++ [m]) = step (simulate ms) m := by
  simp [simulate, List.foldl_append]

theorem step_tail_visited (rope : Rope) (m : Motion) :
    (step rope m).tail.points_visited_ =
      insert (step rope m).tail.current_ rope.tail.points_visited_ := by
  simp only [step]
  cases (follow_middle (rope.head.move m (End.should_track_visit_default Knot.Head))
    rope.middle).getLast? with
  | none => exact follow_visited (by decide) _ _
  | some last => exact follow_visited (by decide) _ _

theorem tail_visited_eq (motions : List Motion) :
    (simulate motions).tail.points_visited_ =
      ((List.range (motions.length + 1)).map
        (fun k => (simulate (motions.take k)).tail.current_)).toFinset := by
  induction motions using List.reverseRecOn with
  | nil => simp [simulate, make_rope, End.init]
  | append_singleton ms m ih =>
      rw [simulate_snoc, step_tail_visited, ih, List.length_append, List.length_singleton,
        List.range_succ (n := ms.length + 1), List.map_append, List.toFinset_append]
      have h1 : (List.range (ms.length + 1)).map
            (fun k => (simulate ((ms ++ [m]).take k)).tail.current_) =
          (List.range (ms.length + 1)).map (fun k => (simulate (ms.take k)).tail.current_) := by
        apply List.map_congr_left
        intro k hk
        rw [List.mem_range] at hk
        rw [List.take_append_of_le_length (by omega)]
      rw [h1]
      simp only [List.map_cons, List.map_nil, List.toFinset_cons, List.toFinset_nil,
        insert_emptyc_eq]
      rw [List.take_of_length_le (by simp), simulate_snoc, Finset.union_comm]
      rfl

/-- C8 (tail output): for every motion sequence the tail's visited set is exactly
the set of positions the tail occupies initially and at the end of each unit step
(nothing else, in particular no intermediate point of a two-motion correction); its
size lies between 1 and the number of unit motions plus 1, and it is the value
printed by `main`. -/
theorem tail_output (motions : List Motion) (lines : List (Direction × Nat)) :
    ((simulate motions).tail.points_visited =
        ((List.range (motions.length + 1)).map
          (fun k => (simulate (motions.take k)).tail.current_point)).toFinset ∧
      1 ≤ (simulate motions).tail.points_visited.card ∧
      (simulate motions).tail.points_visited.card ≤ motions.length + 1) ∧
    main lines = (simulate (parse_motions lines)).tail.points_visited.card := by
  have h := tail_visited_eq motions
  simp only [End.points_visited, End.current_point, main, and_true]
  refine ⟨h, ?_, ?_⟩
  · rw [h, Nat.succ_le_iff, Finset.card_pos]
    exact ⟨(simulate (motions.take 0)).tail.current_, by
      rw [List.mem_toFinset, List.mem_map]
      exact ⟨0, by simp, rfl⟩⟩
  · rw [h]
    refine (List.toFinset_card_le _).trans ?_
    simp

theorem follow_stays {k u : Knot} (e : End k) (l : End u)
    (h : in_touch e.current_ l.current_ = true) : (e.follow l).current_ = e.current_ := by
  rw [follow_current]
  simp [suggest_motion, h]

theorem follow_right {k u : Knot} (e : End k) (l : End u)
    (hx1 : -2147483648 ≤ e.current_.x) (hx2 : e.current_.x + 2 ≤ 2147483647)
    (hx : l.current_.x = e.current_.x + 2) (hy : l.current_.y = e.current_.y) :
    (e.follow l).current_ = { x := e.current_.x + 1, y := e.current_.y } := by
  have ht : in_touch e.current_ l.current_ = false := by
    simp only [in_touch, hx, hy]
    rw [wrap32_of_range (e.current_.x + 2 - 1) (by omega) (by omega)]
    have : ¬ (e.current_.x ≥ e.current_.x + 2 - 1) := by omega
    simp [this]
  rw [follow_current]
  unfold suggest_motion
  rw [direction_within_l1_distance_two _ _ (by omega) (by omega) (by omega) (by omega)]
  have h1 : ¬ (l.current_.y - e.current_.y = 2 ∧ l.current_.x = e.current_.x) := by omega
  have h2 : ¬ (e.current_.y - l.current_.y = 2 ∧ l.current_.x = e.current_.x) := by omega
  have h3 : ¬ (e.current_.x - l.current_.x = 2 ∧ l.current_.y = e.current_.y) := by omega
  have h4 : l.current_.x - e.current_.x = 2 ∧ l.current_.y = e.current_.y := by omega
  rw [ht, if_neg h1, if_neg h2, if_neg h3, if_pos h4]
  simp only [Bool.false_eq_true, if_false, List.foldl_cons, List.foldl_nil, move_current,
    Motion.ofDirection, Motion.unit_magnitude, Nat.cast_one]
  rw [wrap32_of_range (e.current_.x + 1) (by omega) (by omega)]

theorem pair_run_snoc {k : Knot} (ms : List Motion) (m : Motion) :
    (pair_run (ms ++ [m]) : End Knot.Head × End k) = pair_step (pair_run ms) m := by
  simp [pair_run, List.foldl_append]

/-- Closed form of the two-knot rope pulled to the right. -/
theorem pair_run_right {k : Knot} (hk : k ≠ Knot.Head) (n : Nat) (hn : n + 1 < 2147483648) :
    ((pair_run (List.replicate (n + 1) (Motion.ofDirection Direction.right)) :
        End Knot.Head × End k).1.current_ = { x := (n : Int) + 1, y := 0 }) ∧
    ((pair_run (List.replicate (n + 1) (Motion.ofDirection Direction.right)) :
        End Knot.Head × End k).2.current_ = { x := (n : Int), y := 0 }) ∧
    ((pair_run (List.replicate (n + 1) (Motion.ofDirection Direction.right)) :
        End Knot.Head × End k).2.points_visited_ =
      (Finset.range (n + 1)).image (fun i : Nat => ({ x := (i : Int), y := 0 } : Point))) := by
  induction n with
  | zero =>
      have hp : (pair_run (List.replicate (0 + 1) (Motion.ofDirection Direction.right)) :
          End Knot.Head × End k) =
          pair_step (End.init, End.init) (Motion.ofDirection Direction.right) := rfl
      have hl : ((End.init : End Knot.Head).move (Motion.ofDirection Direction.right)
          (End.should_track_visit_default Knot.Head)).current_ = { x := 1, y := 0 } := by
        rw [move_current]; rfl
      have hf : ((End.init : End k).follow ((End.init : End Knot.Head).move
          (Motion.ofDirection Direction.right)
          (End.should_track_visit_default Knot.Head))).current_ = { x := 0, y := 0 } := by
        rw [follow_stays]
        · rfl
        · rw [hl]; rfl
      rw [hp]
      simp only [pair_step]
      refine ⟨by rw [hl]; rfl, by rw [hf]; rfl, ?_⟩
      rw [follow_visited hk, hf]
      simp [End.init]
  | succ n ih =>
      obtain ⟨h1, h2, h3⟩ := ih (by omega)
      rw [List.replicate_succ', pair_run_snoc]
      simp only [pair_step]
      have hl : ((pair_run (List.replicate (n + 1) (Motion.ofDirection Direction.right)) :
          End Knot.Head × End k).1.move (Motion.ofDirection Direction.right)
          (End.should_track_visit_default Knot.Head)).current_ =
          { x := (n : Int) + 1 + 1, y := 0 } := by
        rw [move_current, h1]
        simp only [Motion.ofDirection, Motion.unit_magnitude, Nat.cast_one]
        rw [wrap32_of_range _ (by omega) (by omega)]
      have hf := follow_right
        (pair_run (List.replicate (n + 1) (Motion.ofDirection Direction.right)) :
          End Knot.Head × End k).2
        ((pair_run (List.replicate (n + 1) (Motion.ofDirection Direction.right)) :
          End Knot.Head × End k).1.move (Motion.ofDirection Direction.right)
          (End.should_track_visit_default Knot.Head))
        (by rw [h2]; simp only; omega) (by rw [h2]; simp only; omega)
        (by rw [hl, h2]; simp only; omega) (by rw [hl, h2])
      rw [h2] at hf
      refine ⟨?_, ?_, ?_⟩
      · rw [hl]; simp
      · rw [hf]; simp
      · rw [follow_visited hk, hf, h3, Finset.range_succ (n := n + 1), Finset.image_insert]
        simp

/-- C10, amended (straight-line trailing): for `1 ≤ n < 2 ^ 31`, after `n` unit
motions to the right of a leader with a single follower, both started at the
origin, the leader is at `(n, 0)`, the follower at `(n - 1, 0)` and the follower
has visited exactly `(0, 0), ..., (n - 1, 0)`. -/
theorem straight_line_trailing (n : Nat) (h1 : 1 ≤ n) (h2 : n < 2147483648) :
    (pair_run (List.replicate n (Motion.ofDirection Direction.right)) :
        End Knot.Head × End Knot.Tail).1.current_point = { x := (n : Int), y := 0 } ∧
    (pair_run (List.replicate n (Motion.ofDirection Direction.right)) :
        End Knot.Head × End Knot.Tail).2.current_point = { x := (n : Int) - 1, y := 0 } ∧
    (pair_run (List.replicate n (Motion.ofDirection Direction.right)) :
        End Knot.Head × End Knot.Tail).2.points_visited =
      (Finset.range n).image (fun i : Nat => ({ x := (i : Int), y := 0 } : Point)) := by
  obtain ⟨m, rfl⟩ : ∃ m, n = m + 1 := ⟨n - 1, by omega⟩
  obtain ⟨e1, e2, e3⟩ := pair_run_right (k := Knot.Tail) (by decide) m h2
  simp only [End.current_point, End.points_visited]
  refine ⟨?_, ?_, e3⟩
  · rw [e1]; simp
  · rw [e2]; simp

/-- C10, the worked example `n = 4`: the leader reaches `(4, 0)`, the follower ends
at `(3, 0)` having visited `(0, 0), (1, 0), (2, 0), (3, 0)`. -/
theorem straight_line_trailing_witness :
    (pair_run (List.replicate 4 (Motion.ofDirection Direction.right)) :
        End Knot.Head × End Knot.Tail).1.current_point = { x := 4, y := 0 } ∧
    (pair_run (List.replicate 4 (Motion.ofDirection Direction.right)) :
        End Knot.Head × End Knot.Tail).2.current_point = { x := 3, y := 0 } ∧
    (pair_run (List.replicate 4 (Motion.ofDirection Direction.right)) :
        End Knot.Head × End Knot.Tail).2.points_visited =
      {{ x := 0, y := 0 }, { x := 1, y := 0 }, { x := 2, y := 0 }, { x := 3, y := 0 }} := by
  obtain ⟨e1, e2, e3⟩ := straight_line_trailing 4 (by decide) (by decide)
  refine ⟨e1, e2, ?_⟩
  rw [e3]
  decide

theorem pair_run_right_last {k : Knot} (hk : k ≠ Knot.Head) :
    (pair_run (List.replicate 2147483648 (Motion.ofDirection Direction.right)) :
        End Knot.Head × End k).1.current_ = { x := -2147483648, y := 0 } ∧
    (pair_run (List.replicate 2147483648 (Motion.ofDirection Direction.right)) :
        End Knot.Head × End k).2.current_ = { x := 2147483647, y := 0 } := by
  obtain ⟨e1, e2, _⟩ := pair_run_right hk 2147483646 (by norm_num)
  have hr : List.replicate 2147483648 (Motion.ofDirection Direction.right) =
      List.replicate (2147483646 + 1) (Motion.ofDirection Direction.right) ++
        [Motion.ofDirection Direction.right] :=
    List.replicate_succ' (n := 2147483647) (a := Motion.ofDirection Direction.right)
  rw [hr, pair_run_snoc]
  generalize (pair_run (List.replicate (2147483646 + 1) (Motion.ofDirection Direction.right)) :
    End Knot.Head × End k) = s at e1 e2
  simp only [pair_step]
  have hl : (s.1.move (Motion.ofDirection Direction.right)
      (End.should_track_visit_default Knot.Head)).current_ = { x := -2147483648, y := 0 } := by
    rw [move_current, e1]
    simp only [Motion.ofDirection, Motion.unit_magnitude, Nat.cast_one]
    norm_num [wrap32]
  refine ⟨hl, ?_⟩
  rw [follow_current, hl, e2]
  have hs : suggest_motion { x := ((2147483646 : Nat) : Int), y := 0 }
      { x := -2147483648, y := 0 } = [Motion.ofDirection Direction.right] := by
    decide
  rw [hs]
  simp only [List.foldl_cons, List.foldl_nil]
  rw [move_current, e2]
  simp only [Motion.ofDirection, Motion.unit_magnitude, Nat.cast_one]
  norm_num [wrap32]

theorem current_point_eq {k : Knot} (e : End k) : e.current_point = e.current_ := rfl

/-- C10 as stated fails at `n = 2 ^ 31`: the leader's `int32_t` coordinate has
wrapped to `-2 ^ 31`, it is not at `(n, 0)`. -/
theorem straight_line_trailing_overflow :
    ¬ ((pair_run (List.replicate 2147483648 (Motion.ofDirection Direction.right)) :
          End Knot.Head × End Knot.Tail).1.current_point = { x := 2147483648, y := 0 } ∧
        (pair_run (List.replicate 2147483648 (Motion.ofDirection Direction.right)) :
          End Knot.Head × End Knot.Tail).2.current_point = { x := 2147483648 - 1, y := 0 }) := by
  intro h
  obtain ⟨e, _⟩ := pair_run_right_last (k := Knot.Tail) (by decide)
  have h1 := h.1
  rw [current_point_eq, e] at h1
  exact absurd h1 (by decide)

theorem follow_middle_head? {u : Knot} (l : End u) (m : End Knot.Middle)
    (ms : List (End Knot.Middle)) (h : ms.head? = some m) :
    (follow_middle l ms).head? = some (m.follow l) := by
  cases ms with
  | nil => simp at h
  | cons a rest =>
      simp only [List.head?_cons, Option.some.injEq] at h
      subst h
      simp [follow_middle]

/-- The head and the first middle knot of the rope evolve like a two-knot rope. -/
theorem simulate_head_pair (ms : List Motion) :
    (simulate ms).head = (pair_run ms : End Knot.Head × End Knot.Middle).1 ∧
      (simulate ms).middle.head? = some (pair_run ms : End Knot.Head × End Knot.Middle).2 := by
  induction ms using List.reverseRecOn with
  | nil => exact ⟨rfl, rfl⟩
  | append_singleton ms m ih =>
      obtain ⟨ih1, ih2⟩ := ih
      rw [simulate_snoc, pair_run_snoc]
      simp only [step, pair_step]
      refine ⟨by rw [ih1], ?_⟩
      rw [follow_middle_head? _ _ _ ih2, ih1]

/-- A rope whose head is at `-2 ^ 31` and whose first middle knot is at
`2 ^ 31 - 1` is not a chain of touching knots. -/
theorem not_touching_of_wrapped (rope : Rope) (first : End Knot.Middle)
    (h1 : rope.head.current_ = { x := -2147483648, y := 0 })
    (h2 : rope.middle.head? = some first)
    (h3 : first.current_ = { x := 2147483647, y := 0 }) :
    ¬ List.Chain'
      (fun leader follower => in_touch follower leader = true ∧ touching follower leader)
      rope.knots := by
  intro h
  cases hm : rope.middle with
  | nil => rw [hm] at h2; simp at h2
  | cons a rest =>
      rw [hm] at h2
      simp only [List.head?_cons, Option.some.injEq] at h2
      subst h2
      simp only [Rope.knots, End.current_point, hm, List.map_cons, List.cons_append,
        List.chain'_cons] at h
      have ht := h.1.2
      rw [h1, h3, touching_iff] at ht
      simp only at ht
      omega

/-- C1 as stated fails after `2 ^ 31` unit motions to the right: the head's
`int32_t` coordinate has wrapped to `-2 ^ 31` while the next knot is at
`2 ^ 31 - 1`. -/
theorem touching_invariant_overflow :
    ¬ List.Chain'
      (fun leader follower => in_touch follower leader = true ∧ touching follower leader)
      (simulate (List.replicate 2147483648 (Motion.ofDirection Direction.right))).knots := by
  obtain ⟨e1, e2⟩ := simulate_head_pair
    (List.replicate 2147483648 (Motion.ofDirection Direction.right))
  obtain ⟨p1, p2⟩ := pair_run_right_last (k := Knot.Middle) (by decide)
  rw [← e1] at p1
  exact not_touching_of_wrapped _ _ p1 e2 p2

/-- C1 at a concrete motion sequence: after the six unit steps of
`R, R, U, U, L, D` every adjacent pair of knots is in touch. -/
theorem touching_invariant_witness :
    [Direction.right, Direction.right, Direction.up, Direction.up,
        Direction.left, Direction.down].length < 2147483647 ∧
      List.Chain'
        (fun leader follower => in_touch follower leader = true ∧ touching follower leader)
        (simulate (([Direction.right, Direction.right, Direction.up, Direction.up,
          Direction.left, Direction.down].take 6).map Motion.ofDirection)).knots :=
  ⟨by decide, touching_invariant [Direction.right, Direction.right, Direction.up, Direction.up,
    Direction.left, Direction.down] 6 (by decide)⟩

end Day9

namespace Day9

theorem suggest_motion_of_touching (lagging leading : Point) (hin : leading.inside_int32)
    (ht : touching lagging leading) : suggest_motion lagging leading = [] := by
  obtain ⟨⟨hx1, hx2⟩, hy1, hy2⟩ := hin
  have h := (in_touch_iff_touching lagging leading hx1 hx2 hy1 hy2).2 ht
  simp [suggest_motion, h]

/-- C14, amended (no correction when touching): for every pair of positions with
`|dx| ≤ 1` and `|dy| ≤ 1` whose leading coordinates lie strictly between the least
and the greatest `int32_t`, `suggest_motion` returns no motion and `follow` leaves
the follower where it is. -/
theorem no_correction_when_touching {k u : Knot} (e : End k) (l : End u)
    (hin : l.current_point.inside_int32)
    (ht : touching e.current_point l.current_point) :
    suggest_motion e.current_point l.current_point = [] ∧
      (e.follow l).current_point = e.current_point := by
  have hs := suggest_motion_of_touching e.current_ l.current_ hin ht
  refine ⟨hs, ?_⟩
  simp only [End.current_point] at *
  rw [follow_current, hs]
  rfl

/-- C14 at equal and at diagonal-by-one positions. -/
theorem no_correction_when_touching_witness :
    (suggest_motion (End.init : End Knot.Tail).current_point
        (End.init : End Knot.Head).current_point = [] ∧
      ((End.init : End Knot.Tail).follow (End.init : End Knot.Head)).current_point =
        (End.init : End Knot.Tail).current_point) ∧
    (suggest_motion ({ current_ := { x := 3, y := 4 }, points_visited_ := ∅ } :
          End Knot.Tail).current_point
        ({ current_ := { x := 4, y := 5 }, points_visited_ := ∅ } :
          End Knot.Head).current_point = [] ∧
      (({ current_ := { x := 3, y := 4 }, points_visited_ := ∅ } : End Knot.Tail).follow
        ({ current_ := { x := 4, y := 5 }, points_visited_ := ∅ } :
          End Knot.Head)).current_point =
        ({ current_ := { x := 3, y := 4 }, points_visited_ := ∅ } :
          End Knot.Tail).current_point) :=
  ⟨no_correction_when_touching End.init End.init (by decide) (by decide),
    no_correction_when_touching _ _ (by decide) (by decide)⟩

/-- C14 as stated fails at the rim of the `int32_t` range: for two equal positions
with `x = 2 ^ 31 - 1` the sum `point_2.x + 1` wraps, `in_touch` is false and two
motions are suggested. -/
theorem no_correction_when_touching_overflow :
    touching { x := 2147483647, y := 0 } { x := 2147483647, y := 0 } ∧
      suggest_motion { x := 2147483647, y := 0 } { x := 2147483647, y := 0 } =
        [Motion.ofDirection Direction.down, Motion.ofDirection Direction.left] := by
  refine ⟨by decide, by decide⟩

theorem suggest_motion_cardinal (lagging leading : Point) (d : Direction)
    (h1 : lagging.is_int32) (h2 : leading.is_int32) (h : leading = shift lagging d 2) :
    suggest_motion lagging leading = [Motion.ofDirection d] := by
  obtain ⟨a, b⟩ := lagging
  obtain ⟨⟨ha1, ha2⟩, hb1, hb2⟩ := h1
  subst h
  obtain ⟨⟨hc1, hc2⟩, hd1, hd2⟩ := h2
  have ht : ∀ q : Point, q = shift { x := a, y := b } d 2 →
      in_touch { x := a, y := b } q = false := by
    intro q hq
    subst hq
    rw [Bool.eq_false_iff]
    intro ht
    simp only [in_touch, Bool.and_eq_true, decide_eq_true_eq] at ht
    cases d <;> simp only [shift, wrap32] at ht hc1 hc2 hd1 hd2 <;> omega
  unfold suggest_motion
  rw [ht _ rfl, direction_within_l1_distance_two]
  · cases d <;> simp [shift]
  all_goals cases d <;> simp only [shift] <;> omega

/-- C15 (cardinal correction): when the leading position is exactly 2 units away
in one of the four directions and aligned on the other axis, `suggest_motion`
returns exactly the unit motion in that direction and `follow` moves the follower
1 unit in that direction, which leaves it 1 unit from the leader. -/
theorem cardinal_correction {k u : Knot} (e : End k) (l : End u) (d : Direction)
    (h1 : e.current_point.is_int32) (h2 : l.current_point.is_int32)
    (h : l.current_point = shift e.current_point d 2) :
    suggest_motion e.current_point l.current_point = [Motion.ofDirection d] ∧
      (e.follow l).current_point = shift e.current_point d 1 ∧
      l.current_point = shift (e.follow l).current_point d 1 := by
  have hs := suggest_motion_cardinal _ _ d h1 h2 h
  simp only [End.current_point] at *
  have hf : (e.follow l).current_ = shift e.current_ d 1 := by
    rw [follow_current, hs]
    simp only [List.foldl_cons, List.foldl_nil, move_current, Motion.ofDirection,
      Motion.unit_magnitude, Nat.cast_one]
    obtain ⟨⟨ha1, ha2⟩, hb1, hb2⟩ := h1
    obtain ⟨⟨hc1, hc2⟩, hd1, hd2⟩ := h2
    rw [h] at hc1 hc2 hd1 hd2
    cases d <;> simp only [shift] at hc1 hc2 hd1 hd2 ⊢ <;>
      rw [wrap32_of_range _ (by omega) (by omega)]
  refine ⟨hs, hf, ?_⟩
  rw [hf, h]
  cases d <;> simp only [shift] <;> congr 1 <;> ring

/-- C15 for a leader two units above: the follower at `(0, 0)` behind a leader at
`(0, 2)` is sent up and ends at `(0, 1)`. -/
theorem cardinal_correction_witness :
    suggest_motion (End.init : End Knot.Tail).current_point
        ({ current_ := { x := 0, y := 2 }, points_visited_ := ∅ } :
          End Knot.Head).current_point = [Motion.ofDirection Direction.up] ∧
      ((End.init : End Knot.Tail).follow
        ({ current_ := { x := 0, y := 2 }, points_visited_ := ∅ } :
          End Knot.Head)).current_point = shift (End.init : End Knot.Tail).current_point
          Direction.up 1 ∧
      ({ current_ := { x := 0, y := 2 }, points_visited_ := ∅ } :
          End Knot.Head).current_point =
        shift ((End.init : End Knot.Tail).follow
          ({ current_ := { x := 0, y := 2 }, points_visited_ := ∅ } :
            End Knot.Head)).current_point Direction.up 1 :=
  cardinal_correction End.init _ Direction.up (by decide) (by decide) (by decide)

theorem point_eq_iff (p : Point) (a b : Int) :
    p = { x := a, y := b } ↔ p.x = a ∧ p.y = b := by
  cases p; simp

/-- Position after `follow` when the follower is neither touching the leader nor
two units behind it in a cardinal direction. -/
theorem follow_diagonal {k u : Knot} (e : End k) (l : End u)
    (h1 : e.current_.inside_int32) (h2 : l.current_.inside_int32)
    (hnt : ¬ touching e.current_ l.current_)
    (hnc : ∀ d : Direction, l.current_ ≠ shift e.current_ d 2) :
    (e.follow l).current_ =
      { x := e.current_.x + (if l.current_.x > e.current_.x then 1 else -1),
        y := e.current_.y + (if l.current_.y > e.current_.y then 1 else -1) } := by
  obtain ⟨⟨ha1, ha2⟩, hb1, hb2⟩ := h1
  obtain ⟨⟨hc1, hc2⟩, hd1, hd2⟩ := h2
  have hit : in_touch e.current_ l.current_ = false := by
    rw [Bool.eq_false_iff]
    exact fun h => hnt ((in_touch_iff_touching _ _ hc1 hc2 hd1 hd2).1 h)
  have hup := hnc Direction.up
  have hdown := hnc Direction.down
  have hleft := hnc Direction.left
  have hright := hnc Direction.right
  simp only [shift, ne_eq, point_eq_iff, not_and] at hup hdown hleft hright
  rw [follow_current]
  unfold suggest_motion
  rw [hit, direction_within_l1_distance_two _ _ (by omega) (by omega) (by omega) (by omega)]
  have n1 : ¬ (l.current_.y - e.current_.y = 2 ∧ l.current_.x = e.current_.x) :=
    fun h => hup h.2 (by omega)
  have n2 : ¬ (e.current_.y - l.current_.y = 2 ∧ l.current_.x = e.current_.x) :=
    fun h => hdown h.2 (by omega)
  have n3 : ¬ (e.current_.x - l.current_.x = 2 ∧ l.current_.y = e.current_.y) :=
    fun h => hleft (by omega) h.2
  have n4 : ¬ (l.current_.x - e.current_.x = 2 ∧ l.current_.y = e.current_.y) :=
    fun h => hright (by omega) h.2
  rw [if_neg n1, if_neg n2, if_neg n3, if_neg n4]
  simp only [Bool.false_eq_true, if_false, find_diagonal_directions, List.map_cons,
    List.map_nil, List.foldl_cons, List.foldl_nil, move_current, Motion.ofDirection,
    Motion.unit_magnitude, Nat.cast_one]
  split_ifs <;> simp only [Point.mk.injEq, wrap32] <;> constructor <;> omega

/-- C16, amended (diagonal correction): for every pair of positions whose
coordinates lie strictly between the least and the greatest `int32_t`, that is not
touching and not in the exactly-2-units-cardinal case, `follow` displaces the
follower by exactly `(sx, sy)`: `sy` is `+1` if the leader is higher and `-1`
otherwise, `sx` is `+1` if the leader is further right and `-1` otherwise. -/
theorem diagonal_correction {k u : Knot} (e : End k) (l : End u)
    (h1 : e.current_point.inside_int32) (h2 : l.current_point.inside_int32)
    (hnt : ¬ touching e.current_point l.current_point)
    (hnc : ∀ d : Direction, l.current_point ≠ shift e.current_point d 2) :
    (e.follow l).current_point =
      { x := e.current_point.x + (if l.current_point.x > e.current_point.x then 1 else -1),
        y := e.current_point.y + (if l.current_point.y > e.current_point.y then 1 else -1) } :=
  follow_diagonal e l h1 h2 hnt hnc

set_option maxRecDepth 100000 in
/-- C16 for a follower at the origin behind a leader at `(1, 2)`: the follower
ends at `(1, 1)`. -/
theorem diagonal_correction_witness :
    ((End.init : End Knot.Tail).follow
      ({ current_ := { x := 1, y := 2 }, points_visited_ := ∅ } :
        End Knot.Head)).current_point = { x := 1, y := 1 } :=
  (diagonal_correction End.init _ (by decide) (by decide) (by decide)
    (by intro d; cases d <;> decide)).trans (by decide)

set_option maxRecDepth 100000 in
/-- C16 as stated fails at the rim of the `int32_t` range: a follower at
`(0, -2 ^ 31)` behind a leader at `(5, -2 ^ 31)` is neither touching nor in a
cardinal case, the vertical sub-move is down and `y` wraps to `2 ^ 31 - 1`. -/
theorem diagonal_correction_overflow :
    ¬ touching { x := 0, y := -2147483648 } { x := 5, y := -2147483648 } ∧
      (∀ d : Direction, ({ x := 5, y := -2147483648 } : Point) ≠
        shift { x := 0, y := -2147483648 } d 2) ∧
      (({ current_ := { x := 0, y := -2147483648 }, points_visited_ := ∅ } :
        End Knot.Tail).follow
        ({ current_ := { x := 5, y := -2147483648 }, points_visited_ := ∅ } :
          End Knot.Head)).current_point = { x := 1, y := 2147483647 } ∧
      ({ x := 1, y := 2147483647 } : Point) ≠ { x := 0 + 1, y := -2147483648 + -1 } := by
  refine ⟨by decide, by intro d; cases d <;> decide, by decide, by decide⟩

/-- A follower away from the rim of the `int32_t` range moves by at most one per
axis in `follow`. -/
theorem follow_step_bounded {k u : Knot} (e : End k) (l : End u)
    (h1 : e.current_.inside_int32) : touching (e.follow l).current_ e.current_ := by
  obtain ⟨⟨ha1, ha2⟩, hb1, hb2⟩ := h1
  rw [follow_current, touching_iff]
  unfold suggest_motion
  split_ifs
  · simp
  · cases direction_within_l1_distance e.current_ l.current_ l1_distance_limit with
    | some d =>
        cases d <;>
          simp only [List.foldl_cons, List.foldl_nil, move_current, Motion.ofDirection,
            Motion.unit_magnitude, Nat.cast_one, wrap32] <;> omega
    | none =>
        simp only [find_diagonal_directions, List.map_cons, List.map_nil, List.foldl_cons,
          List.foldl_nil, move_current, Motion.ofDirection, Motion.unit_magnitude,
          Nat.cast_one]
        split_ifs <;> simp only [wrap32] <;> omega

/-- C17, amended (bounded follower step): for every pair of positions, with no
reachability assumption, in which the follower's coordinates lie strictly between
the least and the greatest `int32_t`, the follower's position after `follow`
differs from its position before by at most 1 in `x` and at most 1 in `y`. -/
theorem bounded_follower_step {k u : Knot} (e : End k) (l : End u)
    (h1 : e.current_point.inside_int32) :
    |(e.follow l).current_point.x - e.current_point.x| ≤ 1 ∧
      |(e.follow l).current_point.y - e.current_point.y| ≤ 1 :=
  follow_step_bounded e l h1

/-- C17 for a leader far away: the follower at the origin moves to `(1, 1)`. -/
theorem bounded_follower_step_witness :
    |((End.init : End Knot.Tail).follow
        ({ current_ := { x := 40, y := 70 }, points_visited_ := ∅ } :
          End Knot.Head)).current_point.x - (End.init : End Knot.Tail).current_point.x| ≤ 1 ∧
      |((End.init : End Knot.Tail).follow
        ({ current_ := { x := 40, y := 70 }, points_visited_ := ∅ } :
          End Knot.Head)).current_point.y - (End.init : End Knot.Tail).current_point.y| ≤ 1 :=
  bounded_follower_step End.init _ (by decide)

set_option maxRecDepth 100000 in
/-- C17 as stated fails at the rim of the `int32_t` range: a follower at
`(0, -2 ^ 31)` behind a leader at `(-7, -2 ^ 31)` moves down and its `y` wraps to
`2 ^ 31 - 1`, a change of `2 ^ 32 - 1`. -/
theorem bounded_follower_step_overflow :
    ¬ (|(({ current_ := { x := 0, y := -2147483648 }, points_visited_ := ∅ } :
          End Knot.Tail).follow
          ({ current_ := { x := -7, y := -2147483648 }, points_visited_ := ∅ } :
            End Knot.Head)).current_point.y -
        ({ current_ := { x := 0, y := -2147483648 }, points_visited_ := ∅ } :
          End Knot.Tail).current_point.y| ≤ 1) := by
  decide

/-- C18 (follow records exactly the new position): for every non-head knot and
every predecessor, the visited set after `follow` is the previous visited set with
the knot's final position inserted, whether or not the knot moved; nothing else is
added, and when the final position was visited before the set is unchanged. -/
theorem follow_records_final {k u : Knot} (hk : k ≠ Knot.Head) (e : End k) (l : End u) :
    (e.follow l).points_visited = insert (e.follow l).current_point e.points_visited ∧
      ((e.follow l).current_point ∈ e.points_visited →
        (e.follow l).points_visited = e.points_visited) := by
  have h := follow_visited hk e l
  simp only [End.points_visited, End.current_point]
  refine ⟨h, fun hm => ?_⟩
  rw [h, Finset.insert_eq_of_mem hm]

set_option maxRecDepth 100000 in
/-- C18 on a two-motion correction: a tail at the origin behind a knot at `(1, 2)`
moves up and right; its visited set becomes `(0, 0), (1, 1)`, without the
intermediate point `(0, 1)`. -/
theorem follow_records_final_witness :
    ((End.init : End Knot.Tail).follow
        ({ current_ := { x := 1, y := 2 }, points_visited_ := ∅ } :
          End Knot.Middle)).points_visited = {{ x := 0, y := 0 }, { x := 1, y := 1 }} ∧
      ({ x := 0, y := 1 } : Point) ∉ ((End.init : End Knot.Tail).follow
        ({ current_ := { x := 1, y := 2 }, points_visited_ := ∅ } :
          End Knot.Middle)).points_visited := by
  have h := (follow_records_final (by decide) (End.init : End Knot.Tail)
    ({ current_ := { x := 1, y := 2 }, points_visited_ := ∅ } : End Knot.Middle)).1
  have e : ((End.init : End Knot.Tail).follow
      ({ current_ := { x := 1, y := 2 }, points_visited_ := ∅ } :
        End Knot.Middle)).points_visited = {{ x := 0, y := 0 }, { x := 1, y := 1 }} :=
    h.trans (by decide)
  refine ⟨e, ?_⟩
  rw [e]
  decide

theorem move_tracked {k : Knot} (e : End k) (m : Motion) :
    (e.move m true).points_visited_ = insert (e.move m true).current_ e.points_visited_ := by
  simp [End.move, End.visit]

/-- C19, amended (leader step): for every head position and every direction such
that the position one unit further in that direction still has `int32_t`
coordinates, `head.move` with a unit motion yields `(x, y + 1)` for U, `(x, y - 1)`
for D, `(x + 1, y)` for R and `(x - 1, y)` for L, and inserts that position into
the head's visited set. -/
theorem leader_step (head : End Knot.Head) (d : Direction)
    (h : (shift head.current_point d 1).is_int32) :
    (head.move (Motion.ofDirection d)
        (End.should_track_visit_default Knot.Head)).current_point =
      shift head.current_point d 1 ∧
    (head.move (Motion.ofDirection d)
        (End.should_track_visit_default Knot.Head)).points_visited =
      insert (shift head.current_point d 1) head.points_visited := by
  simp only [End.current_point, End.points_visited] at *
  have hc : (head.move (Motion.ofDirection d)
      (End.should_track_visit_default Knot.Head)).current_ = shift head.current_ d 1 := by
    obtain ⟨⟨ha1, ha2⟩, hb1, hb2⟩ := h
    rw [move_current]
    cases d <;>
      simp only [Motion.ofDirection, Motion.unit_magnitude, Nat.cast_one, shift]
        at ha1 ha2 hb1 hb2 ⊢ <;>
      rw [wrap32_of_range _ (by omega) (by omega)]
  refine ⟨hc, ?_⟩
  have ht : End.should_track_visit_default Knot.Head = true := rfl
  rw [ht, move_tracked, ← ht, hc]

/-- C19 for the four directions from the origin. -/
theorem leader_step_witness :
    ((End.init : End Knot.Head).move (Motion.ofDirection Direction.up)
        (End.should_track_visit_default Knot.Head)).current_point = { x := 0, y := 1 } ∧
    ((End.init : End Knot.Head).move (Motion.ofDirection Direction.down)
        (End.should_track_visit_default Knot.Head)).current_point = { x := 0, y := -1 } ∧
    ((End.init : End Knot.Head).move (Motion.ofDirection Direction.right)
        (End.should_track_visit_default Knot.Head)).current_point = { x := 1, y := 0 } ∧
    ((End.init : End Knot.Head).move (Motion.ofDirection Direction.left)
        (End.should_track_visit_default Knot.Head)).current_point = { x := -1, y := 0 } :=
  ⟨(leader_step End.init Direction.up (by decide)).1,
    (leader_step End.init Direction.down (by decide)).1,
    (leader_step End.init Direction.right (by decide)).1,
    (leader_step End.init Direction.left (by decide)).1⟩

/-- C19 as stated fails at the rim of the `int32_t` range: a head at
`(0, 2 ^ 31 - 1)` moved up is at `(0, -2 ^ 31)`, not at `(0, 2 ^ 31)`. -/
theorem leader_step_overflow :
    (({ current_ := { x := 0, y := 2147483647 }, points_visited_ := ∅ } :
        End Knot.Head).move (Motion.ofDirection Direction.up)
        (End.should_track_visit_default Knot.Head)).current_point =
      { x := 0, y := -2147483648 } ∧
    ({ x := 0, y := -2147483648 } : Point) ≠ { x := 0, y := 2147483647 + 1 } := by
  refine ⟨by decide, by decide⟩

end Day9

namespace Day9

/-- C26 (touching test): away from 32-bit overflow, `in_touch p q` holds exactly
when `max(|p.x - q.x|, |p.y - q.y|) ≤ 1`; consequently it is reflexive and
symmetric. -/
theorem in_touch_chebyshev (p q : Point) (hp : p.inside_int32) (hq : q.inside_int32) :
    (in_touch p q = true ↔ max |p.x - q.x| |p.y - q.y| ≤ 1) ∧
      in_touch p p = true ∧ in_touch p q = in_touch q p := by
  obtain ⟨⟨hp1, hp2⟩, hp3, hp4⟩ := hp
  obtain ⟨⟨hq1, hq2⟩, hq3, hq4⟩ := hq
  have hpq := in_touch_iff p q hq1 hq2 hq3 hq4
  have hqp := in_touch_iff q p hp1 hp2 hp3 hp4
  have hpp := in_touch_iff p p hp1 hp2 hp3 hp4
  refine ⟨?_, ?_, ?_⟩
  · rw [hpq, max_le_iff, abs_le, abs_le]
    constructor <;> intro h <;> omega
  · rw [hpp]; omega
  · rw [Bool.eq_iff_iff, hpq, hqp]
    constructor <;> intro h <;> omega

/-- C26 at `(3, 4)` and `(4, 5)`. -/
theorem in_touch_chebyshev_witness :
    (in_touch { x := 3, y := 4 } { x := 4, y := 5 } = true ↔
        max |(3 : Int) - 4| |(4 : Int) - 5| ≤ 1) ∧
      in_touch { x := 3, y := 4 } { x := 3, y := 4 } = true ∧
      in_touch { x := 3, y := 4 } { x := 4, y := 5 } =
        in_touch { x := 4, y := 5 } { x := 3, y := 4 } :=
  in_touch_chebyshev { x := 3, y := 4 } { x := 4, y := 5 } (by decide) (by decide)

/-- One `follow` across a gap of at most two per axis, for a leader away from the
rim of the `int32_t` range: the follower ends next to the leader, and on each axis
between its old position and the leader. -/
theorem follow_between {k u : Knot} (e : End k) (l : End u)
    (hx1 : -2147483648 ≤ e.current_.x) (hx2 : e.current_.x ≤ 2147483647)
    (hy1 : -2147483648 ≤ e.current_.y) (hy2 : e.current_.y ≤ 2147483647)
    (lx1 : -2147483647 ≤ l.current_.x) (lx2 : l.current_.x ≤ 2147483646)
    (ly1 : -2147483647 ≤ l.current_.y) (ly2 : l.current_.y ≤ 2147483646)
    (dx1 : l.current_.x - e.current_.x ≤ 2) (dx2 : e.current_.x - l.current_.x ≤ 2)
    (dy1 : l.current_.y - e.current_.y ≤ 2) (dy2 : e.current_.y - l.current_.y ≤ 2) :
    ((-1 ≤ (e.follow l).current_.x - l.current_.x ∧
        (e.follow l).current_.x - l.current_.x ≤ 1) ∧
      (-1 ≤ (e.follow l).current_.y - l.current_.y ∧
        (e.follow l).current_.y - l.current_.y ≤ 1)) ∧
    ((l.current_.x ≤ (e.follow l).current_.x ∧ (e.follow l).current_.x ≤ e.current_.x) ∨
      (e.current_.x ≤ (e.follow l).current_.x ∧ (e.follow l).current_.x ≤ l.current_.x)) ∧
    ((l.current_.y ≤ (e.follow l).current_.y ∧ (e.follow l).current_.y ≤ e.current_.y) ∨
      (e.current_.y ≤ (e.follow l).current_.y ∧ (e.follow l).current_.y ≤ l.current_.y)) := by
  rw [follow_current]
  unfold suggest_motion
  rw [direction_within_l1_distance_two _ _ (by omega) (by omega) (by omega) (by omega)]
  have hit := in_touch_iff e.current_ l.current_ (by omega) (by omega) (by omega) (by omega)
  by_cases ht : in_touch e.current_ l.current_ = true
  · simp only [ht, if_true, List.foldl_nil]
    rw [hit] at ht
    omega
  · have ht2 := ht
    rw [hit] at ht2
    simp only [ht, Bool.false_eq_true, if_false]
    split_ifs with h1 h2 h3 h4 <;>
      simp only [List.foldl_cons, List.foldl_nil, move_current, Motion.ofDirection,
        Motion.unit_magnitude, find_diagonal_directions, List.map] <;>
      (try split_ifs) <;>
      simp only [wrap32, Nat.cast_one] <;>
      omega

/-- C28, amended (one-step repair): for every pair of positions with `|dx| ≤ 2` and
`|dy| ≤ 2` in which the leading coordinates lie strictly between the least and the
greatest `int32_t`, after `follow` the follower is touching the leading position and
its distance to the leading position on each axis is not larger than before. -/
theorem one_step_repair {k u : Knot} (e : End k) (l : End u)
    (h1 : e.current_point.is_int32) (h2 : l.current_point.inside_int32)
    (hx : |l.current_point.x - e.current_point.x| ≤ 2)
    (hy : |l.current_point.y - e.current_point.y| ≤ 2) :
    touching (e.follow l).current_point l.current_point ∧
      |(e.follow l).current_point.x - l.current_point.x| ≤
        |e.current_point.x - l.current_point.x| ∧
      |(e.follow l).current_point.y - l.current_point.y| ≤
        |e.current_point.y - l.current_point.y| := by
  obtain ⟨⟨ha1, ha2⟩, hb1, hb2⟩ := h1
  obtain ⟨⟨hc1, hc2⟩, hd1, hd2⟩ := h2
  rw [abs_le] at hx hy
  simp only [End.current_point] at *
  obtain ⟨ht, hbx, hby⟩ := follow_between e l ha1 ha2 hb1 hb2 (by omega) (by omega)
    (by omega) (by omega) (by omega) (by omega) (by omega) (by omega)
  refine ⟨(touching_iff _ _).2 ht, ?_, ?_⟩
  · rcases hbx with ⟨a, b⟩ | ⟨a, b⟩
    · exact abs_le_abs (by omega) (by omega)
    · rw [abs_sub_comm, abs_sub_comm e.current_.x]
      exact abs_le_abs (by omega) (by omega)
  · rcases hby with ⟨a, b⟩ | ⟨a, b⟩
    · exact abs_le_abs (by omega) (by omega)
    · rw [abs_sub_comm, abs_sub_comm e.current_.y]
      exact abs_le_abs (by omega) (by omega)

set_option maxRecDepth 100000 in
/-- C28 for a follower at the origin and a leader at `(2, 1)`: the follower moves
to `(1, 1)`. -/
theorem one_step_repair_witness :
    touching
        ((End.init : End Knot.Tail).follow
          ({ current_ := { x := 2, y := 1 }, points_visited_ := ∅ } :
            End Knot.Head)).current_point
        ({ current_ := { x := 2, y := 1 }, points_visited_ := ∅ } :
          End Knot.Head).current_point ∧
      |((End.init : End Knot.Tail).follow
          ({ current_ := { x := 2, y := 1 }, points_visited_ := ∅ } :
            End Knot.Head)).current_point.x -
        ({ current_ := { x := 2, y := 1 }, points_visited_ := ∅ } :
          End Knot.Head).current_point.x| ≤
        |(End.init : End Knot.Tail).current_point.x -
          ({ current_ := { x := 2, y := 1 }, points_visited_ := ∅ } :
            End Knot.Head).current_point.x| ∧
      |((End.init : End Knot.Tail).follow
          ({ current_ := { x := 2, y := 1 }, points_visited_ := ∅ } :
            End Knot.Head)).current_point.y -
        ({ current_ := { x := 2, y := 1 }, points_visited_ := ∅ } :
          End Knot.Head).current_point.y| ≤
        |(End.init : End Knot.Tail).current_point.y -
          ({ current_ := { x := 2, y := 1 }, points_visited_ := ∅ } :
            End Knot.Head).current_point.y| :=
  one_step_repair End.init _ (by decide) (by decide) (by decide) (by decide)

set_option maxRecDepth 100000 in
/-- C28 as stated fails at the rim of the `int32_t` range: a follower on the same
position as a leader at `(2 ^ 31 - 1, 0)` moves to `(2 ^ 31 - 2, -1)`, so both
distances grow from 0 to 1. -/
theorem one_step_repair_overflow :
    (({ current_ := { x := 2147483647, y := 0 }, points_visited_ := ∅ } :
          End Knot.Tail).follow
        ({ current_ := { x := 2147483647, y := 0 }, points_visited_ := ∅ } :
          End Knot.Head)).current_point = { x := 2147483646, y := -1 } := by
  decide

end Day9

namespace Day10

theorem wrap32_wrap32_add (a b : Int) : wrap32 (wrap32 a + b) = wrap32 (a + b) := by
  unfold wrap32; omega

theorem cost_pos (type : InstructionType) : 1 ≤ Instruction.type_to_cycle_cost type := by
  cases type <;> simp [Instruction.type_to_cycle_cost]

theorem total_cost_append (a b : List Instruction) :
    total_cost (a ++ b) = total_cost a + total_cost b := by
  simp [total_cost]

theorem total_cost_cons (a : Instruction) (b : List Instruction) :
    total_cost (a :: b) = Instruction.type_to_cycle_cost a.type + total_cost b := by
  simp [total_cost]

theorem total_cost_nil : total_cost [] = 0 := rfl

theorem total_cost_pos (a : Instruction) (b : List Instruction) :
    1 ≤ total_cost (a :: b) := by
  rw [total_cost_cons]
  have := cost_pos a.type
  omega

theorem visible_effects_zero (c : Nat) (l : List Instruction) :
    ∀ k, c ≤ k + 1 → visible_effects c k l = 0 := by
  induction l with
  | nil => intro k _; rfl
  | cons a l ih =>
      intro k hk
      have h1 := cost_pos a.type
      simp only [visible_effects]
      rw [if_neg (by omega), ih _ (by omega)]
      rfl

theorem visible_effects_append (c : Nat) (done rest : List Instruction) :
    ∀ k, k + total_cost done < c →
      visible_effects c k (done ++ rest) =
        (done.map effect).sum + visible_effects c (k + total_cost done) rest := by
  induction done with
  | nil => intro k _; simp [total_cost]
  | cons a l ih =>
      intro k hk
      rw [total_cost_cons] at hk
      have h1 := cost_pos a.type
      rw [List.cons_append]
      simp only [visible_effects, List.map_cons, List.sum_cons]
      rw [if_pos (by omega), ih (k + Instruction.type_to_cycle_cost a.type) (by omega),
        total_cost_cons]
      have e : k + Instruction.type_to_cycle_cost a.type + total_cost l =
          k + (Instruction.type_to_cycle_cost a.type + total_cost l) := by omega
      rw [e]
      ring

/-- While `instruction` is in flight the timing rule yields the effects of the
instructions completed before it. -/
theorem observed_during_in_flight (done : List Instruction) (instruction : Instruction)
    (rest : List Instruction) (c : Nat) (h1 : total_cost done + 1 ≤ c)
    (h2 : c ≤ total_cost done + Instruction.type_to_cycle_cost instruction.type) :
    observed_during (done ++ instruction :: rest) c = wrap32 (1 + (done.map effect).sum) := by
  unfold observed_during register_during
  rw [visible_effects_append c done _ 0 (by omega)]
  simp only [visible_effects, Nat.zero_add]
  rw [if_neg (by omega), visible_effects_zero c rest _ (by omega)]
  simp

/-- In the cycle after its last one the effect of `instruction` is visible. -/
theorem observed_during_completed (done : List Instruction) (instruction : Instruction)
    (rest : List Instruction) (c : Nat)
    (h : c = total_cost done + Instruction.type_to_cycle_cost instruction.type + 1) :
    observed_during (done ++ instruction :: rest) c =
      wrap32 (1 + ((done ++ [instruction]).map effect).sum) := by
  unfold observed_during register_during
  have e : done ++ instruction :: rest = (done ++ [instruction]) ++ rest := by simp
  have ht : total_cost (done ++ [instruction]) =
      total_cost done + Instruction.type_to_cycle_cost instruction.type := by
    rw [total_cost_append, total_cost_cons]; simp [total_cost]
  rw [e, visible_effects_append c (done ++ [instruction]) rest 0 (by omega)]
  rw [visible_effects_zero c rest _ (by omega)]
  simp

theorem parse_instructions_wellFormed (lines : List Line) :
    WellFormed (parse_instructions lines) := by
  intro instruction h
  simp only [parse_instructions, List.mem_map] at h
  obtain ⟨line, _, rfl⟩ := h
  cases line <;> simp [parse_line]

theorem execute_instruction_effect (cpu : CPU) (instruction : Instruction) (x : Int)
    (hwf : instruction.type = InstructionType.ADDX → instruction.maybe_argument ≠ none)
    (hreg : cpu.cpu_register = wrap32 x) :
    ∃ cpu1, cpu.execute_instruction instruction = some cpu1 ∧
      cpu1.cpu_register = wrap32 (x + effect instruction) := by
  unfold CPU.execute_instruction effect
  cases ht : instruction.type with
  | ADDX =>
      cases ha : instruction.maybe_argument with
      | none => exact absurd ha (hwf ht)
      | some v =>
          refine ⟨_, rfl, ?_⟩
          simp only [hreg, Option.getD_some]
          exact wrap32_wrap32_add x v
  | NOOP =>
      refine ⟨cpu, rfl, ?_⟩
      simp [hreg]

/-- Effect of the drawing and sampling part of an iteration on the recorded
trace and on the signal strength. -/
theorem draw_and_sample_trace (instructions : List Instruction) (s : State)
    (hc : 1 ≤ s.cycle)
    (hreg : s.cpu.cpu_register = observed_during instructions s.cycle)
    (hobs : s.observed = (List.range (s.cycle - 1)).map
      (fun k => observed_during instructions (k + 1)))
    (hcomb : s.combined_signal_strength =
      wrap32 (∑ k in Finset.range (s.cycle - 1), sample instructions (k + 1))) :
    (draw_and_sample s).observed = (List.range s.cycle).map
        (fun k => observed_during instructions (k + 1)) ∧
      (draw_and_sample s).combined_signal_strength =
        wrap32 (∑ k in Finset.range s.cycle, sample instructions (k + 1)) := by
  obtain ⟨n, hn⟩ : ∃ n, s.cycle = n + 1 := ⟨s.cycle - 1, by omega⟩
  rw [hn] at hobs hcomb hreg
  simp only [Nat.add_sub_cancel] at hobs hcomb
  simp only [draw_and_sample, hn, List.range_succ (n := n), List.map_append, List.map_cons,
    List.map_nil, Finset.sum_range_succ, hobs, hreg, hcomb, sample, true_and]
  split_ifs with h
  · exact wrap32_wrap32_add _ _
  · simp

/-- One iteration of the cycle loop while instructions remain: it does not fail,
and it either re-establishes the loop invariant or executes the last instruction. -/
theorem loop_step (past_end_cost : Nat) (instructions : List Instruction)
    (hwf : WellFormed instructions) (s : State) (hinv : LoopInvariant instructions s) :
    ∃ s1, complete_instruction past_end_cost s = some s1 ∧
      ((s.cycle < total_cost instructions + 1 ∧
          LoopInvariant instructions
            { draw_and_sample s1 with cycle := (draw_and_sample s1).cycle + 1 }) ∨
        (s.cycle = total_cost instructions + 1 ∧
          LoopDone past_end_cost instructions
            { draw_and_sample s1 with cycle := (draw_and_sample s1).cycle + 1 })) := by
  obtain ⟨done, ins, rest, hsplit, hcur, htarget, hlo, hhi, hreg, hobs, hcomb, hfetch⟩ := hinv
  have hcost := cost_pos ins.type
  have htotal : total_cost instructions =
      total_cost done + Instruction.type_to_cycle_cost ins.type + total_cost rest := by
    rw [hsplit, total_cost_append, total_cost_cons]; omega
  by_cases hc : s.cycle = s.target_cycle
  · obtain ⟨cpu1, hex, hreg1⟩ := execute_instruction_effect s.cpu ins _
      (hwf ins (by rw [hsplit]; simp)) hreg
    refine ⟨{ s with
        cpu := cpu1
        current_instruction := rest
        target_cycle := s.target_cycle + fetch_cost past_end_cost rest
        past_end_fetches := record_fetch s.cycle rest s.past_end_fetches }, ?_, ?_⟩
    · rw [complete_instruction, if_pos hc, hcur]
      simp only [hex]
    · have hobs1 : cpu1.cpu_register = observed_during instructions s.cycle := by
        rw [hreg1, hsplit, observed_during_completed done ins rest s.cycle (by omega)]
        simp [add_assoc]
      obtain ⟨t1, t2⟩ := draw_and_sample_trace instructions
        { s with
          cpu := cpu1
          current_instruction := rest
          target_cycle := s.target_cycle + fetch_cost past_end_cost rest
          past_end_fetches := record_fetch s.cycle rest s.past_end_fetches }
        (by simp only; omega) hobs1 hobs hcomb
      cases rest with
      | nil =>
          right
          rw [total_cost_nil] at htotal
          refine ⟨by omega, ?_, ?_, ?_, ?_, ?_, ?_, ?_⟩
          · rfl
          · simp only [draw_and_sample]; omega
          · simpa using t1
          · simpa using t2
          · simp only [draw_and_sample, fetch_cost]; omega
          · simp only [draw_and_sample, record_fetch, hfetch, List.nil_append,
              List.cons.injEq, and_true]
            omega
          · simp only [draw_and_sample]
            rw [hreg1, hsplit]
            simp [add_assoc]
      | cons nxt rest1 =>
          left
          have hn := cost_pos nxt.type
          rw [total_cost_cons] at htotal
          refine ⟨by omega, done ++ [ins], nxt, rest1, by rw [hsplit]; simp, rfl, ?_, ?_, ?_,
            ?_, ?_, ?_, by simp only [draw_and_sample, record_fetch, hfetch]⟩
          · simp only [draw_and_sample, fetch_cost, total_cost_append, total_cost_cons,
              total_cost_nil]
            omega
          · simp only [draw_and_sample, total_cost_append, total_cost_cons, total_cost_nil]
            omega
          · simp only [draw_and_sample, fetch_cost]
            omega
          · simp only [draw_and_sample]
            rw [hreg1]
            simp [add_assoc]
          · simpa using t1
          · simpa using t2
  · refine ⟨s, by rw [complete_instruction, if_neg hc], ?_⟩
    left
    have hobs1 : s.cpu.cpu_register = observed_during instructions s.cycle := by
      rw [hreg, hsplit, observed_during_in_flight done ins rest s.cycle hlo (by omega)]
    obtain ⟨t1, t2⟩ := draw_and_sample_trace instructions s (by omega) hobs1 hobs hcomb
    refine ⟨by omega, done, ins, rest, hsplit, hcur, htarget, ?_, ?_, hreg, ?_, ?_, hfetch⟩
    · simp only [draw_and_sample]; omega
    · simp only [draw_and_sample]; omega
    · simpa using t1
    · simpa using t2

theorem last_cycle_of_interest : cycles_of_interest.getLastD 0 = 220 := by decide

/-- From any state satisfying the loop invariant the loop reaches, without
failing, the state that follows the execution of the last instruction. -/
theorem run_to_done (past_end_cost : Nat) (instructions : List Instruction)
    (hwf : WellFormed instructions) :
    ∀ (n : Nat) (s : State) (fuel : Nat), LoopInvariant instructions s →
      total_cost instructions + 1 - s.cycle = n → n + 1 ≤ fuel →
      ∃ s_end, LoopDone past_end_cost instructions s_end ∧
        run_loop past_end_cost fuel s = run_loop past_end_cost (fuel - (n + 1)) s_end := by
  intro n
  induction n with
  | zero =>
      intro s fuel hinv hn hfuel
      obtain ⟨f, rfl⟩ : ∃ f, fuel = f + 1 := ⟨fuel - 1, by omega⟩
      obtain ⟨s1, h1, h2⟩ := loop_step past_end_cost instructions hwf s hinv
      obtain ⟨done, ins, rest, hsplit, hcur, htarget, hlo, hhi, -⟩ := hinv
      have hcond : s.cycle ≤ cycles_of_interest.getLastD 0 ∨ s.current_instruction ≠ [] :=
        Or.inr (by rw [hcur]; simp)
      rcases h2 with ⟨hlt, h2⟩ | ⟨_, h2⟩
      · obtain ⟨d2, i2, r2, hs2, -, ht2, -, hh2, -⟩ := h2
        have : total_cost instructions =
            total_cost d2 + Instruction.type_to_cycle_cost i2.type + total_cost r2 := by
          rw [hs2, total_cost_append, total_cost_cons]; omega
        simp only [draw_and_sample] at hh2 ht2
        omega
      · refine ⟨_, h2, ?_⟩
        rw [run_loop, if_pos hcond, h1]
        simp
  | succ n ih =>
      intro s fuel hinv hn hfuel
      obtain ⟨f, rfl⟩ : ∃ f, fuel = f + 1 := ⟨fuel - 1, by omega⟩
      obtain ⟨s1, h1, h2⟩ := loop_step past_end_cost instructions hwf s hinv
      obtain ⟨done, ins, rest, hsplit, hcur, htarget, hlo, hhi, -⟩ := hinv
      have hcond : s.cycle ≤ cycles_of_interest.getLastD 0 ∨ s.current_instruction ≠ [] :=
        Or.inr (by rw [hcur]; simp)
      rcases h2 with ⟨hlt, h2⟩ | ⟨heq, _⟩
      · have hcyc : (draw_and_sample s1).cycle = s.cycle := by
          unfold complete_instruction at h1
          split_ifs at h1 with hc
          · rw [hcur] at h1
            simp only at h1
            split at h1
            · exact absurd h1 (by simp)
            · simp only [Option.some.injEq] at h1
              rw [← h1]; rfl
          · simp only [Option.some.injEq] at h1
            rw [← h1]; rfl
        obtain ⟨s_end, he1, he2⟩ := ih
          { draw_and_sample s1 with cycle := (draw_and_sample s1).cycle + 1 } f h2
          (by simp only [hcyc]; omega) (by omega)
        refine ⟨s_end, he1, ?_⟩
        rw [run_loop, if_pos hcond, h1]
        simp only
        rw [he2]
        congr 1
        omega
      · omega

theorem initial_state_invariant (a : Instruction) (l : List Instruction) :
    LoopInvariant (a :: l) (initial_state a l) := by
  refine ⟨[], a, l, rfl, rfl, ?_, ?_, ?_, ?_, ?_, ?_, rfl⟩
  · simp only [initial_state, total_cost_nil]; omega
  · simp [initial_state, total_cost_nil]
  · simp only [initial_state]; omega
  · simp only [initial_state, CPU.init, List.map_nil, List.sum_nil]; decide
  · simp [initial_state]
  · simp only [initial_state, Nat.sub_self, Finset.range_zero, Finset.sum_empty]; decide

/-- For a non-empty well-formed stream `main` runs through the execution of the
last instruction and continues with 220 iterations of fuel from there. -/
theorem main_reaches_done (past_end_cost : Nat) (lines : List Line) (hne : lines ≠ []) :
    ∃ s_end, LoopDone past_end_cost (parse_instructions lines) s_end ∧
      main past_end_cost lines = run_loop past_end_cost 220 s_end := by
  cases hl : parse_instructions lines with
  | nil =>
      simp only [parse_instructions, List.map_eq_nil_iff] at hl
      exact absurd hl hne
  | cons a l =>
      have hwf := parse_instructions_wellFormed lines
      rw [hl] at hwf
      obtain ⟨s_end, h1, h2⟩ := run_to_done past_end_cost (a :: l) hwf
        (total_cost (a :: l) + 1 - 1) (initial_state a l)
        (total_cost (a :: l) + 221) (initial_state_invariant a l)
        (by simp [initial_state]) (by omega)
      refine ⟨s_end, h1, ?_⟩
      have hm : main past_end_cost lines =
          run_loop past_end_cost (total_cost (a :: l) + 221) (initial_state a l) := by
        simp only [main, hl]
      rw [hm, h2]
      congr 1
      have := total_cost_pos a l
      omega

theorem complete_instruction_frame (past_end_cost : Nat) (s s1 : State)
    (h : complete_instruction past_end_cost s = some s1) :
    s1.observed = s.observed ∧ s1.cycle = s.cycle := by
  unfold complete_instruction at h
  split_ifs at h with hc
  · split at h
    · exact absurd h (by simp)
    · split at h
      · exact absurd h (by simp)
      · simp only [Option.some.injEq] at h
        rw [← h]; exact ⟨rfl, rfl⟩
  · simp only [Option.some.injEq] at h
    rw [← h]; exact ⟨rfl, rfl⟩

/-- The loop only appends to the recorded trace. -/
theorem run_loop_observed_prefix (past_end_cost : Nat) :
    ∀ (fuel : Nat) (s : State),
      ∃ t, (run_loop past_end_cost fuel s).state.observed = s.observed ++ t := by
  intro fuel
  induction fuel with
  | zero => intro s; exact ⟨[], by simp [run_loop]⟩
  | succ f ih =>
      intro s
      rw [run_loop]
      split_ifs with hc
      · cases h1 : complete_instruction past_end_cost s with
        | none => exact ⟨[], by simp⟩
        | some s1 =>
            simp only
            obtain ⟨t, ht⟩ := ih
              { draw_and_sample s1 with cycle := (draw_and_sample s1).cycle + 1 }
            obtain ⟨e1, _⟩ := complete_instruction_frame past_end_cost s s1 h1
            refine ⟨s1.cpu.cpu_register :: t, ?_⟩
            rw [ht]
            simp [draw_and_sample, e1]
      · exact ⟨[], by simp⟩

/-- Every cycle up to the one after the last instruction is observed by `main`, and
the value observed is the one given by the timing rule in `int` arithmetic. -/
theorem main_observed (past_end_cost : Nat) (lines : List Line) (hne : lines ≠ [])
    (c : Nat) (h1 : 1 ≤ c) (h2 : c ≤ total_cost (parse_instructions lines) + 1) :
    (main past_end_cost lines).state.observed[c - 1]? =
      some (observed_during (parse_instructions lines) c) := by
  obtain ⟨s_end, ⟨_, hcyc, hobs, _⟩, hmain⟩ := main_reaches_done past_end_cost lines hne
  obtain ⟨t, ht⟩ := run_loop_observed_prefix past_end_cost 220 s_end
  rw [hmain, ht, hobs, hcyc]
  rw [List.getElem?_append_left (by simp; omega)]
  rw [List.getElem?_map, List.getElem?_range (by omega)]
  simp only [Option.map_some', Option.some.injEq]
  congr 1
  omega

theorem sample_sum (instructions : List Instruction) (n : Nat) (hn : 220 ≤ n) :
    ∑ k in Finset.range n, sample instructions (k + 1) =
      20 * observed_during instructions 20 + 60 * observed_during instructions 60 +
        100 * observed_during instructions 100 + 140 * observed_during instructions 140 +
        180 * observed_during instructions 180 + 220 * observed_during instructions 220 := by
  have hcoi : cycles_of_interest = [20, 60, 100, 140, 180, 220] := by decide
  have hs : ∀ k, sample instructions (k + 1) =
      if k ∈ ({19, 59, 99, 139, 179, 219} : Finset Nat) then
        ((k + 1 : Nat) : Int) * observed_during instructions (k + 1) else 0 := by
    intro k
    unfold sample
    rw [hcoi]
    simp
  simp only [hs]
  rw [Finset.sum_ite_mem, Finset.inter_eq_right.mpr]
  · simp
    ring
  · intro k hk
    simp only [Finset.mem_insert, Finset.mem_singleton] at hk
    rw [Finset.mem_range]
    omega

/-- With a stream of total cost at least 219 the loop ends, without failing,
right after the iteration that executed the last instruction. -/
theorem main_finished (past_end_cost : Nat) (lines : List Line)
    (h : 219 ≤ total_cost (parse_instructions lines)) :
    ∃ s_end, LoopDone past_end_cost (parse_instructions lines) s_end ∧
      main past_end_cost lines = { status := Status.finished, state := s_end } := by
  have hne : lines ≠ [] := by
    intro e
    rw [e] at h
    simp [parse_instructions, total_cost] at h
  obtain ⟨s_end, hd, hmain⟩ := main_reaches_done past_end_cost lines hne
  refine ⟨s_end, hd, ?_⟩
  obtain ⟨hcur, hcyc, -⟩ := hd
  rw [hmain, run_loop, if_neg]
  rw [last_cycle_of_interest, hcur]
  simp only [ne_eq, not_true_eq_false, or_false, not_le]
  omega

/-- C3, amended (register timing): for every non-empty instruction stream and
every cycle `c` from 1 to 1 plus the total cost, the register value read by the
drawing and sampling code in cycle `c` is 1 plus the arguments of exactly those
`addx` instructions whose cumulative cost is below `c`, reduced to two's-complement
`int` arithmetic; it is the exact sum whenever that sum lies in the `int` range. -/
theorem register_timing (past_end_cost : Nat) (lines : List Line) (hne : lines ≠ [])
    (c : Nat) (h1 : 1 ≤ c) (h2 : c ≤ total_cost (parse_instructions lines) + 1) :
    (main past_end_cost lines).state.observed[c - 1]? =
        some (wrap32 (register_during (parse_instructions lines) c)) ∧
      (-2147483648 ≤ register_during (parse_instructions lines) c ∧
          register_during (parse_instructions lines) c < 2147483648 →
        (main past_end_cost lines).state.observed[c - 1]? =
          some (register_during (parse_instructions lines) c)) := by
  have h := main_observed past_end_cost lines hne c h1 h2
  refine ⟨h, fun hr => ?_⟩
  rw [h, observed_during]
  congr 1
  unfold wrap32
  omega

/-- C3 on the worked example `noop, addx 3, addx -5`: the register values read in
cycles 1 to 5 are 1, 1, 1, 4, 4. -/
theorem register_timing_witness :
    (main 2 [Line.noop, Line.addx 3, Line.addx (-5)]).state.observed[1 - 1]? = some 1 ∧
    (main 2 [Line.noop, Line.addx 3, Line.addx (-5)]).state.observed[2 - 1]? = some 1 ∧
    (main 2 [Line.noop, Line.addx 3, Line.addx (-5)]).state.observed[3 - 1]? = some 1 ∧
    (main 2 [Line.noop, Line.addx 3, Line.addx (-5)]).state.observed[4 - 1]? = some 4 ∧
    (main 2 [Line.noop, Line.addx 3, Line.addx (-5)]).state.observed[5 - 1]? = some 4 :=
  ⟨(register_timing 2 [Line.noop, Line.addx 3, Line.addx (-5)] (by decide) 1 (by decide)
      (by decide)).1.trans (by decide),
    (register_timing 2 [Line.noop, Line.addx 3, Line.addx (-5)] (by decide) 2 (by decide)
      (by decide)).1.trans (by decide),
    (register_timing 2 [Line.noop, Line.addx 3, Line.addx (-5)] (by decide) 3 (by decide)
      (by decide)).1.trans (by decide),
    (register_timing 2 [Line.noop, Line.addx 3, Line.addx (-5)] (by decide) 4 (by decide)
      (by decide)).1.trans (by decide),
    (register_timing 2 [Line.noop, Line.addx 3, Line.addx (-5)] (by decide) 5 (by decide)
      (by decide)).1.trans (by decide)⟩

/-- C3 as stated fails for the stream `addx 2147483647`: in cycle 3 the `int`
register holds `-2 ^ 31`, not the exact sum `1 + 2147483647`. -/
theorem register_timing_overflow :
    (main 0 [Line.addx 2147483647]).state.observed[3 - 1]? ≠
      some (register_during (parse_instructions [Line.addx 2147483647]) 3) := by
  rw [main_observed 0 [Line.addx 2147483647] (by decide) 3 (by decide) (by decide)]
  decide

/-- C4 (signal strength): for every stream of total cost at least 219 the loop
ends normally after `total cost + 1` cycles and `combined_signal_strength` is the
sum over the cycles 20, 60, 100, 140, 180, 220 of the cycle number times the
register value read in that cycle, accumulated in 32-bit `int` arithmetic; no other
cycle contributes. -/
theorem signal_strength (past_end_cost : Nat) (lines : List Line)
    (h : 219 ≤ total_cost (parse_instructions lines)) :
    (main past_end_cost lines).status = Status.finished ∧
      (main past_end_cost lines).state.observed.length =
        total_cost (parse_instructions lines) + 1 ∧
      (main past_end_cost lines).state.combined_signal_strength =
        ([20, 60, 100, 140, 180, 220] : List Nat).foldl
          (fun (acc : Int) (c : Nat) => wrap32 (acc +
            (c : Int) * (main past_end_cost lines).state.observed.getD (c - 1) 0)) 0 ∧
      (main past_end_cost lines).state.combined_signal_strength =
        wrap32 ((([20, 60, 100, 140, 180, 220] : List Nat).map
          (fun (c : Nat) => (c : Int) *
            (main past_end_cost lines).state.observed.getD (c - 1) 0)).sum) := by
  obtain ⟨s_end, ⟨_, hcyc, hobs, hcomb, -⟩, hmain⟩ := main_finished past_end_cost lines h
  rw [hmain]
  simp only
  rw [hcyc] at hobs hcomb
  simp only [Nat.add_succ_sub_one] at hobs hcomb
  have hget : ∀ c, 1 ≤ c → c ≤ 220 →
      s_end.observed.getD (c - 1) 0 = observed_during (parse_instructions lines) c := by
    intro c hc1 hc2
    rw [hobs, List.getD_eq_getElem?_getD, List.getElem?_map, List.getElem?_range (by omega)]
    simp only [Option.map_some', Option.getD_some]
    congr 1
    omega
  rw [hcomb, sample_sum _ _ (by omega)]
  refine ⟨trivial, by rw [hobs]; simp, ?_, ?_⟩
  · simp only [List.foldl_cons, List.foldl_nil, wrap32_wrap32_add, zero_add]
    rw [hget 20 (by omega) (by omega), hget 60 (by omega) (by omega),
      hget 100 (by omega) (by omega), hget 140 (by omega) (by omega),
      hget 180 (by omega) (by omega), hget 220 (by omega) (by omega)]
    simp
  · simp only [List.map_cons, List.map_nil, List.sum_cons, List.sum_nil]
    rw [hget 20 (by omega) (by omega), hget 60 (by omega) (by omega),
      hget 100 (by omega) (by omega), hget 140 (by omega) (by omega),
      hget 180 (by omega) (by omega), hget 220 (by omega) (by omega)]
    congr 1
    push_cast
    ring

set_option maxRecDepth 1000000 in
/-- C4 on a concrete stream, 110 times `addx 1` (total cost 220): the loop ends
normally and the signal strength is
`20 * 10 + 60 * 30 + 100 * 50 + 140 * 70 + 180 * 90 + 220 * 110 = 57200`. -/
theorem signal_strength_witness :
    219 ≤ total_cost (parse_instructions (List.replicate 110 (Line.addx 1))) ∧
      (main 0 (List.replicate 110 (Line.addx 1))).status = Status.finished ∧
      (main 0 (List.replicate 110 (Line.addx 1))).state.combined_signal_strength = 57200 :=
  ⟨by decide, (signal_strength 0 (List.replicate 110 (Line.addx 1)) (by decide)).1,
    (signal_strength 0 (List.replicate 110 (Line.addx 1)) (by decide)).2.2.2.trans (by decide)⟩

end Day10

namespace Day10

/-- C27 (sample points): the `std::generate` calls, which start from the `uint32_t`
value of `-1` (that is `2 ^ 32 - 1`) and from 0 and compute `20 * (start += 2)`,
produce `cycles_of_interest = [20, 60, 100, 140, 180, 220]` and
`crt_row_cycles = [40, 80, 120, 160, 200, 240]`. -/
theorem sample_points :
    to_uint32 (-1) = 4294967295 ∧
      cycles_of_interest = [20, 60, 100, 140, 180, 220] ∧
      crt_row_cycles = [40, 80, 120, 160, 200, 240] := by
  decide

set_option maxRecDepth 1000000 in
/-- C25 at the failing input: for the stream of 218 `noop` lines (total cost 218)
the cost fetch after the last instruction, in cycle 219, goes through `cend()`. When
it yields the cost 2 (the cost of `ADDX`, the enumerator 0) the pending target
cycle is 221, the loop ends normally after cycle 220 and the combined signal
strength 720 is printed, where the driver should fail. -/
theorem exhausted_stream_produces_result :
    total_cost (parse_instructions (List.replicate 218 Line.noop)) = 218 ∧
      (main 2 (List.replicate 218 Line.noop)).status = Status.finished ∧
      (main 2 (List.replicate 218 Line.noop)).state.past_end_fetches = [219] ∧
      (main 2 (List.replicate 218 Line.noop)).state.combined_signal_strength = 720 := by
  decide

/-- C29 (past-the-end fetch): for every instruction stream of total cost
`T ≥ 219` the main loop ends normally after exactly `T + 1` cycles, the only read of
an instruction beyond the last element of the stream is the cycle-cost fetch made
in cycle `T + 1`, right after the last instruction has been executed, and the
combined signal strength is the same whatever cost that fetch yields. -/
theorem past_end_fetch_harmless (past_end_cost : Nat) (lines : List Line)
    (h : 219 ≤ total_cost (parse_instructions lines)) :
    (main past_end_cost lines).status = Status.finished ∧
      (main past_end_cost lines).state.cycle = total_cost (parse_instructions lines) + 2 ∧
      (main past_end_cost lines).state.observed.length =
        total_cost (parse_instructions lines) + 1 ∧
      (main past_end_cost lines).state.past_end_fetches =
        [total_cost (parse_instructions lines) + 1] ∧
      (main past_end_cost lines).state.current_instruction = [] ∧
      ∀ other_cost : Nat,
        (main other_cost lines).state.combined_signal_strength =
            (main past_end_cost lines).state.combined_signal_strength ∧
          (main other_cost lines).state.observed =
            (main past_end_cost lines).state.observed := by
  obtain ⟨s_end, ⟨hcur, hcyc, hobs, hcomb, -, hfetch, -⟩, hmain⟩ :=
    main_finished past_end_cost lines h
  rw [hmain]
  refine ⟨rfl, hcyc, ?_, hfetch, hcur, ?_⟩
  · simp only [hobs, hcyc, List.length_map, List.length_range, Nat.add_succ_sub_one]
  · intro other_cost
    obtain ⟨s2, ⟨-, hcyc2, hobs2, hcomb2, -⟩, hmain2⟩ := main_finished other_cost lines h
    rw [hmain2]
    simp only
    rw [hcomb, hcomb2, hobs, hobs2, hcyc, hcyc2]
    exact ⟨rfl, rfl⟩

set_option maxRecDepth 1000000 in
/-- C29 on the stream of 110 lines `addx 2` (total cost 220): the loop ends after
221 cycles, the one past-the-end fetch is made in cycle 221, and the past-the-end
costs 1 and 2 give the same signal strength. -/
theorem past_end_fetch_harmless_witness :
    219 ≤ total_cost (parse_instructions (List.replicate 110 (Line.addx 2))) ∧
      (main 1 (List.replicate 110 (Line.addx 2))).status = Status.finished ∧
      (main 1 (List.replicate 110 (Line.addx 2))).state.cycle = 222 ∧
      (main 1 (List.replicate 110 (Line.addx 2))).state.past_end_fetches = [221] ∧
      (main 2 (List.replicate 110 (Line.addx 2))).state.combined_signal_strength =
        (main 1 (List.replicate 110 (Line.addx 2))).state.combined_signal_strength :=
  ⟨by decide,
    (past_end_fetch_harmless 1 (List.replicate 110 (Line.addx 2)) (by decide)).1,
    (past_end_fetch_harmless 1 (List.replicate 110 (Line.addx 2)) (by decide)).2.1.trans
      (by decide),
    (past_end_fetch_harmless 1 (List.replicate 110 (Line.addx 2))
      (by decide)).2.2.2.1.trans (by decide),
    ((past_end_fetch_harmless 1 (List.replicate 110 (Line.addx 2))
      (by decide)).2.2.2.2.2 2).1⟩

end Day10

namespace Day10

theorem is_drawable_iff (sprite_position : Int) (pixel : Nat)
    (h1 : -2147483648 ≤ sprite_position) (h2 : sprite_position < 2147483648)
    (hp : pixel < 40) :
    is_drawable sprite_position pixel = true ↔ |(pixel : Int) - sprite_position| ≤ 1 := by
  simp only [is_drawable, Bool.and_eq_true, decide_eq_true_eq, abs_le, wrap32]
  omega

theorem crt_row_width : crt_row_cycles.getD 0 0 = 40 := by decide

/-- The pixel drawn by one iteration is the one the pixel rule gives for the
register value of that iteration. -/
theorem draw_and_sample_pixel (s : State)
    (h1 : -2147483648 ≤ s.cpu.cpu_register) (h2 : s.cpu.cpu_register < 2147483648) :
    (draw_and_sample s).crt =
      s.crt ++ [expected_pixel s.cycle s.cpu.cpu_register] ++
        (if s.cycle ∈ crt_row_cycles then ['\n'] else []) := by
  have hd := is_drawable_iff s.cpu.cpu_register ((s.cycle - 1) % 40) h1 h2
    (Nat.mod_lt _ (by decide))
  simp only [draw_and_sample, crt_row_width, expected_pixel]
  congr 2
  by_cases h : is_drawable s.cpu.cpu_register ((s.cycle - 1) % 40) = true
  · rw [if_pos h, if_pos (by rw [abs_sub_comm]; exact hd.1 h)]
  · rw [if_neg h, if_neg (by rw [abs_sub_comm]; exact fun h3 => h (hd.2 h3))]

theorem complete_instruction_pixels (past_end_cost : Nat) (s s1 : State)
    (h : complete_instruction past_end_cost s = some s1)
    (hr : -2147483648 ≤ s.cpu.cpu_register ∧ s.cpu.cpu_register < 2147483648) :
    s1.crt = s.crt ∧
      (-2147483648 ≤ s1.cpu.cpu_register ∧ s1.cpu.cpu_register < 2147483648) := by
  unfold complete_instruction at h
  split_ifs at h with hc
  · split at h
    · exact absurd h (by simp)
    · rename_i instruction next _
      cases he : s.cpu.execute_instruction instruction with
      | none => rw [he] at h; exact absurd h (by simp)
      | some cpu =>
          rw [he] at h
          simp only [Option.some.injEq] at h
          rw [← h]
          refine ⟨rfl, ?_⟩
          simp only
          unfold CPU.execute_instruction at he
          split at he
          · split at he
            · simp only [Option.some.injEq] at he
              rw [← he]
              simp only [wrap32]
              omega
            · exact absurd he (by simp)
          · simp only [Option.some.injEq] at he
            rw [← he]
            exact hr
  · simp only [Option.some.injEq] at h
    rw [← h]
    exact ⟨rfl, hr⟩

/-- One iteration of the loop keeps the pixel invariant. -/
theorem iteration_pixels (past_end_cost : Nat) (s s1 : State)
    (h : complete_instruction past_end_cost s = some s1) (hinv : PixelInvariant s) :
    PixelInvariant { draw_and_sample s1 with cycle := (draw_and_sample s1).cycle + 1 } := by
  obtain ⟨hcyc, hcrt, hreg⟩ := hinv
  obtain ⟨e1, e2⟩ := complete_instruction_frame past_end_cost s s1 h
  obtain ⟨e3, hreg1⟩ := complete_instruction_pixels past_end_cost s s1 h hreg
  have hpix := draw_and_sample_pixel s1 hreg1.1 hreg1.2
  have hobs : (draw_and_sample s1).observed = s.observed ++ [s1.cpu.cpu_register] := by
    simp only [draw_and_sample, e1]
  have hcpu : (draw_and_sample s1).cpu = s1.cpu := rfl
  have hcy : (draw_and_sample s1).cycle = s.cycle := by
    simp only [draw_and_sample, e2]
  refine ⟨?_, ?_, ?_⟩
  · simp only [hobs, hcy, List.length_append, List.length_singleton]
    omega
  · simp only [hobs, hpix, e3, List.length_append, List.length_singleton]
    rw [List.range_succ, List.zipWith_append _ _ _ _ _ (by simp), ← hcrt,
      List.filter_append, List.filter_append]
    have hx : expected_pixel s1.cycle s1.cpu.cpu_register ≠ '\n' := by
      unfold expected_pixel
      split_ifs <;> decide
    have hrow : (if s1.cycle ∈ crt_row_cycles then ['\n'] else []).filter
        (fun ch => decide (ch ≠ '\n')) = [] := by
      split_ifs <;> simp
    rw [hrow, List.append_nil]
    congr 1
    simp only [List.zipWith_cons_cons, List.zipWith_nil_right, List.filter_cons, hx, ne_eq,
      not_false_eq_true, decide_True, if_true, List.filter_nil, List.cons.injEq, and_true]
    rw [e2, hcyc]
  · rw [hcpu]
    exact hreg1

/-- The loop keeps the pixel invariant. -/
theorem run_loop_pixels (past_end_cost : Nat) :
    ∀ (fuel : Nat) (s : State), PixelInvariant s →
      PixelInvariant (run_loop past_end_cost fuel s).state := by
  intro fuel
  induction fuel with
  | zero => intro s h; exact h
  | succ f ih =>
      intro s hinv
      rw [run_loop]
      split_ifs with hc
      · cases h1 : complete_instruction past_end_cost s with
        | none => exact hinv
        | some s1 => exact ih _ (iteration_pixels past_end_cost s s1 h1 hinv)
      · exact hinv

theorem initial_state_pixels (instruction : Instruction) (rest : List Instruction) :
    PixelInvariant (initial_state instruction rest) := by
  refine ⟨rfl, rfl, ?_⟩
  simp only [initial_state, CPU.init]
  omega

/-- The state that `main` ends in satisfies the pixel invariant. -/
theorem main_pixels (past_end_cost : Nat) (lines : List Line) :
    PixelInvariant (main past_end_cost lines).state := by
  cases hl : parse_instructions lines with
  | nil =>
      have hm : main past_end_cost lines =
          { status := Status.fault, state := empty_stream_state } := by
        simp only [main, hl]
      rw [hm]
      refine ⟨rfl, rfl, ?_⟩
      simp only [empty_stream_state, CPU.init]
      omega
  | cons a l =>
      have hm : main past_end_cost lines =
          run_loop past_end_cost (total_cost (a :: l) + 221) (initial_state a l) := by
        simp only [main, hl]
      rw [hm]
      exact run_loop_pixels past_end_cost _ _ (initial_state_pixels a l)

/-- C31 (CRT pixel rule): `is_drawable(s, p)` holds exactly when `|p - s| ≤ 1`, for
every register value `s` and pixel column `p` in `0..39`; in cycle `c` the column
tested is `(c - 1) mod 40`; and in every cycle `c` of a run of `main` the pixel
printed is lit exactly when the register value read in that cycle is within 1 of
`(c - 1) mod 40`. -/
theorem crt_pixel_rule (past_end_cost : Nat) (lines : List Line) :
    (∀ (s : Int) (p : Nat), -2147483648 ≤ s → s < 2147483648 → p < 40 →
      (is_drawable s p = true ↔ |(p : Int) - s| ≤ 1)) ∧
    (∀ st : State,
      (draw_and_sample st).crt =
        st.crt ++ [if is_drawable st.cpu.cpu_register ((st.cycle - 1) % 40) then '#' else '.']
          ++ (if st.cycle ∈ crt_row_cycles then ['\n'] else [])) ∧
    (∀ (c : Nat) (v : Int), 1 ≤ c →
      (main past_end_cost lines).state.observed[c - 1]? = some v →
      ((main past_end_cost lines).state.crt.filter (fun ch => decide (ch ≠ '\n')))[c - 1]? =
        some (if |v - (((c - 1) % 40 : Nat) : Int)| ≤ 1 then '#' else '.')) := by
  refine ⟨is_drawable_iff, ?_, ?_⟩
  · intro st
    simp only [draw_and_sample, crt_row_width]
  · intro c v hc hv
    obtain ⟨-, hcrt, -⟩ := main_pixels past_end_cost lines
    have hlt : c - 1 < (main past_end_cost lines).state.observed.length :=
      (List.getElem?_eq_some_iff.1 hv).1
    rw [hcrt, List.getElem?_zipWith, hv, List.getElem?_range hlt]
    simp only [expected_pixel, Nat.add_sub_cancel]

set_option maxRecDepth 1000000 in
/-- C31 on the stream `addx 15, addx -11, addx 6, addx -3, addx 5`: in cycle 3
the register holds 16 and the pixel of column 2 is dark, in cycle 5 the register
holds 5 and the pixel of column 4 is lit. -/
theorem crt_pixel_rule_witness :
    ((main 1 [Line.addx 15, Line.addx (-11), Line.addx 6, Line.addx (-3),
        Line.addx 5]).state.crt.filter (fun ch => decide (ch ≠ '\n')))[3 - 1]? = some '.' ∧
      ((main 1 [Line.addx 15, Line.addx (-11), Line.addx 6, Line.addx (-3),
        Line.addx 5]).state.crt.filter (fun ch => decide (ch ≠ '\n')))[5 - 1]? = some '#' :=
  ⟨((crt_pixel_rule 1 [Line.addx 15, Line.addx (-11), Line.addx 6, Line.addx (-3),
      Line.addx 5]).2.2 3 16 (by decide) (by decide)).trans (by decide),
    ((crt_pixel_rule 1 [Line.addx 15, Line.addx (-11), Line.addx 6, Line.addx (-3),
      Line.addx 5]).2.2 5 5 (by decide) (by decide)).trans (by decide)⟩

end Day10

namespace Day11

theorem inspect_fold (m : Monkey) (items : List Int) :
    ∀ acc : List Int × List Int × List Int,
      items.foldl m.inspect_item acc =
        (acc.1 ++ items.map (fun v => m.cooldown_ (m.operation_ v)),
          acc.2.1 ++ (items.map (fun v => m.cooldown_ (m.operation_ v))).filter m.test_,
          acc.2.2 ++ (items.map (fun v => m.cooldown_ (m.operation_ v))).filter
            (fun w => !m.test_ w)) := by
  induction items with
  | nil => intro acc; simp
  | cons v vs ih =>
      intro acc
      rw [List.foldl_cons, ih]
      unfold Monkey.inspect_item
      by_cases h : m.test_ (m.cooldown_ (m.operation_ v)) = true
      · simp [h]
      · simp [h]

/-- The result of `inspect` in closed form. -/
theorem inspect_eq (m : Monkey) :
    m.inspect =
      ({ m with
          items_ := m.items_.map (fun v => m.cooldown_ (m.operation_ v))
          items_inspected_ := m.items_inspected_ + m.items_.length },
        ((m.items_.map (fun v => m.cooldown_ (m.operation_ v))).filter m.test_,
          (m.items_.map (fun v => m.cooldown_ (m.operation_ v))).filter
            (fun w => !m.test_ w))) := by
  unfold Monkey.inspect
  rw [inspect_fold]
  simp

theorem filter_length_add (p : Int → Bool) (l : List Int) :
    (l.filter p).length + (l.filter (fun w => !p w)).length = l.length := by
  induction l with
  | nil => rfl
  | cons a l ih =>
      by_cases h : p a = true
      · simp [List.filter_cons, h]; omega
      · simp [List.filter_cons, h]; omega

/-- C11, amended (inspection result): for every monkey whose test factor is a
positive value of `int64_t` (`0 < test_factor < 2 ^ 63`), with the test installed by
the constructor, `inspect` returns the lists of the values
`w = cooldown(operation(v))`, in queue order, with `w % test_factor == 0` and with
`w % test_factor != 0`. -/
theorem inspection_result (m : Monkey) (h : m.test_ = Monkey.default_test m.test_factor_)
    (h1 : 0 < m.test_factor_) (h2 : m.test_factor_ < 9223372036854775808) :
    m.inspect.2.1 =
        (m.items_.map (fun v => m.cooldown_ (m.operation_ v))).filter
          (fun w => decide (Int.tmod w (m.test_factor_ : Int) = 0)) ∧
      m.inspect.2.2 =
        (m.items_.map (fun v => m.cooldown_ (m.operation_ v))).filter
          (fun w => decide (Int.tmod w (m.test_factor_ : Int) ≠ 0)) := by
  have hw : wrap64 (m.test_factor_ : Int) = m.test_factor_ := by
    unfold wrap64
    omega
  have e1 : Monkey.default_test m.test_factor_ =
      fun w => decide (Int.tmod w (m.test_factor_ : Int) = 0) := by
    funext w
    simp only [Monkey.default_test, hw]
  have e2 : (fun w => !decide (Int.tmod w (m.test_factor_ : Int) = 0)) =
      fun w => decide (Int.tmod w (m.test_factor_ : Int) ≠ 0) := by
    funext w
    simp
  rw [inspect_eq, h, e1, e2]
  exact ⟨rfl, rfl⟩

/-- C11 on the worked example: item 79, operation "multiply by 19", default
relief, test factor 23 give `pass_items = []` and `fail_items = [500]`. -/
theorem inspection_result_witness :
    (Monkey.create_from_description
        { id := 0, items := [79], op_token := OpToken.times, argument := some 19,
          test_factor := 23, true_test_effect := 1, false_test_effect := 1 }).inspect.2.1
        = [] ∧
      (Monkey.create_from_description
        { id := 0, items := [79], op_token := OpToken.times, argument := some 19,
          test_factor := 23, true_test_effect := 1, false_test_effect := 1 }).inspect.2.2
        = [500] :=
  ⟨(inspection_result _ rfl (by decide) (by decide)).1.trans (by decide),
    (inspection_result _ rfl (by decide) (by decide)).2.trans (by decide)⟩

/-- C11 as stated fails for a test factor that is not a positive `int64_t` value.
The factor `2 ^ 64 - 3`, which `std::stoul` accepts, is converted to the `int64_t`
value `-3` in the test: the item 18 becomes `(18 + 0) / 3 = 6`, and 6 is put on the
pass list although `6 % (2 ^ 64 - 3)` is 6, not 0. -/
theorem inspection_result_wrapped_factor :
    (Monkey.create_from_description
        { id := 0, items := [18], op_token := OpToken.plus, argument := some 0,
          test_factor := 18446744073709551613, true_test_effect := 1,
          false_test_effect := 1 }).inspect.2 = ([6], []) ∧
      Int.tmod 6 18446744073709551613 = 6 := by
  decide

theorem inspect_lengths (m : Monkey) :
    m.inspect.1.items_inspected_ = m.items_inspected_ + m.items_.length ∧
      m.items_.length = m.inspect.2.1.length + m.inspect.2.2.length := by
  rw [inspect_eq]
  refine ⟨rfl, ?_⟩
  simp only
  rw [filter_length_add, List.length_map]

/-- C13 (inspection counter): `inspect` increases `items_inspected` by exactly the
number of items in the queue at the call, which is the combined length of the
returned pass and fail lists; the counter does not decrease. -/
theorem inspection_counter (m : Monkey) :
    m.inspect.1.items_inspected = m.items_inspected + m.items.length ∧
      m.items.length = m.inspect.2.1.length + m.inspect.2.2.length ∧
      m.items_inspected ≤ m.inspect.1.items_inspected := by
  obtain ⟨h1, h2⟩ := inspect_lengths m
  simp only [Monkey.items_inspected, Monkey.items]
  exact ⟨h1, h2, by omega⟩

/-- The effect of `turn` when both destinations are in range. -/
theorem turn_eq (ms : List Monkey) (i : Nat) (monkey : Monkey) (h : ms[i]? = some monkey)
    (hp : monkey.test_effect.1 < ms.length) (hf : monkey.test_effect.2 < ms.length) :
    turn ms i =
      some ((((ms.modify (fun m => m.inspect.1) i).modify
        (fun r => r.receive monkey.inspect.2.1) monkey.test_effect.1).modify
        (fun r => r.receive monkey.inspect.2.2) monkey.test_effect.2).modify
        Monkey.clear_items i) := by
  have hc : ms.modify (fun _ => monkey.inspect.1) i = ms.modify (fun m => m.inspect.1) i := by
    apply List.ext_getElem?
    intro k
    rw [List.getElem?_modify, List.getElem?_modify]
    by_cases hk : i = k
    · subst hk; simp [h]
    · simp [hk]
  unfold turn
  rw [h]
  simp only
  rw [if_pos ⟨hp, hf⟩, hc]

theorem turn_as_specified_eq (ms : List Monkey) (i : Nat) (monkey : Monkey)
    (h : ms[i]? = some monkey)
    (hp : monkey.test_effect.1 < ms.length) (hf : monkey.test_effect.2 < ms.length) :
    turn_as_specified ms i =
      some (((ms.modify (fun m => m.inspect.1.clear_items) i).modify
        (fun r => r.receive monkey.inspect.2.1) monkey.test_effect.1).modify
        (fun r => r.receive monkey.inspect.2.2) monkey.test_effect.2) := by
  have hc : ms.modify (fun _ => monkey.inspect.1.clear_items) i =
      ms.modify (fun m => m.inspect.1.clear_items) i := by
    apply List.ext_getElem?
    intro k
    rw [List.getElem?_modify, List.getElem?_modify]
    by_cases hk : i = k
    · subst hk; simp [h]
    · simp [hk]
  unfold turn_as_specified
  rw [h]
  simp only
  rw [if_pos ⟨hp, hf⟩, hc]

/-- When no destination is the acting monkey, clearing its queue last has the
effect of clearing it first. -/
theorem turn_eq_turn_as_specified (ms : List Monkey) (i : Nat) (monkey : Monkey)
    (h : ms[i]? = some monkey)
    (hp : monkey.test_effect.1 < ms.length) (hf : monkey.test_effect.2 < ms.length)
    (hpi : monkey.test_effect.1 ≠ i) (hfi : monkey.test_effect.2 ≠ i) :
    turn ms i = turn_as_specified ms i := by
  rw [turn_eq ms i monkey h hp hf, turn_as_specified_eq ms i monkey h hp hf]
  rw [List.modify_modify_ne _ _ _ hfi, List.modify_modify_ne _ _ _ hpi,
    List.modify_modify_eq]
  rfl

/-- C12, amended (routing): for every monkey collection and every acting monkey
whose destinations are in range and are not the acting monkey itself, one turn of
the main loop has the effect the specification describes: the acting monkey's queue
is cleared, the pass-list is appended at the back of the pass-destination's queue
and the fail-list at the back of the fail-destination's queue (pass-list before
fail-list when both destinations coincide). -/
theorem routing (ms : List Monkey) (i : Nat) (monkey : Monkey) (h : ms[i]? = some monkey)
    (hp : monkey.test_effect.1 < ms.length) (hf : monkey.test_effect.2 < ms.length)
    (hpi : monkey.test_effect.1 ≠ i) (hfi : monkey.test_effect.2 ≠ i) :
    turn ms i = turn_as_specified ms i ∧
      ∃ ms1, turn ms i = some ms1 ∧ ms1.length = ms.length ∧
        ms1[i]?.map Monkey.items = some [] ∧
        (monkey.test_effect.1 ≠ monkey.test_effect.2 →
          ms1[monkey.test_effect.1]?.map Monkey.items =
              ms[monkey.test_effect.1]?.map (fun m => m.items ++ monkey.inspect.2.1) ∧
            ms1[monkey.test_effect.2]?.map Monkey.items =
              ms[monkey.test_effect.2]?.map (fun m => m.items ++ monkey.inspect.2.2)) ∧
        (monkey.test_effect.1 = monkey.test_effect.2 →
          ms1[monkey.test_effect.1]?.map Monkey.items =
            ms[monkey.test_effect.1]?.map
              (fun m => m.items ++ monkey.inspect.2.1 ++ monkey.inspect.2.2)) := by
  have he := turn_eq_turn_as_specified ms i monkey h hp hf hpi hfi
  refine ⟨he, _, he.trans (turn_as_specified_eq ms i monkey h hp hf), by simp, ?_, ?_, ?_⟩
  · rw [List.getElem?_modify_ne _ _ hfi, List.getElem?_modify_ne _ _ hpi,
      List.getElem?_modify_eq, h]
    rfl
  · intro hne
    constructor
    · rw [List.getElem?_modify_ne _ _ (Ne.symm hne), List.getElem?_modify_eq,
        List.getElem?_modify_ne _ _ (Ne.symm hpi)]
      cases ms[monkey.test_effect.1]? <;> rfl
    · rw [List.getElem?_modify_eq, List.getElem?_modify_ne _ _ hne,
        List.getElem?_modify_ne _ _ (Ne.symm hfi)]
      cases ms[monkey.test_effect.2]? <;> rfl
  · intro heq
    rw [← heq, List.getElem?_modify_eq, List.getElem?_modify_eq,
      List.getElem?_modify_ne _ _ (Ne.symm hpi)]
    cases ms[monkey.test_effect.1]? <;> rfl

/-- C12 on two monkeys that throw to each other: the turn of monkey 0 is the turn
of the specification. -/
theorem routing_witness :
    turn
        [Monkey.create_from_description
          { id := 0, items := [79, 98], op_token := OpToken.times, argument := some 19,
            test_factor := 23, true_test_effect := 1, false_test_effect := 1 },
         Monkey.create_from_description
          { id := 1, items := [54], op_token := OpToken.plus, argument := some 6,
            test_factor := 19, true_test_effect := 0, false_test_effect := 0 }] 0 =
      turn_as_specified
        [Monkey.create_from_description
          { id := 0, items := [79, 98], op_token := OpToken.times, argument := some 19,
            test_factor := 23, true_test_effect := 1, false_test_effect := 1 },
         Monkey.create_from_description
          { id := 1, items := [54], op_token := OpToken.plus, argument := some 6,
            test_factor := 19, true_test_effect := 0, false_test_effect := 0 }] 0 :=
  (routing _ 0 _ rfl (by decide) (by decide) (by decide) (by decide)).1

set_option maxRecDepth 100000 in
/-- C12 as stated fails for a monkey that names itself as destination: the code
appends the thrown item to the monkey's own queue and then clears that queue, the
specified order keeps the item. -/
theorem routing_self_destination :
    (turn
        [Monkey.create_from_description
          { id := 0, items := [1], op_token := OpToken.plus, argument := some 1,
            test_factor := 1, true_test_effect := 0, false_test_effect := 0 }] 0).map
        (List.map Monkey.items) = some [[]] ∧
      (turn_as_specified
        [Monkey.create_from_description
          { id := 0, items := [1], op_token := OpToken.plus, argument := some 1,
            test_factor := 1, true_test_effect := 0, false_test_effect := 0 }] 0).map
        (List.map Monkey.items) = some [[0]] := by
  refine ⟨by decide, by decide⟩

theorem total_items_modify_receive (l : List Monkey) (k : Nat) (x : List Int)
    (hk : k < l.length) :
    total_items (l.modify (fun r => r.receive x) k) = total_items l + x.length := by
  obtain ⟨l1, a, l2, rfl, -, h2⟩ := List.exists_of_modify (fun r => r.receive x) hk
  rw [h2]
  simp only [total_items, List.map_append, List.map_cons, List.sum_append, List.sum_cons,
    Monkey.items, Monkey.receive, List.length_append]
  omega

theorem total_items_modify_cleared (l : List Monkey) (i : Nat) (monkey : Monkey)
    (h : l[i]? = some monkey) :
    total_items (l.modify (fun m => m.inspect.1.clear_items) i) + monkey.items.length =
      total_items l := by
  have hi : i < l.length := (List.getElem?_eq_some_iff.1 h).1
  obtain ⟨l1, a, l2, rfl, h1, h2⟩ :=
    List.exists_of_modify (fun m => m.inspect.1.clear_items) hi
  rw [h2]
  have ha : a = monkey := by
    rw [List.getElem?_append_right (by omega)] at h
    simpa [h1] using h
  subst ha
  simp only [total_items, List.map_append, List.map_cons, List.sum_append, List.sum_cons,
    Monkey.items, Monkey.clear_items, List.length_nil]
  omega

/-- One turn keeps the total number of items when the acting monkey does not throw
to itself. -/
theorem turn_total_items (ms : List Monkey) (i : Nat) (monkey : Monkey)
    (h : ms[i]? = some monkey)
    (hp : monkey.test_effect.1 < ms.length) (hf : monkey.test_effect.2 < ms.length)
    (hpi : monkey.test_effect.1 ≠ i) (hfi : monkey.test_effect.2 ≠ i) :
    ∃ ms1, turn ms i = some ms1 ∧ total_items ms1 = total_items ms := by
  refine ⟨_, (turn_eq_turn_as_specified ms i monkey h hp hf hpi hfi).trans
    (turn_as_specified_eq ms i monkey h hp hf), ?_⟩
  rw [total_items_modify_receive _ _ _ (by simpa using hf),
    total_items_modify_receive _ _ _ (by simpa using hp)]
  have h1 := total_items_modify_cleared ms i monkey h
  have h2 := (inspect_lengths monkey).2
  simp only [Monkey.items] at h1
  omega

theorem map_modify_of_invariant {β : Type} (g : Monkey → β) (f : Monkey → Monkey)
    (hf : ∀ m, g (f m) = g m) (n : Nat) (l : List Monkey) :
    (l.modify f n).map g = l.map g := by
  apply List.ext_getElem?
  intro k
  rw [List.getElem?_map, List.getElem?_map, List.getElem?_modify]
  cases l[k]? with
  | none => rfl
  | some a =>
      by_cases hk : n = k
      · simp [hk, hf]
      · simp [hk]

theorem turn_some (ms ms1 : List Monkey) (i : Nat) (h : turn ms i = some ms1) :
    ∃ monkey, ms[i]? = some monkey ∧ monkey.test_effect.1 < ms.length ∧
      monkey.test_effect.2 < ms.length := by
  unfold turn at h
  cases hm : ms[i]? with
  | none => rw [hm] at h; simp at h
  | some monkey =>
      rw [hm] at h
      simp only at h
      split_ifs at h with hc
      exact ⟨monkey, rfl, hc.1, hc.2⟩

/-- A turn changes no monkey's destinations. -/
theorem turn_test_effect (ms ms1 : List Monkey) (i : Nat) (h : turn ms i = some ms1) :
    ms1.map Monkey.test_effect = ms.map Monkey.test_effect := by
  obtain ⟨monkey, hm, hp, hf⟩ := turn_some ms ms1 i h
  rw [turn_eq ms i monkey hm hp hf, Option.some.injEq] at h
  rw [← h, map_modify_of_invariant Monkey.test_effect Monkey.clear_items (fun _ => rfl),
    map_modify_of_invariant Monkey.test_effect
      (fun r => r.receive monkey.inspect.2.2) (fun _ => rfl),
    map_modify_of_invariant Monkey.test_effect
      (fun r => r.receive monkey.inspect.2.1) (fun _ => rfl),
    map_modify_of_invariant Monkey.test_effect (fun m => m.inspect.1)
      (fun m => by show m.inspect.1.test_effect = m.test_effect; rw [inspect_eq]; rfl)]

theorem destinations_in_range_congr (ms ms1 : List Monkey)
    (h : ms1.map Monkey.test_effect = ms.map Monkey.test_effect)
    (hr : destinations_in_range ms) : destinations_in_range ms1 := by
  have hl : ms1.length = ms.length := by
    simpa using congrArg List.length h
  intro m hm
  have : m.test_effect ∈ ms.map Monkey.test_effect := by
    rw [← h]; exact List.mem_map_of_mem _ hm
  obtain ⟨m0, hm0, he⟩ := List.mem_map.1 this
  rw [hl, ← he]
  exact hr m0 hm0

theorem no_self_destination_congr (ms ms1 : List Monkey)
    (h : ms1.map Monkey.test_effect = ms.map Monkey.test_effect)
    (hr : no_self_destination ms) : no_self_destination ms1 := by
  intro k m hm
  have h1 : (ms1.map Monkey.test_effect)[k]? = some m.test_effect := by
    rw [List.getElem?_map, hm]; rfl
  rw [h, List.getElem?_map] at h1
  cases hk : ms[k]? with
  | none => rw [hk] at h1; simp at h1
  | some m0 =>
      rw [hk] at h1
      simp only [Option.map_some', Option.some.injEq] at h1
      rw [← h1]
      exact hr k m0 hk

/-- Any sequence of turns of existing monkeys keeps the total number of items,
provided no monkey throws to itself. -/
theorem turns_total_items (idxs : List Nat) :
    ∀ ms : List Monkey, (∀ i ∈ idxs, i < ms.length) → destinations_in_range ms →
      no_self_destination ms →
      ∃ ms1, idxs.foldlM turn ms = some ms1 ∧ total_items ms1 = total_items ms := by
  induction idxs with
  | nil => intro ms _ _ _; exact ⟨ms, rfl, rfl⟩
  | cons i rest ih =>
      intro ms hi hr hs
      have hlt : i < ms.length := hi i (List.mem_cons_self _ _)
      have hm : ms[i]? = some ms[i] := List.getElem?_eq_getElem hlt
      obtain ⟨hp, hf⟩ := hr ms[i] (List.getElem_mem _)
      obtain ⟨hpi, hfi⟩ := hs i ms[i] hm
      obtain ⟨ms1, h1, ht⟩ := turn_total_items ms i ms[i] hm hp hf hpi hfi
      have hte := turn_test_effect ms ms1 i h1
      have hl : ms1.length = ms.length := by simpa using congrArg List.length hte
      obtain ⟨ms2, h2, ht2⟩ := ih ms1
        (fun k hk => by rw [hl]; exact hi k (List.mem_cons_of_mem _ hk))
        (destinations_in_range_congr ms ms1 hte hr)
        (no_self_destination_congr ms ms1 hte hs)
      refine ⟨ms2, ?_, ht2.trans ht⟩
      rw [List.foldlM_cons, h1]
      exact h2

theorem pair_in_range :
    destinations_in_range (pair_descriptions.map Monkey.create_from_description) := by
  intro m hm
  simp only [pair_descriptions, List.map_cons, List.map_nil, List.mem_cons, List.mem_singleton,
    List.not_mem_nil, or_false] at hm
  rcases hm with rfl | rfl <;> decide

theorem pair_no_self :
    no_self_destination (pair_descriptions.map Monkey.create_from_description) := by
  intro k m hm
  simp only [pair_descriptions, List.map_cons, List.map_nil] at hm
  rcases k with _ | _ | k
  · simp only [List.getElem?_cons_zero, Option.some.injEq] at hm
    subst hm; decide
  · simp only [List.getElem?_cons_succ, List.getElem?_cons_zero, Option.some.injEq] at hm
    subst hm; decide
  · simp at hm

theorem pair_divisors_positive :
    ∀ m ∈ pair_descriptions.map Monkey.create_from_description, m.divisors_positive := by
  intro m hm
  simp only [pair_descriptions, List.map_cons, List.map_nil, List.mem_cons, List.mem_singleton,
    List.not_mem_nil, or_false] at hm
  rcases hm with rfl | rfl
  · exact ⟨rfl, by decide, Or.inl rfl⟩
  · exact ⟨rfl, by decide, Or.inl rfl⟩

/-- C2, amended (round-robin conservation): for every collection of monkeys whose
destination ids are in range and in which no monkey names itself as destination,
the total number of items in all queues after a round of the main loop equals the
total before the round. The round runs to its end when, in addition, no test or
relief divides by zero. -/
theorem round_conservation (ms : List Monkey) (hr : destinations_in_range ms)
    (hs : no_self_destination ms) :
    (∀ ms1, round ms = some ms1 → total_items ms1 = total_items ms) ∧
      ((∀ m ∈ ms, m.divisors_positive) → ∃ ms1, round ms = some ms1) := by
  obtain ⟨ms1, h1, h2⟩ :=
    turns_total_items (List.range ms.length) ms (fun _ hi => List.mem_range.1 hi) hr hs
  refine ⟨fun ms2 h => ?_, fun _ => ⟨ms1, h1⟩⟩
  rw [show round ms = some ms1 from h1, Option.some.injEq] at h
  rw [← h]
  exact h2

set_option maxRecDepth 100000 in
/-- C2 on two monkeys that throw to each other: the round runs to its end and keeps
the total of 3 items. -/
theorem round_conservation_witness :
    ∃ ms1,
      round (pair_descriptions.map Monkey.create_from_description) = some ms1 ∧
      total_items ms1 = total_items (pair_descriptions.map Monkey.create_from_description) ∧
      total_items (pair_descriptions.map Monkey.create_from_description) = 3 := by
  obtain ⟨ms1, h⟩ := (round_conservation (pair_descriptions.map Monkey.create_from_description)
    pair_in_range pair_no_self).2 pair_divisors_positive
  exact ⟨ms1, h, (round_conservation (pair_descriptions.map Monkey.create_from_description)
    pair_in_range pair_no_self).1 ms1 h, by decide⟩

set_option maxRecDepth 100000 in
/-- C2 as stated fails for a monkey that names itself as destination (index 0 is in
range): the round starts with one item and ends with none. -/
theorem round_conservation_self_destination :
    destinations_in_range
        [Monkey.create_from_description
          { id := 0, items := [1], op_token := OpToken.plus, argument := some 1,
            test_factor := 1, true_test_effect := 0, false_test_effect := 0 }] ∧
      total_items
        [Monkey.create_from_description
          { id := 0, items := [1], op_token := OpToken.plus, argument := some 1,
            test_factor := 1, true_test_effect := 0, false_test_effect := 0 }] = 1 ∧
      (round
        [Monkey.create_from_description
          { id := 0, items := [1], op_token := OpToken.plus, argument := some 1,
            test_factor := 1, true_test_effect := 0, false_test_effect := 0 }]).map
        total_items = some 0 := by
  refine ⟨?_, by decide, by decide⟩
  intro m hm
  simp only [List.mem_singleton] at hm
  subst hm
  decide

theorem range_split (i n : Nat) (h : i < n) :
    ∃ tail, List.range n = List.range i ++ i :: tail ∧ ∀ j ∈ tail, i < j ∧ j < n := by
  obtain ⟨k, rfl⟩ : ∃ k, n = i + (k + 1) := ⟨n - i - 1, by omega⟩
  refine ⟨List.map (fun x => i + x) (List.map Nat.succ (List.range k)), ?_, ?_⟩
  · rw [List.range_add, List.range_succ_eq_map]
    simp
  · intro j hj
    simp only [List.mem_map, List.mem_range, exists_exists_and_eq_and] at hj
    obtain ⟨x, hx, rfl⟩ := hj
    omega

theorem getElem?_modify_counter (f : Monkey → Monkey)
    (hf : ∀ m, (f m).items_inspected = m.items_inspected) (n i : Nat) (l : List Monkey) :
    (l.modify f n)[i]?.map Monkey.items_inspected = l[i]?.map Monkey.items_inspected := by
  rw [List.getElem?_modify]
  cases l[i]? with
  | none => rfl
  | some a =>
      by_cases hk : n = i
      · simp [hk, hf]
      · simp [hk]

/-- The turn of another monkey leaves a monkey's counter alone. -/
theorem turn_counter_other (ms ms1 : List Monkey) (i j : Nat) (h : turn ms j = some ms1)
    (hij : j ≠ i) :
    ms1[i]?.map Monkey.items_inspected = ms[i]?.map Monkey.items_inspected := by
  obtain ⟨monkey, hm, hp, hf⟩ := turn_some ms ms1 j h
  rw [turn_eq ms j monkey hm hp hf, Option.some.injEq] at h
  rw [← h, List.getElem?_modify_ne _ _ hij,
    getElem?_modify_counter (fun r => r.receive monkey.inspect.2.2) (fun _ => rfl),
    getElem?_modify_counter (fun r => r.receive monkey.inspect.2.1) (fun _ => rfl),
    List.getElem?_modify_ne _ _ hij]

/-- In its own turn a monkey's counter grows by the length of its queue at that
moment. -/
theorem turn_counter_self (ms ms1 : List Monkey) (i : Nat) (m : Monkey)
    (h : turn ms i = some ms1) (hm : ms[i]? = some m) :
    ms1[i]?.map Monkey.items_inspected = some (m.items_inspected + m.items.length) := by
  obtain ⟨monkey, hm1, hp, hf⟩ := turn_some ms ms1 i h
  rw [turn_eq ms i monkey hm1 hp hf, Option.some.injEq] at h
  rw [← h, getElem?_modify_counter Monkey.clear_items (fun _ => rfl),
    getElem?_modify_counter (fun r => r.receive monkey.inspect.2.2) (fun _ => rfl),
    getElem?_modify_counter (fun r => r.receive monkey.inspect.2.1) (fun _ => rfl),
    List.getElem?_modify_eq, hm]
  simp only [Option.map_eq_map, Option.map_some', Option.some.injEq]
  exact (inspect_lengths m).1

/-- Turns of other monkeys succeed when destinations are in range and leave the
counter of monkey `i` alone. -/
theorem turns_counter_other (i : Nat) (idxs : List Nat) :
    ∀ ms : List Monkey, (∀ j ∈ idxs, j < ms.length ∧ j ≠ i) → destinations_in_range ms →
      ∃ ms1, idxs.foldlM turn ms = some ms1 ∧
        ms1.map Monkey.test_effect = ms.map Monkey.test_effect ∧
        ms1[i]?.map Monkey.items_inspected = ms[i]?.map Monkey.items_inspected := by
  induction idxs with
  | nil => intro ms _ _; exact ⟨ms, rfl, rfl, rfl⟩
  | cons j rest ih =>
      intro ms hj hr
      obtain ⟨hlt, hne⟩ := hj j (List.mem_cons_self _ _)
      have hm : ms[j]? = some ms[j] := List.getElem?_eq_getElem hlt
      obtain ⟨hp, hf⟩ := hr ms[j] (List.getElem_mem _)
      have h1 := turn_eq ms j ms[j] hm hp hf
      have hte := turn_test_effect ms _ j h1
      have hl := congrArg List.length hte
      simp only [List.length_map] at hl
      obtain ⟨ms2, h2, hte2, hc2⟩ := ih _
        (fun k hk => by rw [hl]; exact hj k (List.mem_cons_of_mem _ hk))
        (destinations_in_range_congr ms _ hte hr)
      refine ⟨ms2, ?_, hte2.trans hte, hc2.trans (turn_counter_other ms _ i j h1 hne)⟩
      rw [List.foldlM_cons, h1]
      exact h2

/-- Within a round, the counter of monkey `i` grows by the length of its queue at
the start of its own turn. -/
theorem round_counter (ms : List Monkey) (hr : destinations_in_range ms) (i : Nat)
    (hi : i < ms.length) :
    ∃ before after m0 mb ma,
      (List.range i).foldlM turn ms = some before ∧ round ms = some after ∧
      ms[i]? = some m0 ∧ before[i]? = some mb ∧ after[i]? = some ma ∧
      ma.items_inspected = m0.items_inspected + mb.items.length := by
  obtain ⟨tail, hsplit, htail⟩ := range_split i ms.length hi
  obtain ⟨before, hb, hbte, hbc⟩ := turns_counter_other i (List.range i) ms
    (fun j hj => by rw [List.mem_range] at hj; omega) hr
  have hbl := congrArg List.length hbte
  simp only [List.length_map] at hbl
  have hbr := destinations_in_range_congr ms before hbte hr
  have hbi : i < before.length := by omega
  have hmb : before[i]? = some before[i] := List.getElem?_eq_getElem hbi
  obtain ⟨hp, hf⟩ := hbr before[i] (List.getElem_mem _)
  have ht := turn_eq before i before[i] hmb hp hf
  have hte := turn_test_effect before _ i ht
  have hl := congrArg List.length hte
  simp only [List.length_map] at hl
  obtain ⟨after, ha, -, hac⟩ := turns_counter_other i tail _
    (fun j hj => by rw [hl, hbl]; have := htail j hj; omega)
    (destinations_in_range_congr before _ hte hbr)
  have hself := turn_counter_self before _ i before[i] ht hmb
  have hm0 : ms[i]? = some ms[i] := List.getElem?_eq_getElem hi
  rw [hm0, hmb] at hbc
  simp only [Option.map_some', Option.some.injEq] at hbc
  rw [hself] at hac
  cases hma : after[i]? with
  | none => rw [hma] at hac; simp at hac
  | some ma =>
      rw [hma] at hac
      simp only [Option.map_some', Option.some.injEq] at hac
      refine ⟨before, after, ms[i], before[i], ma, hb, ?_, hm0, hmb, hma, ?_⟩
      · rw [round, hsplit, List.foldlM_append, hb]
        simp only [Option.bind_eq_bind, Option.some_bind, List.foldlM_cons]
        rw [ht]
        exact ha
      · rw [hac, hbc]

/-- C7, amended (no snapshot): within one round with in-range destinations a
monkey processes every item that is in its queue when its own turn starts, including
the items appended by monkeys that acted earlier in the same round: the number of
items monkey `i` inspects in the round is the length of its queue after the turns
of the monkeys before it. The round runs to its end when, in addition, no test or
relief divides by zero. -/
theorem inspects_queue_at_own_turn (ms : List Monkey) (hr : destinations_in_range ms)
    (i : Nat) (hi : i < ms.length) :
    (∀ after, round ms = some after →
      ∃ before m0 mb ma,
        (List.range i).foldlM turn ms = some before ∧
        ms[i]? = some m0 ∧ before[i]? = some mb ∧ after[i]? = some ma ∧
        ma.items_inspected = m0.items_inspected + mb.items.length) ∧
      ((∀ m ∈ ms, m.divisors_positive) → ∃ after, round ms = some after) := by
  obtain ⟨before, after, m0, mb, ma, h1, h2, h3, h4, h5, h6⟩ := round_counter ms hr i hi
  refine ⟨fun after2 h => ?_, fun _ => ⟨after, h2⟩⟩
  rw [h2, Option.some.injEq] at h
  rw [← h]
  exact ⟨before, m0, mb, ma, h1, h3, h4, h5, h6⟩

set_option maxRecDepth 100000 in
/-- C7 on two monkeys that throw to each other: monkey 1 starts the round with the
queue `[54]`; monkey 0 acts first and throws 500 and 620 to it; at its own turn
monkey 1 holds `[54, 500, 620]` and it inspects 3 items in the round. -/
theorem inspects_queue_at_own_turn_witness :
    ∃ before after m0 mb ma,
      (List.range 1).foldlM turn (pair_descriptions.map Monkey.create_from_description) =
        some before ∧
      round (pair_descriptions.map Monkey.create_from_description) = some after ∧
      (pair_descriptions.map Monkey.create_from_description)[1]? = some m0 ∧
      before[1]? = some mb ∧ after[1]? = some ma ∧
      ma.items_inspected = m0.items_inspected + mb.items.length ∧
      m0.items = [54] ∧ m0.items_inspected = 0 ∧ mb.items = [54, 500, 620] ∧
      ma.items_inspected = 3 := by
  obtain ⟨after, ha⟩ := (inspects_queue_at_own_turn
    (pair_descriptions.map Monkey.create_from_description) pair_in_range 1
    (by decide)).2 pair_divisors_positive
  obtain ⟨before, m0, mb, ma, hb, h0, hbi, hai, hc⟩ := (inspects_queue_at_own_turn
    (pair_descriptions.map Monkey.create_from_description) pair_in_range 1
    (by decide)).1 after ha
  have eb0 : ((List.range 1).foldlM turn
      (pair_descriptions.map Monkey.create_from_description)).map (List.map Monkey.items) =
      some [[], [54, 500, 620]] := by decide
  rw [hb, Option.map_some', Option.some.injEq] at eb0
  have emb : mb.items = [54, 500, 620] := by
    have h := congrArg (Option.map Monkey.items) hbi
    rw [← List.getElem?_map, eb0] at h
    exact (Option.some.inj h).symm
  have e0 : ((pair_descriptions.map Monkey.create_from_description)[1]?).map
      (fun m => (m.items, m.items_inspected)) = some ([54], 0) := by decide
  rw [h0, Option.map_some', Option.some.injEq, Prod.mk.injEq] at e0
  refine ⟨before, after, m0, mb, ma, hb, ha, h0, hbi, hai, hc, e0.1, e0.2, emb, ?_⟩
  rw [hc, e0.2, emb]
  rfl

set_option maxRecDepth 100000 in
/-- C7 as stated fails: monkey 1 starts the round with an empty queue, receives the
item thrown by monkey 0 earlier in the same round and inspects it in this round. -/
theorem snapshot_rule_fails :
    ([Monkey.create_from_description
          { id := 0, items := [79], op_token := OpToken.times, argument := some 19,
            test_factor := 23, true_test_effect := 1, false_test_effect := 1 },
         Monkey.create_from_description
          { id := 1, items := [], op_token := OpToken.plus, argument := some 6,
            test_factor := 19, true_test_effect := 0, false_test_effect := 0 }].map
        (fun m => (m.items.length, m.items_inspected)) = [(1, 0), (0, 0)]) ∧
      (round
        [Monkey.create_from_description
          { id := 0, items := [79], op_token := OpToken.times, argument := some 19,
            test_factor := 23, true_test_effect := 1, false_test_effect := 1 },
         Monkey.create_from_description
          { id := 1, items := [], op_token := OpToken.plus, argument := some 6,
            test_factor := 19, true_test_effect := 0, false_test_effect := 0 }]).map
        (List.map Monkey.items_inspected) = some [1, 1] := by
  refine ⟨by decide, by decide⟩

theorem supermod_fold (l : List Monkey) :
    ∀ acc : Nat, (∀ m ∈ l, 0 < m.test_factor) →
      acc * (l.map Monkey.test_factor).prod < 2147483648 →
      l.foldl
        (fun (init : Int) monkey =>
          wrap32 (((init % 18446744073709551616) * monkey.test_factor) % 18446744073709551616))
        (acc : Int) = ((acc * (l.map Monkey.test_factor).prod : Nat) : Int) := by
  induction l with
  | nil => intro acc _ _; simp
  | cons m l ih =>
      intro acc hpos hlt
      have hm : 0 < m.test_factor := hpos m (List.mem_cons_self _ _)
      have hrest : 0 < (l.map Monkey.test_factor).prod :=
        List.prod_pos (by
          intro a ha
          obtain ⟨x, hx, rfl⟩ := List.mem_map.1 ha
          exact hpos x (List.mem_cons_of_mem _ hx))
      rw [List.map_cons, List.prod_cons, ← Nat.mul_assoc] at hlt
      have h1 : acc * m.test_factor < 2147483648 :=
        lt_of_le_of_lt (Nat.le_mul_of_pos_right _ hrest) hlt
      have h2 : acc ≤ acc * m.test_factor := Nat.le_mul_of_pos_right _ hm
      have hstep : wrap32 ((((acc : Int) % 18446744073709551616) * m.test_factor) %
          18446744073709551616) = ((acc * m.test_factor : Nat) : Int) := by
        have e1 : (acc : Int) % 18446744073709551616 = acc := by omega
        rw [e1]
        have e2 : (acc : Int) * (m.test_factor : Int) = ((acc * m.test_factor : Nat) : Int) := by
          push_cast; rfl
        rw [e2]
        unfold wrap32
        omega
      rw [List.foldl_cons, hstep, ih (acc * m.test_factor)
        (fun x hx => hpos x (List.mem_cons_of_mem _ hx)) hlt]
      rw [List.map_cons, List.prod_cons, Nat.mul_assoc]

/-- When the product of the test factors is below `2 ^ 31` the value computed by
the `std::accumulate` call is that product. -/
theorem supermod_eq_prod (ms : List Monkey) (hpos : ∀ m ∈ ms, 0 < m.test_factor)
    (hlt : (ms.map Monkey.test_factor).prod < 2147483648) :
    supermod ms = (ms.map Monkey.test_factor).prod := by
  unfold supermod
  have h := supermod_fold ms 1 hpos (by simpa using hlt)
  simp only [Nat.cast_one, Nat.one_mul] at h
  rw [h]
  omega

theorem neg_natCast_tmod (s n : Nat) :
    Int.tmod (-(s : Int)) (n : Int) = -Int.tmod (s : Int) (n : Int) := by
  cases s with
  | zero => simp
  | succ k => rfl

theorem tmod_tmod_of_dvd (t : Int) (f M : Nat) (hf : 0 < f) (hM : 0 < M) (hd : f ∣ M) :
    Int.tmod (Int.tmod t (M : Int)) (f : Int) = Int.tmod t (f : Int) := by
  have hd1 : (f : Int) ∣ (M : Int) := Int.natCast_dvd_natCast.2 hd
  rcases le_or_lt 0 t with h | h
  · rw [Int.tmod_eq_emod h (by omega),
      Int.tmod_eq_emod (Int.emod_nonneg _ (by omega)) (by omega), Int.tmod_eq_emod h (by omega),
      Int.emod_emod_of_dvd _ hd1]
  · obtain ⟨s, rfl⟩ : ∃ s : Nat, t = -(s : Int) := ⟨(-t).toNat, by omega⟩
    rw [neg_natCast_tmod, neg_natCast_tmod, ← Int.ofNat_tmod, neg_natCast_tmod,
      ← Int.ofNat_tmod, ← Int.ofNat_tmod, Nat.mod_mod_of_dvd _ hd]

/-- With a modulus that is a multiple of the test factor the relief does not change
remainders modulo the factor, nor the divisibility test. -/
theorem relief_keeps_remainder (t : Int) (f M : Nat) (hf : 0 < f) (hM : 0 < M)
    (hM2 : M < 2147483648) (hd : f ∣ M) :
    Int.tmod (supermod_cooldown M t) (wrap64 f) = Int.tmod t (wrap64 f) ∧
      Monkey.default_test f (supermod_cooldown M t) = Monkey.default_test f t := by
  have hfM : f ≤ M := Nat.le_of_dvd hM hd
  have e1 : wrap64 (M : Int) = M := by unfold wrap64; omega
  have e2 : wrap64 (f : Int) = f := by unfold wrap64; omega
  have h := tmod_tmod_of_dvd t f M hf hM hd
  unfold Monkey.default_test supermod_cooldown
  rw [e1, e2, h]
  exact ⟨rfl, rfl⟩

/-- Where the `int` accumulator of `std::accumulate` does not overflow the relief
substitution is correct: for monkeys with positive test factors whose product is
below `2 ^ 31`, after `main` has installed the common-modulus relief, for every
monkey and every value `t` the relief keeps the remainder modulo the monkey's own
test factor, so the divisibility test gives the same answer for `cooldown(t)` as
for `t`. -/
theorem relief_substitution (monkeys : List Monkey)
    (hpos : ∀ m ∈ monkeys, 0 < m.test_factor)
    (hprod : (monkeys.map Monkey.test_factor).prod < 2147483648)
    (htest : ∀ m ∈ monkeys, m.test_ = Monkey.default_test m.test_factor_) :
    ∀ m ∈ install_cooldown monkeys, ∀ t : Int,
      Int.tmod (m.cooldown_ t) (wrap64 m.test_factor) = Int.tmod t (wrap64 m.test_factor) ∧
        m.test_ (m.cooldown_ t) = m.test_ t := by
  intro m hm t
  unfold install_cooldown at hm
  obtain ⟨m0, hm0, rfl⟩ := List.mem_map.1 hm
  have hM : 0 < (monkeys.map Monkey.test_factor).prod :=
    List.prod_pos (by
      intro a ha
      obtain ⟨x, hx, rfl⟩ := List.mem_map.1 ha
      exact hpos x hx)
  have hd : m0.test_factor ∣ (monkeys.map Monkey.test_factor).prod :=
    List.dvd_prod (List.mem_map.2 ⟨m0, hm0, rfl⟩)
  have h := relief_keeps_remainder t m0.test_factor _ (hpos m0 hm0) hM hprod hd
  rw [supermod_eq_prod monkeys hpos hprod]
  simp only [Monkey.test_factor, htest m0 hm0] at h ⊢
  exact h

set_option maxRecDepth 100000 in
/-- The four sample monkeys (product of the test factors 96577): for the first
monkey the relief keeps the remainder of the value 1000000 modulo 23 and the answer
of the divisibility test. -/
theorem relief_substitution_witness :
    ∃ m, (install_cooldown (sample_descriptions.map Monkey.create_from_description))[0]? =
        some m ∧
      Int.tmod (m.cooldown_ 1000000) (wrap64 m.test_factor) =
        Int.tmod 1000000 (wrap64 m.test_factor) ∧
      m.test_ (m.cooldown_ 1000000) = m.test_ 1000000 := by
  have hlen : 0 < (install_cooldown
      (sample_descriptions.map Monkey.create_from_description)).length := by decide
  exact ⟨_, List.getElem?_eq_getElem hlen,
    relief_substitution (sample_descriptions.map Monkey.create_from_description)
      (by decide) (by decide)
      (by
        intro x hx
        obtain ⟨d, -, rfl⟩ := List.mem_map.1 hx
        rfl) _ (List.getElem_mem hlen) 1000000⟩

set_option maxRecDepth 100000 in
/-- C20 at the failing input: for two monkeys with test factor 65537 the
`std::accumulate` call, whose accumulator is an `int`, yields 131073, while the
product of the test factors is 4295098369. -/
theorem supermod_wraps :
    supermod
        [Monkey.create_from_description
          { id := 0, items := [], op_token := OpToken.plus, argument := none,
            test_factor := 65537, true_test_effect := 1, false_test_effect := 1 },
         Monkey.create_from_description
          { id := 1, items := [], op_token := OpToken.plus, argument := none,
            test_factor := 65537, true_test_effect := 0, false_test_effect := 0 }] = 131073 ∧
      ([Monkey.create_from_description
          { id := 0, items := [], op_token := OpToken.plus, argument := none,
            test_factor := 65537, true_test_effect := 1, false_test_effect := 1 },
         Monkey.create_from_description
          { id := 1, items := [], op_token := OpToken.plus, argument := none,
            test_factor := 65537, true_test_effect := 0, false_test_effect := 0 }].map
        Monkey.test_factor).prod = 4295098369 := by
  refine ⟨by decide, by decide⟩

set_option maxRecDepth 100000 in
/-- C5 at the failing input: for two monkeys with test factor 65537 the modulus
installed is 131073, not the product 4295098369, and the installed relief maps
131073 to 0; the remainder modulo 65537 changes from 65536 to 0 and the divisibility
test changes from false to true. -/
theorem relief_changes_test :
    (install_cooldown
        [Monkey.create_from_description
          { id := 0, items := [], op_token := OpToken.plus, argument := none,
            test_factor := 65537, true_test_effect := 1, false_test_effect := 1 },
         Monkey.create_from_description
          { id := 1, items := [], op_token := OpToken.plus, argument := none,
            test_factor := 65537, true_test_effect := 0, false_test_effect := 0 }]).map
        (fun m => (m.cooldown_ 131073, Int.tmod (m.cooldown_ 131073) m.test_factor,
          Int.tmod 131073 m.test_factor, m.test_ (m.cooldown_ 131073), m.test_ 131073)) =
      [(0, 0, 65536, true, false), (0, 0, 65536, true, false)] := by
  decide

theorem forall₂_filter {R : Int → Int → Prop} {p q : Int → Bool} {l1 l2 : List Int}
    (h : List.Forall₂ R l1 l2) (hpq : ∀ a b, R a b → p a = q b) :
    List.Forall₂ R (l1.filter p) (l2.filter q) := by
  induction h with
  | nil => exact List.Forall₂.nil
  | cons hab _ ih =>
      rw [List.filter_cons, List.filter_cons, hpq _ _ hab]
      split_ifs
      · exact List.Forall₂.cons hab ih
      · exact ih

theorem forall₂_modify {R : Monkey → Monkey → Prop} {f g : Monkey → Monkey}
    (hfg : ∀ a b, R a b → R (f a) (g b)) {l1 l2 : List Monkey} (h : List.Forall₂ R l1 l2) :
    ∀ n, List.Forall₂ R (l1.modify f n) (l2.modify g n) := by
  induction h with
  | nil => intro n; simp
  | cons hab hl ih =>
      intro n
      cases n with
      | zero => exact List.Forall₂.cons (hfg _ _ hab) hl
      | succ n => exact List.Forall₂.cons hab (ih n)

theorem forall₂_getElem? {R : Monkey → Monkey → Prop} {l1 l2 : List Monkey}
    (h : List.Forall₂ R l1 l2) (k : Nat) (hk : k < l1.length) :
    ∃ a b, l1[k]? = some a ∧ l2[k]? = some b ∧ R a b := by
  have hl := h.length_eq
  have hk2 : k < l2.length := by omega
  refine ⟨l1[k], l2[k], List.getElem?_eq_getElem hk,
    List.getElem?_eq_getElem hk2, ?_⟩
  exact (List.forall₂_iff_get.1 h).2 k hk hk2

/-- One inspection step on corresponding items: the new items correspond and the
two divisibility tests agree. -/
theorem item_step (d : Description) (M : Nat) (a b : Int)
    (hM : 0 < M) (hM2 : M < 2147483648) (hf : 0 < d.test_factor) (hd : d.test_factor ∣ M)
    (harg : ∀ v, d.argument = some v → 0 ≤ v ∧ v < 2147483648) (h : ItemRel M a b) :
    ItemRel M (supermod_cooldown M (Monkey.make_operation d.op_token d.argument a))
        ((ideal_from_description d).cooldown_ ((ideal_from_description d).operation_ b)) ∧
      Monkey.default_test d.test_factor
          (supermod_cooldown M (Monkey.make_operation d.op_token d.argument a)) =
        (ideal_from_description d).test_
          ((ideal_from_description d).cooldown_ ((ideal_from_description d).operation_ b)) := by
  obtain ⟨ha0, ha1, hab⟩ := h
  have hfM : d.test_factor ≤ M := Nat.le_of_dvd hM hd
  have key : ∀ x y : Int, 0 ≤ x → x < 9223372036854775808 → x ≡ y [ZMOD (M : Int)] →
      ItemRel M (supermod_cooldown M (wrap64 x)) y ∧
        Monkey.default_test d.test_factor (supermod_cooldown M (wrap64 x)) =
          decide (y % (d.test_factor : Int) = 0) := by
    intro x y hx0 hx1 hxy
    have e0 : wrap64 x = x := by unfold wrap64; omega
    have e1 : wrap64 (M : Int) = M := by unfold wrap64; omega
    have e2 : wrap64 (d.test_factor : Int) = d.test_factor := by unfold wrap64; omega
    have hlt : x % (M : Int) < M := Int.emod_lt_of_pos _ (by omega)
    have hge : 0 ≤ x % (M : Int) := Int.emod_nonneg _ (by omega)
    have hcong : x % (M : Int) ≡ y [ZMOD (M : Int)] := (Int.mod_modEq x M).trans hxy
    unfold supermod_cooldown Monkey.default_test
    rw [e0, e1, e2, Int.tmod_eq_emod hx0 (by omega), Int.tmod_eq_emod hge (by omega)]
    refine ⟨⟨hge, by omega, hcong⟩, ?_⟩
    have hcf : x % (M : Int) ≡ y [ZMOD (d.test_factor : Int)] :=
      Int.ModEq.of_dvd (Int.natCast_dvd_natCast.2 hd) hcong
    rw [decide_eq_decide]
    unfold Int.ModEq at hcf
    rw [hcf]
  unfold ideal_from_description Monkey.make_operation
  cases hop : d.op_token <;> cases hv : d.argument with
  | none =>
      simp only
      first
      | exact key (a + a) (b + b) (by omega) (by omega) (Int.ModEq.add hab hab)
      | exact key (a * a) (b * b) (mul_nonneg ha0 ha0)
          (lt_of_le_of_lt (mul_le_mul (show a ≤ 2147483647 by omega)
            (show a ≤ 2147483647 by omega) ha0 (by norm_num)) (by norm_num))
          (Int.ModEq.mul hab hab)
  | some v =>
      obtain ⟨hv0, hv1⟩ := harg v hv
      simp only
      first
      | exact key (a + v) (b + v) (by omega) (by omega) (Int.ModEq.add_right v hab)
      | exact key (a * v) (b * v) (mul_nonneg ha0 hv0)
          (lt_of_le_of_lt (mul_le_mul (show a ≤ 2147483647 by omega)
            (show v ≤ 2147483647 by omega) hv0 (by norm_num)) (by norm_num))
          (Int.ModEq.mul_right v hab)

/-- Corresponding monkeys inspect corresponding items, route them the same way
and stay corresponding. -/
theorem inspect_rel (M n : Nat) (hM : 0 < M) (hM2 : M < 2147483648) (c i : Monkey)
    (h : MonkeyRel M n c i) :
    MonkeyRel M n c.inspect.1 i.inspect.1 ∧
      List.Forall₂ (ItemRel M) c.inspect.2.1 i.inspect.2.1 ∧
      List.Forall₂ (ItemRel M) c.inspect.2.2 i.inspect.2.2 := by
  obtain ⟨d, hf, hd, harg, hco, hct, hcc, hio, hit, hic, hte, hp1, hp2, hcnt, hitems⟩ := h
  have hmap : List.Forall₂ (fun a b => ItemRel M a b ∧ c.test_ a = i.test_ b)
      (c.items_.map (fun v => c.cooldown_ (c.operation_ v)))
      (i.items_.map (fun v => i.cooldown_ (i.operation_ v))) := by
    rw [List.forall₂_map_left_iff, List.forall₂_map_right_iff]
    refine List.Forall₂.imp ?_ hitems
    intro a b hab
    rw [hco, hct, hcc, hio, hit, hic]
    exact item_step d M a b hM hM2 hf hd harg hab
  have hmap1 : List.Forall₂ (ItemRel M)
      (c.items_.map (fun v => c.cooldown_ (c.operation_ v)))
      (i.items_.map (fun v => i.cooldown_ (i.operation_ v))) :=
    List.Forall₂.imp (fun _ _ hab => hab.1) hmap
  have hpass := forall₂_filter (p := c.test_) (q := i.test_) hmap (fun _ _ hab => hab.2)
  have hfail := forall₂_filter (p := fun w => !c.test_ w) (q := fun w => !i.test_ w) hmap
    (fun _ _ hab => by simp only [hab.2])
  rw [inspect_eq, inspect_eq]
  refine ⟨⟨d, hf, hd, harg, hco, hct, hcc, hio, hit, hic, hte, hp1, hp2, ?_, hmap1⟩,
    List.Forall₂.imp (fun _ _ hab => hab.1) hpass,
    List.Forall₂.imp (fun _ _ hab => hab.1) hfail⟩
  simp only
  rw [hcnt, hitems.length_eq]

theorem receive_rel (M n : Nat) (x y : List Int) (hxy : List.Forall₂ (ItemRel M) x y)
    (c i : Monkey) (h : MonkeyRel M n c i) : MonkeyRel M n (c.receive x) (i.receive y) := by
  obtain ⟨d, hf, hd, harg, hco, hct, hcc, hio, hit, hic, hte, hp1, hp2, hcnt, hitems⟩ := h
  exact ⟨d, hf, hd, harg, hco, hct, hcc, hio, hit, hic, hte, hp1, hp2, hcnt,
    List.rel_append hitems hxy⟩

theorem clear_rel (M n : Nat) (c i : Monkey) (h : MonkeyRel M n c i) :
    MonkeyRel M n c.clear_items i.clear_items := by
  obtain ⟨d, hf, hd, harg, hco, hct, hcc, hio, hit, hic, hte, hp1, hp2, hcnt, -⟩ := h
  exact ⟨d, hf, hd, harg, hco, hct, hcc, hio, hit, hic, hte, hp1, hp2, hcnt,
    List.Forall₂.nil⟩

/-- A turn taken in both runs keeps the two collections corresponding. -/
theorem turn_rel (M n : Nat) (hM : 0 < M) (hM2 : M < 2147483648) (cs is : List Monkey)
    (h : List.Forall₂ (MonkeyRel M n) cs is) (hn : cs.length = n) (k : Nat) (hk : k < n) :
    ∃ cs1 is1, turn cs k = some cs1 ∧ turn is k = some is1 ∧
      List.Forall₂ (MonkeyRel M n) cs1 is1 ∧ cs1.length = n := by
  obtain ⟨c, i, hc, hi, hci⟩ := forall₂_getElem? h k (by omega)
  have hl := h.length_eq
  obtain ⟨hi1, hi2, hi3⟩ := inspect_rel M n hM hM2 c i hci
  obtain ⟨d, -, -, -, -, -, -, -, -, -, hte, hp1, hp2, -, -⟩ := hci
  have hte1 : i.test_effect.1 = c.test_effect.1 := by
    simp only [Monkey.test_effect, hte]
  have hte2 : i.test_effect.2 = c.test_effect.2 := by
    simp only [Monkey.test_effect, hte]
  have hcp : c.test_effect.1 < cs.length := by rw [hn]; exact hp1
  have hcf : c.test_effect.2 < cs.length := by rw [hn]; exact hp2
  refine ⟨_, _, turn_eq cs k c hc hcp hcf,
    turn_eq is k i hi (by rw [hte1, ← hl]; exact hcp) (by rw [hte2, ← hl]; exact hcf),
    ?_, by simp [hn]⟩
  rw [hte1, hte2]
  apply forall₂_modify (fun a b hab => clear_rel M n a b hab)
  apply forall₂_modify (fun a b hab => receive_rel M n _ _ hi3 a b hab)
  apply forall₂_modify (fun a b hab => receive_rel M n _ _ hi2 a b hab)
  exact forall₂_modify (fun a b hab => (inspect_rel M n hM hM2 a b hab).1) h k

theorem turns_rel (M n : Nat) (hM : 0 < M) (hM2 : M < 2147483648) (idxs : List Nat) :
    ∀ cs is : List Monkey, List.Forall₂ (MonkeyRel M n) cs is → cs.length = n →
      (∀ k ∈ idxs, k < n) →
      ∃ cs1 is1, idxs.foldlM turn cs = some cs1 ∧ idxs.foldlM turn is = some is1 ∧
        List.Forall₂ (MonkeyRel M n) cs1 is1 ∧ cs1.length = n := by
  induction idxs with
  | nil => intro cs is h hn _; exact ⟨cs, is, rfl, rfl, h, hn⟩
  | cons k rest ih =>
      intro cs is h hn hk
      obtain ⟨cs1, is1, h1, h2, h3, h4⟩ :=
        turn_rel M n hM hM2 cs is h hn k (hk k (List.mem_cons_self _ _))
      obtain ⟨cs2, is2, g1, g2, g3, g4⟩ := ih cs1 is1 h3 h4
        (fun j hj => hk j (List.mem_cons_of_mem _ hj))
      refine ⟨cs2, is2, ?_, ?_, g3, g4⟩
      · rw [List.foldlM_cons, h1]; exact g1
      · rw [List.foldlM_cons, h2]; exact g2

theorem run_rounds_rel (M n : Nat) (hM : 0 < M) (hM2 : M < 2147483648) (rounds : Nat) :
    ∀ cs is : List Monkey, List.Forall₂ (MonkeyRel M n) cs is → cs.length = n →
      ∃ cs1 is1, run_rounds rounds cs = some cs1 ∧ run_rounds rounds is = some is1 ∧
        List.Forall₂ (MonkeyRel M n) cs1 is1 ∧ cs1.length = n := by
  induction rounds with
  | zero => intro cs is h hn; exact ⟨cs, is, rfl, rfl, h, hn⟩
  | succ r ih =>
      intro cs is h hn
      have hl := h.length_eq
      obtain ⟨cs1, is1, h1, h2, h3, h4⟩ := turns_rel M n hM hM2 (List.range n) cs is h hn
        (fun k hk => List.mem_range.1 hk)
      obtain ⟨cs2, is2, g1, g2, g3, g4⟩ := ih cs1 is1 h3 h4
      refine ⟨cs2, is2, ?_, ?_, g3, g4⟩
      · rw [run_rounds, round, hn, h1]; exact g1
      · rw [run_rounds, round, ← hl, hn, h2]; exact g2

theorem forall₂_counters {M n : Nat} {cs is : List Monkey}
    (h : List.Forall₂ (MonkeyRel M n) cs is) :
    cs.map Monkey.items_inspected = is.map Monkey.items_inspected ∧
      List.Forall₂
        (fun c i => List.Forall₂ (fun a b => a ≡ b [ZMOD (M : Int)]) c.items i.items) cs is := by
  induction h with
  | nil => exact ⟨rfl, List.Forall₂.nil⟩
  | cons hab _ ih =>
      obtain ⟨d, -, -, -, -, -, -, -, -, -, -, -, -, hcnt, hitems⟩ := hab
      refine ⟨?_, List.Forall₂.cons (List.Forall₂.imp (fun _ _ h => h.2.2) hitems) ih.2⟩
      rw [List.map_cons, List.map_cons, ih.1]
      simp only [Monkey.items_inspected, hcnt]

/-- The monkeys built by `main` correspond to the monkeys of the unbounded run. -/
theorem initial_rel (descriptions : List Description)
    (hdest : ∀ d ∈ descriptions,
      d.true_test_effect < descriptions.length ∧ d.false_test_effect < descriptions.length)
    (hpos : ∀ d ∈ descriptions, 0 < d.test_factor)
    (hprod : (descriptions.map (fun d => d.test_factor)).prod < 2147483648)
    (hitems : ∀ d ∈ descriptions, ∀ v ∈ d.items, 0 ≤ v ∧ v < 2147483648)
    (harg : ∀ d ∈ descriptions, ∀ v, d.argument = some v → 0 ≤ v ∧ v < 2147483648) :
    List.Forall₂
      (MonkeyRel (descriptions.map (fun d => d.test_factor)).prod descriptions.length)
      (install_cooldown (descriptions.map Monkey.create_from_description))
      (descriptions.map ideal_from_description) := by
  have hmap : (descriptions.map Monkey.create_from_description).map Monkey.test_factor =
      descriptions.map (fun d => d.test_factor) := by
    rw [List.map_map]; rfl
  have hs : supermod (descriptions.map Monkey.create_from_description) =
      (descriptions.map (fun d => d.test_factor)).prod := by
    rw [← hmap]
    apply supermod_eq_prod
    · intro m hm
      obtain ⟨d, hd, rfl⟩ := List.mem_map.1 hm
      exact hpos d hd
    · rw [hmap]; exact hprod
  unfold install_cooldown
  rw [hs, List.map_map, List.forall₂_map_left_iff, List.forall₂_map_right_iff,
    List.forall₂_same]
  intro d hd
  refine ⟨d, hpos d hd, List.dvd_prod (List.mem_map.2 ⟨d, hd, rfl⟩), harg d hd, rfl, rfl, rfl,
    rfl, rfl, rfl, rfl, (hdest d hd).1, (hdest d hd).2, rfl, ?_⟩
  show List.Forall₂ _ d.items d.items
  rw [List.forall₂_same]
  intro v hv
  exact ⟨(hitems d hd v hv).1, (hitems d hd v hv).2, Int.ModEq.refl _⟩

/-- C6 (common-modulus refinement): for monkeys with in-range destinations,
positive test factors whose product is below `2 ^ 31`, and non-negative starting
items and operands below `2 ^ 31`, after any number of rounds the run of `main`
with the common-modulus relief and the run with the identity relief over unbounded
integers both exist, have equal inspection counters, and hold queues of the same
shape whose items are congruent modulo the product of the test factors (every item
has been routed the same way). -/
theorem common_modulus_refinement (descriptions : List Description)
    (hdest : ∀ d ∈ descriptions,
      d.true_test_effect < descriptions.length ∧ d.false_test_effect < descriptions.length)
    (hpos : ∀ d ∈ descriptions, 0 < d.test_factor)
    (hprod : (descriptions.map (fun d => d.test_factor)).prod < 2147483648)
    (hitems : ∀ d ∈ descriptions, ∀ v ∈ d.items, 0 ≤ v ∧ v < 2147483648)
    (harg : ∀ d ∈ descriptions, ∀ v, d.argument = some v → 0 ≤ v ∧ v < 2147483648)
    (rounds : Nat) :
    ∃ code ideal,
      run_rounds rounds
          (install_cooldown (descriptions.map Monkey.create_from_description)) = some code ∧
        run_rounds rounds (descriptions.map ideal_from_description) = some ideal ∧
        code.map Monkey.items_inspected = ideal.map Monkey.items_inspected ∧
        List.Forall₂
          (fun c i =>
            List.Forall₂
              (fun a b =>
                a ≡ b [ZMOD (((descriptions.map (fun d => d.test_factor)).prod : Nat) : Int)])
              c.items i.items)
          code ideal := by
  have h0 := initial_rel descriptions hdest hpos hprod hitems harg
  have hM : 0 < (descriptions.map (fun d => d.test_factor)).prod :=
    List.prod_pos (by
      intro a ha
      obtain ⟨d, hd, rfl⟩ := List.mem_map.1 ha
      exact hpos d hd)
  obtain ⟨code, ideal, h1, h2, h3, -⟩ := run_rounds_rel _ descriptions.length hM hprod rounds
    _ _ h0 (by simp [install_cooldown])
  exact ⟨code, ideal, h1, h2, (forall₂_counters h3).1, (forall₂_counters h3).2⟩

set_option maxRecDepth 100000 in
/-- C6 on four monkeys with test factors 23, 19, 13, 17 and 20 rounds: both runs
exist and their inspection counters agree. -/
theorem common_modulus_refinement_witness :
    ∃ code ideal,
      run_rounds 20
          (install_cooldown (sample_descriptions.map Monkey.create_from_description)) =
          some code ∧
        run_rounds 20 (sample_descriptions.map ideal_from_description) = some ideal ∧
        code.map Monkey.items_inspected = ideal.map Monkey.items_inspected := by
  obtain ⟨code, ideal, h1, h2, h3, -⟩ := common_modulus_refinement sample_descriptions
    (by decide) (by decide) (by decide) (by decide)
    (by
      intro d hd v hv
      simp only [sample_descriptions, List.mem_cons, List.mem_singleton, List.not_mem_nil,
        or_false] at hd
      rcases hd with rfl | rfl | rfl | rfl <;> simp only [Option.some.injEq] at hv <;>
        first
        | (subst hv; decide)
        | exact absurd hv (by simp))
    20
  exact ⟨code, ideal, h1, h2, h3⟩

end Day11

namespace Day11

theorem wrap32_of_is_int32 (z : Int) (h : is_int32 z) : wrap32 z = z := by
  unfold is_int32 at h
  unfold wrap32
  omega

theorem wrap64_of_is_int64 (z : Int) (h : is_int64 z) : wrap64 z = z := by
  unfold is_int64 at h
  unfold wrap64
  omega

/-- C21, amended (default relief): for every item value `v` in the range of `int`,
the relief function of a freshly constructed monkey returns `v / 3` rounded toward
zero, which is `floor(v / 3)` when `v` is not negative. -/
theorem default_relief (d : Description) (v : Int) (h : is_int32 v) :
    (Monkey.create_from_description d).cooldown_ v = Int.tdiv v 3 ∧
      (0 ≤ v → (Monkey.create_from_description d).cooldown_ v = Int.fdiv v 3) := by
  have e : (Monkey.create_from_description d).cooldown_ v = Int.tdiv (wrap32 v) 3 := rfl
  rw [e, wrap32_of_is_int32 v h]
  refine ⟨rfl, fun h0 => ?_⟩
  rw [Int.fdiv_eq_tdiv h0 (by decide)]

/-- C21 on the item 1501 of the first sample monkey after its multiplication: the
relief gives 500. -/
theorem default_relief_witness :
    is_int32 1501 ∧
      ((Monkey.create_from_description
          { id := 0, items := [79], op_token := OpToken.times, argument := some 19,
            test_factor := 23, true_test_effect := 1, false_test_effect := 1 }).cooldown_ 1501
          = Int.tdiv 1501 3 ∧
        ((0 : Int) ≤ 1501 →
          (Monkey.create_from_description
            { id := 0, items := [79], op_token := OpToken.times, argument := some 19,
              test_factor := 23, true_test_effect := 1, false_test_effect := 1 }).cooldown_ 1501
            = Int.fdiv 1501 3)) :=
  ⟨by decide, default_relief _ 1501 (by decide)⟩

/-- C21 as stated fails for a negative value and for a value above the range of
`int`: the relief maps `-1` to `0` (the floor is `-1`), and it maps `2 ^ 31` to
`-715827882` (the floor is `715827882`) because the lambda takes an `int`. -/
theorem default_relief_not_floor :
    (Monkey.create_from_description
        { id := 0, items := [79], op_token := OpToken.times, argument := some 19,
          test_factor := 23, true_test_effect := 1, false_test_effect := 1 }).cooldown_ (-1)
        = 0 ∧
      Int.fdiv (-1) 3 = -1 ∧
      (Monkey.create_from_description
        { id := 0, items := [79], op_token := OpToken.times, argument := some 19,
          test_factor := 23, true_test_effect := 1, false_test_effect := 1 }).cooldown_
          2147483648 = -715827882 ∧
      Int.fdiv 2147483648 3 = 715827882 := by
  decide

/-- C23, amended (transform variants): the operation built by
`create_from_description` maps an item `v` to `v + k`, `v + v`, `v * k` or `v * v`
(operator `+` or `*`, literal operand `k` or self-reference) whenever that value is
one of `int64_t`. -/
theorem transform_variants (d : Description) (v : Int) :
    (∀ k, d.op_token = OpToken.plus → d.argument = some k → is_int64 (v + k) →
      (Monkey.create_from_description d).operation_ v = v + k) ∧
    (d.op_token = OpToken.plus → d.argument = none → is_int64 (v + v) →
      (Monkey.create_from_description d).operation_ v = v + v) ∧
    (∀ k, d.op_token = OpToken.times → d.argument = some k → is_int64 (v * k) →
      (Monkey.create_from_description d).operation_ v = v * k) ∧
    (d.op_token = OpToken.times → d.argument = none → is_int64 (v * v) →
      (Monkey.create_from_description d).operation_ v = v * v) := by
  have e : (Monkey.create_from_description d).operation_ =
      Monkey.make_operation d.op_token d.argument := rfl
  rw [e]
  refine ⟨fun k h1 h2 h3 => ?_, fun h1 h2 h3 => ?_, fun k h1 h2 h3 => ?_, fun h1 h2 h3 => ?_⟩ <;>
    rw [h1, h2] <;> exact wrap64_of_is_int64 _ h3

/-- C23 on the sample monkeys: `79 * 19 = 1501`, `54 + 6 = 60` and
`79 * 79 = 6241`. -/
theorem transform_variants_witness :
    (Monkey.create_from_description
        { id := 0, items := [79, 98], op_token := OpToken.times, argument := some 19,
          test_factor := 23, true_test_effect := 2, false_test_effect := 3 }).operation_ 79
        = 79 * 19 ∧
      (Monkey.create_from_description
        { id := 2, items := [79, 60, 97], op_token := OpToken.times, argument := none,
          test_factor := 13, true_test_effect := 1, false_test_effect := 3 }).operation_ 79
        = 79 * 79 :=
  ⟨(transform_variants
      { id := 0, items := [79, 98], op_token := OpToken.times, argument := some 19,
        test_factor := 23, true_test_effect := 2, false_test_effect := 3 } 79).2.2.1
      19 rfl rfl (by decide),
    (transform_variants
      { id := 2, items := [79, 60, 97], op_token := OpToken.times, argument := none,
        test_factor := 13, true_test_effect := 1, false_test_effect := 3 } 79).2.2.2
      rfl rfl (by decide)⟩

/-- C23 as stated fails where the `int64_t` result overflows: the square of
`3037000500` is `9223372037000250000`, the operation `old * old` yields
`-9223372036709301616`. -/
theorem transform_overflow :
    (Monkey.create_from_description
        { id := 2, items := [3037000500], op_token := OpToken.times, argument := none,
          test_factor := 13, true_test_effect := 1, false_test_effect := 3 }).operation_
        3037000500 = -9223372036709301616 ∧
      (3037000500 : Int) * 3037000500 = 9223372037000250000 := by
  decide

/-- The monkey at a place after a turn, in terms of the monkey there before. -/
theorem turn_getElem? (ms : List Monkey) (i : Nat) (monkey : Monkey) (h : ms[i]? = some monkey)
    (hp : monkey.test_effect.1 < ms.length) (hf : monkey.test_effect.2 < ms.length)
    (j : Nat) (mj : Monkey) (hj : ms[j]? = some mj) :
    ∃ ms1, turn ms i = some ms1 ∧ ms1.length = ms.length ∧
      ms1[j]? = some
        ((fun a => if i = j then a.clear_items else a)
          ((fun a => if monkey.test_effect.2 = j then a.receive monkey.inspect.2.2 else a)
            ((fun a => if monkey.test_effect.1 = j then a.receive monkey.inspect.2.1 else a)
              ((fun a => if i = j then a.inspect.1 else a) mj)))) := by
  refine ⟨_, turn_eq ms i monkey h hp hf, by simp only [List.length_modify], ?_⟩
  simp only [List.getElem?_modify, hj, Option.map_some', Functor.map]

theorem inspect_frame (m : Monkey) :
    m.inspect.1.operation_ = m.operation_ ∧ m.inspect.1.test_factor_ = m.test_factor_ ∧
      m.inspect.1.test_effect_ = m.test_effect_ ∧ m.inspect.1.test_ = m.test_ ∧
      m.inspect.1.cooldown_ = m.cooldown_ ∧ m.inspect.1.id_ = m.id_ := by
  rw [inspect_eq]
  exact ⟨rfl, rfl, rfl, rfl, rfl, rfl⟩

/-- C30 (turn frame): for every monkey collection and acting monkey with in-range
destinations, one turn of the main loop leaves unchanged the queue of every monkey
other than the acting monkey and its two destinations, the `items_inspected`
counter of every monkey other than the acting one, and the operation, test factor,
destinations (and test, relief and id) of every monkey. -/
theorem turn_frame (ms : List Monkey) (i : Nat) (monkey : Monkey) (h : ms[i]? = some monkey)
    (hp : monkey.test_effect.1 < ms.length) (hf : monkey.test_effect.2 < ms.length) :
    ∃ ms1, turn ms i = some ms1 ∧ ms1.length = ms.length ∧
      ∀ (j : Nat) (mj : Monkey), ms[j]? = some mj →
        ∃ mj1, ms1[j]? = some mj1 ∧
          mj1.operation_ = mj.operation_ ∧ mj1.test_factor = mj.test_factor ∧
          mj1.test_effect = mj.test_effect ∧ mj1.test_ = mj.test_ ∧
          mj1.cooldown_ = mj.cooldown_ ∧ mj1.id_ = mj.id_ ∧
          (j ≠ i → mj1.items_inspected = mj.items_inspected) ∧
          (j ≠ i → j ≠ monkey.test_effect.1 → j ≠ monkey.test_effect.2 →
            mj1.items = mj.items) := by
  refine ⟨_, turn_eq ms i monkey h hp hf, by simp only [List.length_modify], ?_⟩
  intro j mj hj
  obtain ⟨ms1, h1, -, h2⟩ := turn_getElem? ms i monkey h hp hf j mj hj
  rw [turn_eq ms i monkey h hp hf, Option.some.injEq] at h1
  rw [h1]
  refine ⟨_, h2, ?_⟩
  obtain ⟨f1, f2, f3, f4, f5, f6⟩ := inspect_frame mj
  simp only [Monkey.test_factor, Monkey.test_effect, Monkey.items_inspected, Monkey.items]
  refine ⟨?_, ?_, ?_, ?_, ?_, ?_, ?_, ?_⟩
  · split_ifs <;> simp [Monkey.clear_items, Monkey.receive, f1]
  · split_ifs <;> simp [Monkey.clear_items, Monkey.receive, f2]
  · split_ifs <;> simp [Monkey.clear_items, Monkey.receive, f3]
  · split_ifs <;> simp [Monkey.clear_items, Monkey.receive, f4]
  · split_ifs <;> simp [Monkey.clear_items, Monkey.receive, f5]
  · split_ifs <;> simp [Monkey.clear_items, Monkey.receive, f6]
  · intro hji
    rw [if_neg (Ne.symm hji), if_neg (Ne.symm hji)]
    split_ifs <;> simp [Monkey.receive]
  · intro hji hjp hjf
    rw [if_neg (Ne.symm hji), if_neg (Ne.symm hji), if_neg (Ne.symm hjp),
      if_neg (Ne.symm hjf)]

/-- C30 on the four sample monkeys: the turn of monkey 0, which throws to monkeys
2 and 3, leaves monkey 1 with its queue and its counter. -/
theorem turn_frame_witness :
    ∃ ms1 m1, turn (sample_descriptions.map Monkey.create_from_description) 0 = some ms1 ∧
      ms1[1]? = some m1 ∧ m1.items = [54, 65, 75, 74] ∧ m1.items_inspected = 0 := by
  obtain ⟨ms1, h1, -, hall⟩ :=
    turn_frame (sample_descriptions.map Monkey.create_from_description) 0 _ rfl
      (by decide) (by decide)
  obtain ⟨m1, e, -, -, -, -, -, -, hc, hq⟩ := hall 1 _ rfl
  exact ⟨ms1, m1, h1, e, (hq (by decide) (by decide) (by decide)).trans rfl,
    (hc (by decide)).trans rfl⟩

/-- The operation applied to a non-negative item below `2 ^ 31` with a non-negative
operand below `2 ^ 31` gives a non-negative value. -/
theorem make_operation_nonneg (op_token : OpToken) (argument : Option Int) (v : Int)
    (hv : 0 ≤ v ∧ v < 2147483648)
    (harg : ∀ k, argument = some k → 0 ≤ k ∧ k < 2147483648) :
    0 ≤ Monkey.make_operation op_token argument v := by
  have hsq : ∀ a b : Int, 0 ≤ a → a < 2147483648 → 0 ≤ b → b < 2147483648 →
      0 ≤ a * b ∧ a * b ≤ 2147483647 * 2147483647 := by
    intro a b a0 a1 b0 b1
    exact ⟨mul_nonneg a0 b0, mul_le_mul (by omega) (by omega) b0 (by norm_num)⟩
  cases op_token <;> cases argument with
  | none =>
      simp only [Monkey.make_operation]
      first
      | (unfold wrap64; omega)
      | (have h := hsq v v hv.1 hv.2 hv.1 hv.2
         generalize v * v = p at h
         unfold wrap64; omega)
  | some k =>
      have hk := harg k rfl
      simp only [Monkey.make_operation]
      first
      | (unfold wrap64; omega)
      | (have h := hsq v k hv.1 hv.2 hk.1 hk.2
         generalize v * k = p at h
         unfold wrap64; omega)

/-- Every value that `inspect` returns is in `[0, M)` under the common-modulus
relief, for small non-negative items and operand. -/
theorem inspect_bounded (m : Monkey) (M : Nat) (op_token : OpToken) (argument : Option Int)
    (hop : m.operation_ = Monkey.make_operation op_token argument)
    (hcd : m.cooldown_ = supermod_cooldown M) (hM : 0 < wrap64 M)
    (hitems : ∀ v ∈ m.items_, 0 ≤ v ∧ v < 2147483648)
    (harg : ∀ k, argument = some k → 0 ≤ k ∧ k < 2147483648) :
    ∀ w ∈ m.inspect.2.1 ++ m.inspect.2.2, 0 ≤ w ∧ w < wrap64 M := by
  intro w hw
  rw [inspect_eq] at hw
  have hw2 : w ∈ m.items_.map (fun v => m.cooldown_ (m.operation_ v)) := by
    rcases List.mem_append.1 hw with h | h
    · exact (List.mem_filter.1 h).1
    · exact (List.mem_filter.1 h).1
  obtain ⟨v, hv, rfl⟩ := List.mem_map.1 hw2
  rw [hop, hcd]
  unfold supermod_cooldown
  exact ⟨Int.tmod_nonneg _ (make_operation_nonneg op_token argument v (hitems v hv) harg),
    Int.tmod_lt_of_pos _ hM⟩

theorem mem_received (mj : Monkey) (pass_items fail_items : List Int) (bp bf : Prop)
    [Decidable bp] [Decidable bf] (w : Int)
    (hw : w ∈ ((fun a : Monkey => if bf then a.receive fail_items else a)
      ((fun a : Monkey => if bp then a.receive pass_items else a) mj)).items) :
    w ∈ mj.items ∨ w ∈ pass_items ∨ w ∈ fail_items := by
  by_cases hp : bp <;> by_cases hf : bf <;>
    simp only [hp, hf, if_true, if_false, Monkey.items, Monkey.receive,
      List.mem_append] at hw ⊢ <;>
    tauto

/-- C24, amended (bounded values): once the common-modulus relief with modulus
`M > 0` is installed, for every monkey whose queue items are non-negative and below
`2 ^ 31` and whose operand is non-negative (and, as an `int`, below `2 ^ 31`), every
value returned by `inspect` lies in `0 ≤ value < M`; hence after the monkey's turn
every item in any queue is in that range or was in the same queue before the
turn. -/
theorem bounded_values (m : Monkey) (M : Nat) (op_token : OpToken) (argument : Option Int)
    (hop : m.operation_ = Monkey.make_operation op_token argument)
    (hcd : m.cooldown_ = supermod_cooldown M) (hM : 0 < wrap64 M)
    (hitems : ∀ v ∈ m.items_, 0 ≤ v ∧ v < 2147483648)
    (harg : ∀ k, argument = some k → 0 ≤ k ∧ k < 2147483648) :
    (∀ w ∈ m.inspect.2.1 ++ m.inspect.2.2, 0 ≤ w ∧ w < wrap64 M) ∧
      ∀ (ms ms1 : List Monkey) (i : Nat), ms[i]? = some m → turn ms i = some ms1 →
        ∀ (j : Nat) (mj1 : Monkey), ms1[j]? = some mj1 → ∀ w ∈ mj1.items,
          (0 ≤ w ∧ w < wrap64 M) ∨ ∃ mj, ms[j]? = some mj ∧ w ∈ mj.items := by
  have hb := inspect_bounded m M op_token argument hop hcd hM hitems harg
  refine ⟨hb, ?_⟩
  intro ms ms1 i hi ht j mj1 hj w hw
  obtain ⟨monkey, hm, hp, hf⟩ := turn_some ms ms1 i ht
  rw [hi, Option.some.injEq] at hm
  subst hm
  have hjlt : j < ms.length := by
    have h1 := (List.getElem?_eq_some_iff.1 hj).1
    rw [turn_eq ms i m hi hp hf, Option.some.injEq] at ht
    rw [← ht] at h1
    simpa only [List.length_modify] using h1
  obtain ⟨ms2, h1, -, h2⟩ := turn_getElem? ms i m hi hp hf j ms[j] (List.getElem?_eq_getElem hjlt)
  rw [ht, Option.some.injEq] at h1
  subst h1
  rw [hj, Option.some.injEq] at h2
  subst h2
  by_cases hij : i = j
  · simp [hij, Monkey.clear_items, Monkey.items] at hw
  · simp only [hij, if_false] at hw
    have hcases : w ∈ ms[j].items ∨ w ∈ m.inspect.2.1 ∨ w ∈ m.inspect.2.2 := by
      exact mem_received _ _ _ _ _ w hw
    rcases hcases with h | h | h
    · exact Or.inr ⟨ms[j], List.getElem?_eq_getElem hjlt, h⟩
    · exact Or.inl (hb w (List.mem_append_left _ h))
    · exact Or.inl (hb w (List.mem_append_right _ h))

set_option maxRecDepth 100000 in
/-- C24 on the first sample monkey under the relief with modulus 96577: the
values returned by `inspect` for the items 79 and 98 lie in `[0, 96577)`. -/
theorem bounded_values_witness :
    (0 : Int) < wrap64 (96577 : Nat) ∧
      ∀ w ∈
        ({ Monkey.create_from_description
            { id := 0, items := [79, 98], op_token := OpToken.times, argument := some 19,
              test_factor := 23, true_test_effect := 2, false_test_effect := 3 } with
            cooldown_ := supermod_cooldown 96577 } : Monkey).inspect.2.1 ++
        ({ Monkey.create_from_description
            { id := 0, items := [79, 98], op_token := OpToken.times, argument := some 19,
              test_factor := 23, true_test_effect := 2, false_test_effect := 3 } with
            cooldown_ := supermod_cooldown 96577 } : Monkey).inspect.2.2,
        0 ≤ w ∧ w < wrap64 (96577 : Nat) :=
  ⟨by decide,
    (bounded_values
      ({ Monkey.create_from_description
          { id := 0, items := [79, 98], op_token := OpToken.times, argument := some 19,
            test_factor := 23, true_test_effect := 2, false_test_effect := 3 } with
          cooldown_ := supermod_cooldown 96577 } : Monkey)
      96577 OpToken.times (some 19) rfl rfl (by decide) (by decide)
      (by
        intro k hk
        rw [Option.some.injEq] at hk
        subst hk
        decide)).1⟩

set_option maxRecDepth 100000 in
/-- C24 as stated fails in two ways. A monkey with the non-negative item
`3037000500` and the operation `old * old` returns `-2` from `inspect` under the
relief with modulus 13, because the square overflows `int64_t`. And after the turn
of monkey 0 under the relief with modulus 6, monkey 1 still holds its starting item
79, which no relief has been applied to. -/
theorem bounded_values_fails :
    ((install_cooldown
        [Monkey.create_from_description
          { id := 0, items := [3037000500], op_token := OpToken.times, argument := none,
            test_factor := 13, true_test_effect := 0, false_test_effect := 0 }]).map
        (fun m => (m.cooldown_ 20, m.inspect.2.1, m.inspect.2.2)) = [(7, [], [-2])]) ∧
      ((install_cooldown
        [Monkey.create_from_description
          { id := 0, items := [1], op_token := OpToken.plus, argument := some 1,
            test_factor := 2, true_test_effect := 1, false_test_effect := 1 },
         Monkey.create_from_description
          { id := 1, items := [79], op_token := OpToken.plus, argument := some 1,
            test_factor := 3, true_test_effect := 0, false_test_effect := 0 }]).map
        (fun m => m.cooldown_ 20) = [2, 2]) ∧
      ((turn
        (install_cooldown
          [Monkey.create_from_description
            { id := 0, items := [1], op_token := OpToken.plus, argument := some 1,
              test_factor := 2, true_test_effect := 1, false_test_effect := 1 },
           Monkey.create_from_description
            { id := 1, items := [79], op_token := OpToken.plus, argument := some 1,
              test_factor := 3, true_test_effect := 0, false_test_effect := 0 }]) 0).map
        (List.map Monkey.items) = some [[], [79, 2]]) := by
  decide

theorem foldl_max_ge (rest : List Nat) :
    ∀ a : Nat, a ≤ rest.foldl max a ∧ ∀ x ∈ rest, x ≤ rest.foldl max a := by
  induction rest with
  | nil => intro a; simp
  | cons b rest ih =>
      intro a
      obtain ⟨h1, h2⟩ := ih (max a b)
      rw [List.foldl_cons]
      refine ⟨le_trans (le_max_left a b) h1, ?_⟩
      intro x hx
      rcases List.mem_cons.1 hx with rfl | hx
      · exact le_trans (le_max_right a x) h1
      · exact h2 x hx

theorem foldl_max_mem (rest : List Nat) :
    ∀ a : Nat, rest.foldl max a ∈ a :: rest := by
  induction rest with
  | nil => intro a; simp
  | cons b rest ih =>
      intro a
      rw [List.foldl_cons]
      rcases List.mem_cons.1 (ih (max a b)) with h | h
      · rw [h]
        rcases max_choice a b with e | e <;> rw [e] <;> simp
      · exact List.mem_cons_of_mem _ (List.mem_cons_of_mem _ h)

/-- The greatest value found by the selection is the head of every descending
arrangement of the same values. -/
theorem greatest_eq_head (a : Nat) (rest : List Nat) (h : Nat) (t : List Nat)
    (hp : List.Perm (a :: rest) (h :: t)) (hs : ∀ x ∈ t, x ≤ h) :
    rest.foldl max a = h := by
  apply le_antisymm
  · rcases List.mem_cons.1 (hp.subset (foldl_max_mem rest a)) with e | e
    · exact le_of_eq e
    · exact hs _ e
  · rcases List.mem_cons.1 (hp.symm.subset (List.mem_cons_self h t)) with e | e
    · rw [e]; exact (foldl_max_ge rest a).1
    · exact (foldl_max_ge rest a).2 h e

/-- The first two places after the partial sort are the first two values of the
descending sort. -/
theorem partial_sort_greater_two (l : List Nat) (h1 h2 : Nat) (t : List Nat)
    (hp : List.Perm l (h1 :: h2 :: t)) (hs : List.Sorted (· ≥ ·) (h1 :: h2 :: t)) :
    (partial_sort_greater 2 l).getD 0 0 = h1 ∧ (partial_sort_greater 2 l).getD 1 0 = h2 := by
  rw [List.Sorted, List.pairwise_cons, List.pairwise_cons] at hs
  obtain ⟨hs1, hs2, -⟩ := hs
  cases l with
  | nil => simpa using hp.length_eq
  | cons a rest =>
      have e1 : rest.foldl max a = h1 := greatest_eq_head a rest h1 (h2 :: t) hp hs1
      have hp2 : List.Perm ((a :: rest).erase h1) (h2 :: t) := by
        have := hp.erase h1
        rwa [List.erase_cons_head] at this
      simp only [partial_sort_greater, e1]
      cases hl : (a :: rest).erase h1 with
      | nil => rw [hl] at hp2; simpa using hp2.length_eq
      | cons b rest2 =>
          rw [hl] at hp2
          have e2 : rest2.foldl max b = h2 := greatest_eq_head b rest2 h2 t hp2 hs2
          simp only [partial_sort_greater, e2]
          exact ⟨rfl, rfl⟩

/-- C22, amended (monkey business): for every list of at least two monkeys, the
value computed by `show_monkey_business` (`show_all = false`) is the product of the
largest and the second-largest `items_inspected` counters (the first two values of
the counters sorted in descending order, so a tie for the maximum gives the maximum
squared), reduced modulo `2 ^ 64`; it is the product itself when that is below
`2 ^ 64`. -/
theorem monkey_business (monkeys : List Monkey) (h : 2 ≤ monkeys.length) :
    show_monkey_business monkeys =
        some ((((monkeys.map Monkey.items_inspected).insertionSort (· ≥ ·)).getD 0 0 *
          ((monkeys.map Monkey.items_inspected).insertionSort (· ≥ ·)).getD 1 0) %
            18446744073709551616) ∧
      ((((monkeys.map Monkey.items_inspected).insertionSort (· ≥ ·)).getD 0 0 *
          ((monkeys.map Monkey.items_inspected).insertionSort (· ≥ ·)).getD 1 0) <
            18446744073709551616 →
        show_monkey_business monkeys =
          some (((monkeys.map Monkey.items_inspected).insertionSort (· ≥ ·)).getD 0 0 *
            ((monkeys.map Monkey.items_inspected).insertionSort (· ≥ ·)).getD 1 0)) := by
  have hperm := List.perm_insertionSort (· ≥ ·) (monkeys.map Monkey.items_inspected)
  have hsorted := List.sorted_insertionSort (· ≥ ·) (monkeys.map Monkey.items_inspected)
  have hlen : 2 ≤ (monkeys.map Monkey.items_inspected).length := by
    rw [List.length_map]; exact h
  generalize (monkeys.map Monkey.items_inspected).insertionSort (· ≥ ·) = s at hperm hsorted ⊢
  have hs : ∃ h1 h2 t, s = h1 :: h2 :: t := by
    have hl := hperm.length_eq
    match s, hl with
    | [], hl => simp at hl; omega
    | [_], hl => simp at hl; omega
    | h1 :: h2 :: t, _ => exact ⟨h1, h2, t, rfl⟩
  obtain ⟨h1, h2, t, rfl⟩ := hs
  obtain ⟨e1, e2⟩ := partial_sort_greater_two _ h1 h2 t hperm.symm hsorted
  have hmain : show_monkey_business monkeys = some ((h1 * h2) % 18446744073709551616) := by
    unfold show_monkey_business
    simp only [hlen, if_true, e1, e2]
  simp only [List.getD_cons_zero, List.getD_cons_succ]
  refine ⟨hmain, fun hlt => ?_⟩
  rw [hmain, Nat.mod_eq_of_lt hlt]

set_option maxRecDepth 100000 in
/-- C22 on three monkeys with counters 5, 9 and 9: two monkeys are tied for the
maximum and the value is `9 * 9 = 81`. -/
theorem monkey_business_witness :
    2 ≤ ((sample_descriptions.take 3).zipWith
          (fun d c => ({ Monkey.create_from_description d with items_inspected_ := c } : Monkey))
          [5, 9, 9]).length ∧
      show_monkey_business
        ((sample_descriptions.take 3).zipWith
          (fun d c => ({ Monkey.create_from_description d with items_inspected_ := c } : Monkey))
          [5, 9, 9]) = some 81 :=
  ⟨by decide, (monkey_business _ (by decide)).1.trans (by decide)⟩

set_option maxRecDepth 100000 in
/-- C22 as stated fails when the product does not fit `std::size_t`: for two
monkeys that have each inspected `2 ^ 32` items the value is 0, the product of the
counters is `2 ^ 64`. -/
theorem monkey_business_overflow :
    show_monkey_business
        ((sample_descriptions.take 2).zipWith
          (fun d c => ({ Monkey.create_from_description d with items_inspected_ := c } : Monkey))
          [4294967296, 4294967296]) = some 0 ∧
      4294967296 * 4294967296 = 18446744073709551616 := by
  decide

end Day11

namespace Day4

/-- C32 (interval overlap): for all assignments `a` and `b` with `start ≤ end`,
`a.overlaps(b)` holds exactly when some section number lies in both ranges;
`overlaps` is symmetric, `a.contains(b)` implies `a.overlaps(b)`, and the
`any_overlap` counter counts a pair exactly when its assignments overlap. -/
theorem overlaps_iff (a b : Assignment) (ha : a.start_ ≤ a.end_) (hb : b.start_ ≤ b.end_) :
    (a.overlaps b = true ↔
        ∃ n : Nat, (a.start_ ≤ n ∧ n ≤ a.end_) ∧ (b.start_ ≤ n ∧ n ≤ b.end_)) ∧
      a.overlaps b = b.overlaps a ∧
      (a.contains b = true → a.overlaps b = true) ∧
      ∀ counter : OverlapCounter OverlapPolicy.any_overlap,
        (counter.call (a, b)).count = counter.count + if a.overlaps b then 1 else 0 := by
  have hsymm : a.overlaps b = b.overlaps a := by
    rw [Bool.eq_iff_iff]
    simp only [Assignment.overlaps, Assignment.start, Bool.and_eq_true, decide_eq_true_eq]
    omega
  refine ⟨?_, hsymm, ?_, ?_⟩
  · simp only [Assignment.overlaps, Assignment.start, Bool.and_eq_true, decide_eq_true_eq]
    constructor
    · intro h
      exact ⟨max a.start_ b.start_, by omega⟩
    · rintro ⟨n, hn⟩
      omega
  · simp only [Assignment.overlaps, Assignment.contains, Assignment.start, Bool.and_eq_true,
      decide_eq_true_eq]
    omega
  · intro counter
    simp only [OverlapCounter.call, OverlapCounter.count, ← hsymm, Bool.or_self]
    split_ifs <;> rfl

/-- C32 on the pairs `5-7, 7-9` (section 7 is shared) and `2-8, 3-7`. -/
theorem overlaps_iff_witness :
    (Assignment.overlaps { start_ := 5, end_ := 7 } { start_ := 7, end_ := 9 } = true ↔
        ∃ n : Nat, ((5 : Nat) ≤ n ∧ n ≤ (7 : Nat)) ∧ ((7 : Nat) ≤ n ∧ n ≤ (9 : Nat))) ∧
      (Assignment.contains { start_ := 2, end_ := 8 } { start_ := 3, end_ := 7 } = true →
        Assignment.overlaps { start_ := 2, end_ := 8 } { start_ := 3, end_ := 7 } = true) :=
  ⟨(overlaps_iff { start_ := 5, end_ := 7 } { start_ := 7, end_ := 9 }
      (by decide) (by decide)).1,
    (overlaps_iff { start_ := 2, end_ := 8 } { start_ := 3, end_ := 7 }
      (by decide) (by decide)).2.2.1⟩

end Day4

namespace Day5

theorem execute_single_step_spec (instruction : Instruction) (all_stacks : List (List Char))
    (top : Char) (rest d : List Char) (hne : instruction.src ≠ instruction.dst)
    (hs : all_stacks[instruction.src]? = some (top :: rest))
    (hd : all_stacks[instruction.dst]? = some d) :
    ∃ st, execute_single_step instruction all_stacks = some st ∧
      st.length = all_stacks.length ∧ st[instruction.src]? = some rest ∧
      st[instruction.dst]? = some (top :: d) ∧
      ∀ k, k ≠ instruction.src → k ≠ instruction.dst → st[k]? = all_stacks[k]? := by
  have hdl : instruction.dst < all_stacks.length := (List.getElem?_eq_some_iff.1 hd).1
  refine ⟨_, by rw [execute_single_step, if_pos hdl, hs], ?_, ?_, ?_, ?_⟩
  · simp only [List.length_modify]
  · rw [List.getElem?_modify_eq, List.getElem?_modify_ne _ _ (Ne.symm hne), hs]
    rfl
  · rw [List.getElem?_modify_ne _ _ hne, List.getElem?_modify_eq, hd]
    rfl
  · intro k h1 h2
    rw [List.getElem?_modify_ne _ _ (Ne.symm h1), List.getElem?_modify_ne _ _ (Ne.symm h2)]

theorem execute_single_loop_spec (instruction : Instruction)
    (hne : instruction.src ≠ instruction.dst) :
    ∀ (n : Nat) (all_stacks : List (List Char)) (s d : List Char),
      all_stacks[instruction.src]? = some s → all_stacks[instruction.dst]? = some d →
      n ≤ s.length →
      ∃ st, execute_single_loop instruction n all_stacks = some st ∧
        st.length = all_stacks.length ∧ st[instruction.src]? = some (s.drop n) ∧
        st[instruction.dst]? = some ((s.take n).reverse ++ d) ∧
        ∀ k, k ≠ instruction.src → k ≠ instruction.dst → st[k]? = all_stacks[k]? := by
  intro n
  induction n with
  | zero =>
      intro all_stacks s d hs hd _
      exact ⟨all_stacks, rfl, rfl, by simpa using hs, by simpa using hd, fun _ _ _ => rfl⟩
  | succ n ih =>
      intro all_stacks s d hs hd hn
      cases s with
      | nil => simp at hn
      | cons top rest =>
          obtain ⟨st1, h1, hl1, hs1, hd1, ho1⟩ :=
            execute_single_step_spec instruction all_stacks top rest d hne hs hd
          obtain ⟨st, h2, hl2, hs2, hd2, ho2⟩ := ih st1 rest (top :: d) hs1 hd1
            (by simpa using hn)
          refine ⟨st, ?_, hl2.trans hl1, by simpa using hs2, ?_, ?_⟩
          · rw [execute_single_loop, h1]
            exact h2
          · rw [hd2]
            simp
          · intro k k1 k2
            rw [ho2 k k1 k2, ho1 k k1 k2]

theorem fill_tmp_stack_spec (instruction : Instruction) :
    ∀ (n : Nat) (all_stacks : List (List Char)) (tmp_stack s : List Char),
      all_stacks[instruction.src]? = some s → n ≤ s.length →
      ∃ st, fill_tmp_stack instruction n (all_stacks, tmp_stack) =
          some (st, (s.take n).reverse ++ tmp_stack) ∧
        st.length = all_stacks.length ∧ st[instruction.src]? = some (s.drop n) ∧
        ∀ k, k ≠ instruction.src → st[k]? = all_stacks[k]? := by
  intro n
  induction n with
  | zero =>
      intro all_stacks tmp_stack s hs _
      exact ⟨all_stacks, by simp [fill_tmp_stack], rfl, by simpa using hs, fun _ _ => rfl⟩
  | succ n ih =>
      intro all_stacks tmp_stack s hs hn
      cases s with
      | nil => simp at hn
      | cons top rest =>
          have hs1 : (all_stacks.modify List.tail instruction.src)[instruction.src]? =
              some rest := by
            rw [List.getElem?_modify_eq, hs]
            rfl
          obtain ⟨st, h2, hl2, hs2, ho2⟩ :=
            ih (all_stacks.modify List.tail instruction.src) (top :: tmp_stack) rest hs1
              (by simpa using hn)
          refine ⟨st, ?_, by rw [hl2, List.length_modify], by simpa using hs2, ?_⟩
          · rw [fill_tmp_stack, hs]
            simp only
            rw [h2]
            simp
          · intro k k1
            rw [ho2 k k1, List.getElem?_modify_ne _ _ (Ne.symm k1)]

theorem empty_tmp_stack_spec (instruction : Instruction) :
    ∀ (tmp_stack : List Char) (all_stacks : List (List Char)) (d : List Char),
      all_stacks[instruction.dst]? = some d →
      ∃ st, empty_tmp_stack instruction tmp_stack all_stacks = some st ∧
        st.length = all_stacks.length ∧
        st[instruction.dst]? = some (tmp_stack.reverse ++ d) ∧
        ∀ k, k ≠ instruction.dst → st[k]? = all_stacks[k]? := by
  intro tmp_stack
  induction tmp_stack with
  | nil =>
      intro all_stacks d hd
      exact ⟨all_stacks, rfl, rfl, by simpa using hd, fun _ _ => rfl⟩
  | cons top tmp_stack ih =>
      intro all_stacks d hd
      have hdl : instruction.dst < all_stacks.length := (List.getElem?_eq_some_iff.1 hd).1
      have hd1 : (all_stacks.modify (fun stack => top :: stack) instruction.dst)[
          instruction.dst]? = some (top :: d) := by
        rw [List.getElem?_modify_eq, hd]
        rfl
      obtain ⟨st, h2, hl2, hd2, ho2⟩ := ih _ (top :: d) hd1
      refine ⟨st, by rw [empty_tmp_stack, if_pos hdl]; exact h2,
        by rw [hl2, List.length_modify], by rw [hd2]; simp, ?_⟩
      intro k k1
      rw [ho2 k k1, List.getElem?_modify_ne _ _ (Ne.symm k1)]

/-- C33 (crate moves): for every stack configuration and every instruction with
`src ≠ dst`, both stacks in range and `amount` not above the height of the `src`
stack, `execute_multi` puts the top `amount` crates of `src` onto `dst` in their
original order and `execute_single` puts the same crates onto `dst` in reversed
order; in both cases `src` loses exactly those crates and every other stack is
unchanged, and the two results coincide when `amount ≤ 1`. Stacks are listed top
first. -/
theorem crate_moves (instruction : Instruction) (all_stacks : List (List Char))
    (s d : List Char) (hne : instruction.src ≠ instruction.dst)
    (hs : all_stacks[instruction.src]? = some s) (hd : all_stacks[instruction.dst]? = some d)
    (ha : instruction.amount ≤ s.length) :
    ∃ multi single,
      execute_multi instruction all_stacks = some multi ∧
      execute_single instruction all_stacks = some single ∧
      multi.length = all_stacks.length ∧ single.length = all_stacks.length ∧
      multi[instruction.dst]? = some (s.take instruction.amount ++ d) ∧
      single[instruction.dst]? = some ((s.take instruction.amount).reverse ++ d) ∧
      multi[instruction.src]? = some (s.drop instruction.amount) ∧
      single[instruction.src]? = some (s.drop instruction.amount) ∧
      (∀ k, k ≠ instruction.src → k ≠ instruction.dst →
        multi[k]? = all_stacks[k]? ∧ single[k]? = all_stacks[k]?) ∧
      (instruction.amount ≤ 1 → multi = single) := by
  obtain ⟨single, g1, gl, gs, gd, go⟩ :=
    execute_single_loop_spec instruction hne instruction.amount all_stacks s d hs hd ha
  obtain ⟨st1, f1, fl, fs, fo⟩ :=
    fill_tmp_stack_spec instruction instruction.amount all_stacks [] s hs ha
  have hd1 : st1[instruction.dst]? = some d := by
    rw [fo _ (Ne.symm hne), hd]
  obtain ⟨multi, e1, el, ed, eo⟩ :=
    empty_tmp_stack_spec instruction ((s.take instruction.amount).reverse) st1 d hd1
  rw [List.reverse_reverse] at ed
  have hms : multi[instruction.src]? = some (s.drop instruction.amount) := by
    rw [eo _ hne, fs]
  have hmo : ∀ k, k ≠ instruction.src → k ≠ instruction.dst → multi[k]? = all_stacks[k]? := by
    intro k k1 k2
    rw [eo k k2, fo k k1]
  refine ⟨multi, single, ?_, g1, el.trans fl, gl, ed, gd, hms, gs,
    fun k k1 k2 => ⟨hmo k k1 k2, go k k1 k2⟩, ?_⟩
  · rw [execute_multi, f1]
    simpa using e1
  · intro h1
    apply List.ext_getElem?
    intro k
    by_cases k1 : k = instruction.src
    · rw [k1, hms, gs]
    · by_cases k2 : k = instruction.dst
      · rw [k2, ed, gd]
        have : (s.take instruction.amount).reverse = s.take instruction.amount := by
          apply List.reverse_eq_iff.2
          have hl : (s.take instruction.amount).length ≤ 1 := by
            rw [List.length_take]; omega
          match s.take instruction.amount, hl with
          | [], _ => rfl
          | [_], _ => rfl
          | _ :: _ :: _, hl => simp at hl
        rw [this]
      · rw [hmo k k1 k2, go k k1 k2]

/-- C33 on the worked example of the puzzle: moving 3 crates from the stack
`D C M` (top first) onto the stack `P` gives `D C M P` with `execute_multi` and
`M C D P` with `execute_single`. -/
theorem crate_moves_witness :
    ∃ multi single,
      execute_multi (Instruction.new 3 2 3) [['N', 'Z'], ['D', 'C', 'M'], ['P']] =
        some multi ∧
      execute_single (Instruction.new 3 2 3) [['N', 'Z'], ['D', 'C', 'M'], ['P']] =
        some single ∧
      multi[2]? = some ['D', 'C', 'M', 'P'] ∧ single[2]? = some ['M', 'C', 'D', 'P'] ∧
      multi[1]? = some [] ∧ single[1]? = some [] := by
  obtain ⟨multi, single, h1, h2, -, -, h3, h4, h5, h6, -⟩ :=
    crate_moves (Instruction.new 3 2 3) [['N', 'Z'], ['D', 'C', 'M'], ['P']]
      ['D', 'C', 'M'] ['P'] (by decide) rfl rfl (by decide)
  exact ⟨multi, single, h1, h2, h3, h4, h5, h6⟩

end Day5

namespace Day8

theorem incr_decr (score : Nat) (h1 : 1 ≤ score) (h2 : score < 18446744073709551616) :
    incr (decr score) = score := by
  unfold incr decr
  omega

theorem incr_eq (score : Nat) (h : score + 1 < 18446744073709551616) :
    incr score = score + 1 := by
  unfold incr
  omega

theorem wrap32_natCast (n : Nat) (h : n < 2147483648) : wrap32 (n : Int) = n := by
  unfold wrap32
  omega

/-- The backward loop started at index `n` with a score of at least 1 adds, to the
score less one, the viewing distance along the line from index `n` down to 0. -/
theorem backward_loop_spec (cell : Nat → Option Tree) (height : Nat) (heights : List Nat) :
    ∀ (n score : Nat),
      (∀ i, i ≤ n → ∃ t, cell i = some t ∧ heights[i]? = some t.height) →
      1 ≤ score → score + n + 1 < 18446744073709551616 →
      backward_loop cell height (n + 1) score =
        some (score - 1 + viewing_distance height ((heights.take (n + 1)).reverse)) := by
  intro n
  induction n with
  | zero =>
      intro score hcell h1 h2
      obtain ⟨t, ht, hh⟩ := hcell 0 (le_refl 0)
      have hrev : (heights.take (0 + 1)).reverse = [t.height] := by
        rw [List.take_succ, hh]
        simp
      rw [hrev, backward_loop, ht]
      simp only [viewing_distance, if_true]
      by_cases hlt : t.height < height
      · rw [if_pos hlt, if_neg (by omega), backward_loop, incr_decr score h1 (by omega)]
        exact congrArg some (by omega)
      · rw [if_neg hlt, if_pos (by omega)]
        exact congrArg some (by omega)
  | succ n ih =>
      intro score hcell h1 h2
      obtain ⟨t, ht, hh⟩ := hcell (n + 1) (le_refl _)
      have hrev : (heights.take (n + 1 + 1)).reverse =
          t.height :: (heights.take (n + 1)).reverse := by
        rw [List.take_succ, hh]
        simp
      rw [hrev, backward_loop, ht]
      simp only [viewing_distance]
      by_cases hlt : t.height < height
      · rw [if_pos hlt, if_neg (by omega), if_neg (by omega), incr_eq score (by omega),
          ih (score + 1) (fun i hi => hcell i (by omega)) (by omega) (by omega)]
        exact congrArg some (by omega)
      · rw [if_neg hlt, if_pos (by omega)]
        exact congrArg some (by omega)

/-- The forward loop at index `it`, with a score of at least 1 and enough
iterations left, adds, to the score less one, the viewing distance along the line
from index `it` to the last index. -/
theorem forward_loop_spec (cell : Nat → Option Tree) (height : Nat) (heights : List Nat)
    (size : Nat) (hsize : size < 2147483648) (hlen : heights.length = size)
    (hcell : ∀ i, i < size → ∃ t, cell i = some t ∧ heights[i]? = some t.height) :
    ∀ (k it score fuel : Nat), it + k + 1 = size → 1 ≤ score →
      score + k + 1 < 18446744073709551616 → k + 2 ≤ fuel →
      forward_loop cell height (wrap32 (size : Int)) fuel it score =
        some (score - 1 + viewing_distance height (heights.drop it)) := by
  have hw : wrap32 (size : Int) = size := wrap32_natCast size hsize
  intro k
  induction k with
  | zero =>
      intro it score fuel hit h1 h2 hfuel
      obtain ⟨f, rfl⟩ : ∃ f, fuel = f + 1 + 1 := ⟨fuel - 2, by omega⟩
      obtain ⟨t, ht, hh⟩ := hcell it (by omega)
      have hdrop : heights.drop it = [t.height] := by
        have hlt : it < heights.length := by omega
        rw [List.drop_eq_getElem_cons hlt, List.drop_eq_nil_of_le (by omega)]
        rw [List.getElem?_eq_getElem hlt, Option.some.injEq] at hh
        rw [hh]
      have hedge : (it : Int) = wrap32 (wrap32 (size : Int) - 1) := by
        rw [hw]
        unfold wrap32
        omega
      rw [hdrop, forward_loop, if_pos (by rw [hw]; omega), ht]
      simp only [viewing_distance, if_true]
      by_cases hlt : t.height < height
      · rw [if_pos hlt, if_pos hedge, incr_decr score h1 (by omega), forward_loop,
          if_neg (by rw [hw]; push_cast; omega), if_neg (by omega)]
        exact congrArg some (by omega)
      · rw [if_neg hlt, if_pos (by omega)]
        exact congrArg some (by omega)
  | succ k ih =>
      intro it score fuel hit h1 h2 hfuel
      obtain ⟨f, rfl⟩ : ∃ f, fuel = f + 1 := ⟨fuel - 1, by omega⟩
      obtain ⟨t, ht, hh⟩ := hcell it (by omega)
      have hdrop : heights.drop it = t.height :: heights.drop (it + 1) := by
        have hlt : it < heights.length := by omega
        rw [List.drop_eq_getElem_cons hlt]
        rw [List.getElem?_eq_getElem hlt, Option.some.injEq] at hh
        rw [hh]
      have hedge : ¬ (it : Int) = wrap32 (wrap32 (size : Int) - 1) := by
        rw [hw]
        unfold wrap32
        omega
      rw [hdrop, forward_loop, if_pos (by rw [hw]; omega), ht]
      simp only [viewing_distance]
      by_cases hlt : t.height < height
      · rw [if_pos hlt, if_neg hedge, incr_eq score (by omega),
          ih (it + 1) (score + 1) f (by omega) (by omega) (by omega) (by omega),
          if_neg (by omega)]
        exact congrArg some (by omega)
      · rw [if_neg hlt, if_pos (by omega)]
        exact congrArg some (by omega)

/-- In a rectangular grid every position inside it holds a tree, whose height is
the entry of the column and of the row. -/
theorem tree_at_heights (grid : List (List Tree)) (cols : Nat) (hrect : Rectangular grid cols)
    (r c : Nat) (hr : r < grid.length) (hc : c < cols) :
    ∃ t, tree_at grid r c = some t ∧ (column_heights grid c)[r]? = some t.height ∧
      (row_heights grid r)[c]? = some t.height ∧ grid[r]? = some grid[r] ∧
      grid[r].length = cols := by
  have hg : grid[r]? = some grid[r] := List.getElem?_eq_getElem hr
  have hl : grid[r].length = cols := hrect _ (List.getElem_mem hr)
  have hc2 : c < grid[r].length := by omega
  have ht : grid[r][c]? = some grid[r][c] := List.getElem?_eq_getElem hc2
  refine ⟨grid[r][c], ?_, ?_, ?_, hg, hl⟩
  · rw [tree_at, hg]
    exact ht
  · rw [column_heights, List.getElem?_map, hg]
    simp only [Option.map_some', ht, Option.getD_some]
  · rw [row_heights, List.getElem?_map, List.getD_eq_getElem?_getD, hg]
    simp only [Option.getD_some, ht, Option.map_some']

/-- The four loops compute the four viewing distances, and the scenic score is
their product in `std::size_t` arithmetic. -/
theorem scores_spec (grid : List (List Tree)) (cols row col : Nat)
    (hrect : Rectangular grid cols)
    (hrows : grid.length < 2147483648) (hcols : cols < 2147483648)
    (hr : row + 1 < grid.length) (hc : col + 1 < cols) (height : Nat) :
    (1 ≤ row → up_score grid row col height =
      some (viewing_distance height (line_up grid row col))) ∧
    down_score grid row col height =
      some (viewing_distance height (line_down grid row col)) ∧
    (1 ≤ col → left_score grid row col height =
      some (viewing_distance height (line_left grid row col))) ∧
    right_score grid row col height =
      some (viewing_distance height (line_right grid row col)) := by
  have hcol : ∀ i, i < grid.length → ∃ t, tree_at grid i col = some t ∧
      (column_heights grid col)[i]? = some t.height := by
    intro i hi
    obtain ⟨t, h1, h2, -⟩ := tree_at_heights grid cols hrect i col hi (by omega)
    exact ⟨t, h1, h2⟩
  have hrow : ∀ i, i < cols → ∃ t, tree_at grid row i = some t ∧
      (row_heights grid row)[i]? = some t.height := by
    intro i hi
    obtain ⟨t, h1, -, h3, -⟩ := tree_at_heights grid cols hrect row i (by omega) hi
    exact ⟨t, h1, h3⟩
  obtain ⟨-, -, -, -, hg, hl⟩ := tree_at_heights grid cols hrect row col (by omega) (by omega)
  refine ⟨fun h1 => ?_, ?_, fun h1 => ?_, ?_⟩
  · obtain ⟨n, rfl⟩ : ∃ n, row = n + 1 := ⟨row - 1, by omega⟩
    rw [up_score, backward_loop_spec _ height (column_heights grid col) n 1
      (fun i hi => hcol i (by omega)) (le_refl 1) (by omega)]
    simp only [Nat.sub_self, Nat.zero_add, line_up]
  · rw [down_score, forward_loop_spec _ height (column_heights grid col) grid.length hrows
      (by simp [column_heights]) hcol (grid.length - (row + 1) - 1) (row + 1) 1 grid.length
      (by omega) (le_refl 1) (by omega) (by omega)]
    simp only [Nat.sub_self, Nat.zero_add, line_down]
  · obtain ⟨n, rfl⟩ : ∃ n, col = n + 1 := ⟨col - 1, by omega⟩
    rw [left_score, backward_loop_spec _ height (row_heights grid row) n 1
      (fun i hi => hrow i (by omega)) (le_refl 1) (by omega)]
    simp only [Nat.sub_self, Nat.zero_add, line_left]
  · rw [right_score, hg]
    simp only [hl]
    rw [forward_loop_spec _ height (row_heights grid row) cols hcols
      (by rw [row_heights, List.length_map, List.getD_eq_getElem?_getD, hg]; exact hl)
      hrow (cols - (col + 1) - 1) (col + 1) 1 cols
      (by omega) (le_refl 1) (by omega) (by omega)]
    simp only [Nat.sub_self, Nat.zero_add, line_right]

/-- The scenic score of an interior tree of a rectangular grid whose dimensions are
values of `int`. -/
theorem scenic_score_product (grid : List (List Tree)) (cols row col : Nat)
    (hrect : Rectangular grid cols)
    (hrows : grid.length < 2147483648) (hcols : cols < 2147483648)
    (hr1 : 1 ≤ row) (hr : row + 1 < grid.length) (hc1 : 1 ≤ col) (hc : col + 1 < cols) :
    ∃ tree, tree_at grid row col = some tree ∧
      scenic_score grid row col =
        some ((viewing_distance tree.height (line_up grid row col) *
          viewing_distance tree.height (line_down grid row col) *
          viewing_distance tree.height (line_left grid row col) *
          viewing_distance tree.height (line_right grid row col)) % 18446744073709551616) := by
  obtain ⟨tree, ht, -⟩ := tree_at_heights grid cols hrect row col (by omega) (by omega)
  obtain ⟨hu, hd, hl, hrt⟩ :=
    scores_spec grid cols row col hrect hrows hcols hr hc tree.height
  refine ⟨tree, ht, ?_⟩
  rw [scenic_score, ht]
  simp only [hu hr1, hd, hl hc1, hrt, Option.bind_some, Option.some_bind]
  have hmod : ∀ a b c : Nat, (a % 18446744073709551616 * b * c) % 18446744073709551616 =
      (a * b * c) % 18446744073709551616 := by
    intro a b c
    rw [Nat.mul_assoc, Nat.mod_mul_mod, ← Nat.mul_assoc]
  rw [Nat.mod_mul_mod, hmod]

/-- C34, amended (scenic score): for every rectangular grid with fewer than
`2 ^ 31` rows and columns and every interior tree, each of the four directional
scores computed by the loops equals the viewing distance in that direction (the
number of trees from the neighbour up to and including the first tree at least as
high as the tree itself, or up to the edge when there is none); the scenic score is
the product of the four reduced modulo `2 ^ 64`, which is the product itself when
that is below `2 ^ 64`. -/
theorem scenic_score_spec (grid : List (List Tree)) (cols row col : Nat)
    (hrect : Rectangular grid cols)
    (hrows : grid.length < 2147483648) (hcols : cols < 2147483648)
    (hr1 : 1 ≤ row) (hr : row + 1 < grid.length) (hc1 : 1 ≤ col) (hc : col + 1 < cols) :
    ∃ tree, tree_at grid row col = some tree ∧
      up_score grid row col tree.height =
        some (viewing_distance tree.height (line_up grid row col)) ∧
      down_score grid row col tree.height =
        some (viewing_distance tree.height (line_down grid row col)) ∧
      left_score grid row col tree.height =
        some (viewing_distance tree.height (line_left grid row col)) ∧
      right_score grid row col tree.height =
        some (viewing_distance tree.height (line_right grid row col)) ∧
      scenic_score grid row col =
        some ((viewing_distance tree.height (line_up grid row col) *
          viewing_distance tree.height (line_down grid row col) *
          viewing_distance tree.height (line_left grid row col) *
          viewing_distance tree.height (line_right grid row col)) % 18446744073709551616) ∧
      (viewing_distance tree.height (line_up grid row col) *
          viewing_distance tree.height (line_down grid row col) *
          viewing_distance tree.height (line_left grid row col) *
          viewing_distance tree.height (line_right grid row col) < 18446744073709551616 →
        scenic_score grid row col =
          some (viewing_distance tree.height (line_up grid row col) *
            viewing_distance tree.height (line_down grid row col) *
            viewing_distance tree.height (line_left grid row col) *
            viewing_distance tree.height (line_right grid row col))) := by
  obtain ⟨tree, ht, hs⟩ :=
    scenic_score_product grid cols row col hrect hrows hcols hr1 hr hc1 hc
  obtain ⟨hu, hd, hl, hrt⟩ :=
    scores_spec grid cols row col hrect hrows hcols hr hc tree.height
  refine ⟨tree, ht, hu hr1, hd, hl hc1, hrt, hs, fun hlt => ?_⟩
  rw [hs, Nat.mod_eq_of_lt hlt]

set_option maxRecDepth 100000 in
/-- C34 on the worked example of the puzzle: the tree of height 5 in the middle of
the fourth row has the scores 2 (up), 1 (down), 2 (left) and 2 (right) and the
scenic score 8. -/
theorem scenic_score_spec_witness :
    ∃ tree, tree_at sample_grid 3 2 = some tree ∧ tree.height = 5 ∧
      up_score sample_grid 3 2 tree.height = some 2 ∧
      down_score sample_grid 3 2 tree.height = some 1 ∧
      left_score sample_grid 3 2 tree.height = some 2 ∧
      right_score sample_grid 3 2 tree.height = some 2 ∧
      scenic_score sample_grid 3 2 = some 8 := by
  obtain ⟨tree, ht, hu, hd, hl, hr, hs, -⟩ :=
    scenic_score_spec sample_grid 5 3 2 (by decide) (by decide) (by decide) (by decide)
      (by decide) (by decide) (by decide)
  have e : tree = Tree.ofHeight 5 := Option.some.inj (ht.symm.trans (by decide))
  subst e
  exact ⟨_, ht, rfl, hu.trans (by decide), hd.trans (by decide), hl.trans (by decide),
    hr.trans (by decide), hs.trans (by decide)⟩

end Day8

namespace Day8

theorem viewing_distance_replicate (height x : Nat) (hx : x < height) :
    ∀ n : Nat, viewing_distance height (List.replicate n x) = n := by
  intro n
  induction n with
  | zero => rfl
  | succ n ih =>
      rw [List.replicate_succ, viewing_distance, if_neg (by omega), ih]
      omega

theorem drop_succ_append_cons {α : Type} (l1 l2 : List α) (x : α) (n : Nat)
    (h : l1.length = n) : (l1 ++ x :: l2).drop (n + 1) = l2 := by
  rw [List.append_cons]
  exact List.drop_left' (by simp [h])

theorem peak_grid_length (n : Nat) : (peak_grid n).length = 2 * n + 1 := by
  simp only [peak_grid, List.length_append, List.length_cons, List.length_replicate]
  omega

theorem peak_grid_rectangular (n : Nat) : Rectangular (peak_grid n) (2 * n + 1) := by
  intro trees h
  simp only [peak_grid, List.mem_append, List.mem_cons, List.mem_replicate] at h
  rcases h with ⟨-, rfl⟩ | rfl | ⟨-, rfl⟩
  · simp
  · simp only [List.length_append, List.length_cons, List.length_replicate]
    omega
  · simp

theorem peak_row_middle (n : Nat) :
    (List.replicate n (Tree.ofHeight 0) ++
      Tree.ofHeight 1 :: List.replicate n (Tree.ofHeight 0))[n]? = some (Tree.ofHeight 1) := by
  rw [List.getElem?_append_right (by simp), List.length_replicate, Nat.sub_self,
    List.getElem?_cons_zero]

theorem peak_grid_middle_row (n : Nat) :
    (peak_grid n)[n]? = some (List.replicate n (Tree.ofHeight 0) ++
      Tree.ofHeight 1 :: List.replicate n (Tree.ofHeight 0)) := by
  rw [peak_grid, List.getElem?_append_right (by simp), List.length_replicate, Nat.sub_self,
    List.getElem?_cons_zero]

theorem peak_grid_column (n : Nat) :
    column_heights (peak_grid n) n = List.replicate n 0 ++ 1 :: List.replicate n 0 := by
  have h1 : (List.replicate (2 * n + 1) (Tree.ofHeight 0))[n]? = some (Tree.ofHeight 0) := by
    rw [List.getElem?_replicate, if_pos (by omega)]
  rw [column_heights, peak_grid, List.map_append, List.map_cons, List.map_replicate,
    peak_row_middle, h1]
  rfl

theorem peak_grid_row (n : Nat) :
    row_heights (peak_grid n) n = List.replicate n 0 ++ 1 :: List.replicate n 0 := by
  rw [row_heights, List.getD_eq_getElem?_getD, peak_grid_middle_row, Option.getD_some,
    List.map_append, List.map_cons, List.map_replicate]
  rfl

/-- The scores of the middle tree of `peak_grid n`: every viewing distance is `n`
and the scenic score is `n ^ 4` reduced modulo `2 ^ 64`. -/
theorem peak_grid_scores (n : Nat) (h1 : 1 ≤ n) (h2 : 2 * n + 1 < 2147483648) :
    tree_at (peak_grid n) n n = some (Tree.ofHeight 1) ∧
      viewing_distance 1 (line_up (peak_grid n) n n) = n ∧
      viewing_distance 1 (line_down (peak_grid n) n n) = n ∧
      viewing_distance 1 (line_left (peak_grid n) n n) = n ∧
      viewing_distance 1 (line_right (peak_grid n) n n) = n ∧
      scenic_score (peak_grid n) n n = some ((n * n * n * n) % 18446744073709551616) := by
  have ht : tree_at (peak_grid n) n n = some (Tree.ofHeight 1) := by
    rw [tree_at, peak_grid_middle_row]
    exact peak_row_middle n
  have hu : viewing_distance 1 (line_up (peak_grid n) n n) = n := by
    rw [line_up, peak_grid_column, List.take_left' (List.length_replicate _ _),
      List.reverse_replicate]
    exact viewing_distance_replicate 1 0 (by decide) n
  have hd : viewing_distance 1 (line_down (peak_grid n) n n) = n := by
    rw [line_down, peak_grid_column,
      drop_succ_append_cons _ _ _ n (List.length_replicate _ _)]
    exact viewing_distance_replicate 1 0 (by decide) n
  have hl : viewing_distance 1 (line_left (peak_grid n) n n) = n := by
    rw [line_left, peak_grid_row, List.take_left' (List.length_replicate _ _),
      List.reverse_replicate]
    exact viewing_distance_replicate 1 0 (by decide) n
  have hr : viewing_distance 1 (line_right (peak_grid n) n n) = n := by
    rw [line_right, peak_grid_row,
      drop_succ_append_cons _ _ _ n (List.length_replicate _ _)]
    exact viewing_distance_replicate 1 0 (by decide) n
  refine ⟨ht, hu, hd, hl, hr, ?_⟩
  obtain ⟨tree, ht2, hs⟩ := scenic_score_product (peak_grid n) (2 * n + 1) n n
    (peak_grid_rectangular n) (by rw [peak_grid_length]; exact h2) h2 h1
    (by rw [peak_grid_length]; omega) h1 (by omega)
  rw [ht, Option.some.injEq] at ht2
  subst ht2
  have hh : (Tree.ofHeight 1).height = 1 := rfl
  rw [hh, hu, hd, hl, hr] at hs
  exact hs

theorem tall_grid_length (m : Nat) : (tall_grid m).length = m + 1 + 1 := by
  simp only [tall_grid, List.length_cons, List.length_replicate]

/-- In `tall_grid m` the tree at `(1, 1)` sees `m` trees below it; when the number
of rows `m + 2`, converted to `int`, is at most 2, the loop "down" ends before its
first iteration. -/
theorem tall_grid_down (m : Nat) (h : wrap32 ((m + 1 + 1 : Nat) : Int) ≤ 2) :
    tree_at (tall_grid m) 1 1 = some (Tree.ofHeight 1) ∧
      down_score (tall_grid m) 1 1 1 = some 1 ∧
      viewing_distance 1 (line_down (tall_grid m) 1 1) = m := by
  refine ⟨?_, ?_, ?_⟩
  · simp only [tree_at, tall_grid, List.getElem?_cons_succ, List.getElem?_cons_zero]
  · rw [down_score, tall_grid_length, forward_loop, if_neg]
    push_cast at h ⊢
    omega
  · have hc : column_heights (tall_grid m) 1 = 0 :: 1 :: List.replicate m 0 := by
      rw [column_heights, tall_grid, List.map_cons, List.map_cons, List.map_replicate]
      rfl
    rw [line_down, hc]
    exact viewing_distance_replicate 1 0 (by decide) m

/-- C34 as stated fails beyond the ranges of `std::size_t` and `int`. In the square
grid of side 131073 whose trees have height 0 except the middle one, of height 1,
the middle tree has the viewing distance 65536 in each direction; the product of the
four is `2 ^ 64` and the scenic score computed is 0. In the grid of `2 ^ 31` rows of
three trees of height 0, except the tree of height 1 at `(1, 1)`, that tree sees
2147483646 trees below it, and the loop "down", which compares with
`static_cast<int>(grid.size()) = -2 ^ 31`, leaves the score 1. -/
theorem scenic_score_overflow :
    (tree_at (peak_grid 65536) 65536 65536 = some (Tree.ofHeight 1) ∧
      viewing_distance 1 (line_up (peak_grid 65536) 65536 65536) = 65536 ∧
      viewing_distance 1 (line_down (peak_grid 65536) 65536 65536) = 65536 ∧
      viewing_distance 1 (line_left (peak_grid 65536) 65536 65536) = 65536 ∧
      viewing_distance 1 (line_right (peak_grid 65536) 65536 65536) = 65536 ∧
      scenic_score (peak_grid 65536) 65536 65536 = some 0 ∧
      65536 * 65536 * 65536 * 65536 = 18446744073709551616) ∧
    (tree_at (tall_grid 2147483646) 1 1 = some (Tree.ofHeight 1) ∧
      down_score (tall_grid 2147483646) 1 1 1 = some 1 ∧
      viewing_distance 1 (line_down (tall_grid 2147483646) 1 1) = 2147483646) := by
  obtain ⟨a1, a2, a3, a4, a5, a6⟩ := peak_grid_scores 65536 (by norm_num) (by norm_num)
  exact ⟨⟨a1, a2, a3, a4, a5, a6.trans (by norm_num), by norm_num⟩,
    tall_grid_down 2147483646 (by norm_num [wrap32])⟩

end Day8
